import Mathlib

/-!
Delaunay discretizer: shallow embedding and verified properties.

Source: `Source/Discretization/DelaunayDiscretizer.cc`.

Conventions of the embedding.

* `double` coordinates are exact rationals (`ℚ`).
* The three owning containers of the mesh (`std::set` of vertices, edges and
  triangles) are lists without repetition; the list order stands for the
  iteration order of the container and `emplace` appends a new element at the
  end.  Containers of pointers (`vertex.edges`, `edge.triangles`, the queue of
  `LegalizeEdges`) are lists in the same way.
* A C++ exception, a failed `assert` and undefined behaviour (dereferencing
  `end()` or `nullptr`) end the call; the mesh is returned as it stood at that
  moment together with the error (`Outcome`).
* Recursion and loops that the source does not bound take a fuel argument;
  running out of fuel is reported as the error `Diverges`.
-/

namespace Delaunay

/-! ## Geometry -/

/-- A point of the plane (`Shape::Point`), also used for `Mesh::Vertex`: a vertex
is identified by its coordinates. -/
structure Point where
  x : ℚ
  y : ℚ
deriving DecidableEq, Repr

/-- The constant `EPS` of the anonymous namespace (line 16). -/
def EPS : ℚ := 1 / 1000000

/-- Modelled from the spec: the constant `EPSILON` used by the in-circle tests is
declared outside the discretizer; the spec gives the single global tolerance as
`1e-6`. -/
def EPSILON : ℚ := 1 / 1000000

/-- The function `fabs`. -/
def fabs (a : ℚ) : ℚ := if a < 0 then -a else a

/-- `ConvexityOfStep` (lines 18-34): `-1` the step breaks convexity, `0` the step
is linear, `1` the step maintains convexity. -/
def ConvexityOfStep (vtx0 vtx1 vtx2 : Point) : Int :=
  let v1 : Point := ⟨vtx1.x - vtx0.x, vtx1.y - vtx0.y⟩
  let v2 : Point := ⟨vtx2.x - vtx1.x, vtx2.y - vtx1.y⟩
  let unnormalizedSin := v1.x * v2.y - v2.x * v1.y
  if fabs unnormalizedSin < EPS then 0
  else if unnormalizedSin > 0 then 1
  else -1

/-! ## Mesh store -/

/-- Modelled from the spec: `Mesh::Edge`, a pair of vertex references `A`, `B`
whose identity is the unordered pair (§3). -/
structure Edge where
  A : Point
  B : Point
deriving DecidableEq, Repr

/-- Modelled from the spec: `Mesh::Triangle`, determined by three distinct
vertices `A`, `B`, `C`; its identity is the unordered triple (§3). -/
structure Triangle where
  A : Point
  B : Point
  C : Point
deriving DecidableEq, Repr

/-- Identity of edges: the unordered pair of end points. -/
def Edge.same (e f : Edge) : Bool :=
  (decide (e.A = f.A) && decide (e.B = f.B)) || (decide (e.A = f.B) && decide (e.B = f.A))

/-- Whether `p` is an end point of the edge. -/
def Edge.hasVertex (e : Edge) (p : Point) : Bool :=
  decide (e.A = p) || decide (e.B = p)

/-- Whether `p` is a vertex of the triangle. -/
def Triangle.hasVertex (t : Triangle) (p : Point) : Bool :=
  decide (t.A = p) || decide (t.B = p) || decide (t.C = p)

/-- Identity of triangles: the unordered triple of vertices. -/
def Triangle.same (t u : Triangle) : Bool :=
  t.hasVertex u.A && t.hasVertex u.B && t.hasVertex u.C &&
  u.hasVertex t.A && u.hasVertex t.B && u.hasVertex t.C

/-- Whether the edge is one of the three edges of the triangle. -/
def Triangle.hasEdge (t : Triangle) (e : Edge) : Bool :=
  e.same ⟨t.A, t.B⟩ || e.same ⟨t.B, t.C⟩ || e.same ⟨t.A, t.C⟩

/-- Modelled from the spec: `circumcircle(A, B, C)` of §4.G, the centre obtained
from the intersection of the perpendicular bisectors (cached by the triangle as
`circumcenter`). -/
def Triangle.circumcenter (t : Triangle) : Point :=
  let d := 2 * (t.A.x * (t.B.y - t.C.y) + t.B.x * (t.C.y - t.A.y) + t.C.x * (t.A.y - t.B.y))
  let a2 := t.A.x * t.A.x + t.A.y * t.A.y
  let b2 := t.B.x * t.B.x + t.B.y * t.B.y
  let c2 := t.C.x * t.C.x + t.C.y * t.C.y
  ⟨(a2 * (t.B.y - t.C.y) + b2 * (t.C.y - t.A.y) + c2 * (t.A.y - t.B.y)) / d,
   (a2 * (t.C.x - t.B.x) + b2 * (t.A.x - t.C.x) + c2 * (t.B.x - t.A.x)) / d⟩

/-- Modelled from the spec: the squared radius returned by `circumcircle(A, B, C)`
of §4.G; it stands for the product `circumradius*circumradius` of the source. -/
def Triangle.circumradiusSq (t : Triangle) : ℚ :=
  let c := t.circumcenter
  (c.x - t.A.x) * (c.x - t.A.x) + (c.y - t.A.y) * (c.y - t.A.y)

/-- Modelled from the spec: `contains(T, p)` of §4.G, three orientation tests of
the same sign with a tolerance that admits the boundary. -/
def Contains (t : Triangle) (p : Point) : Bool :=
  let s1 := ConvexityOfStep t.A t.B p
  let s2 := ConvexityOfStep t.B t.C p
  let s3 := ConvexityOfStep t.C t.A p
  (decide (0 ≤ s1) && decide (0 ≤ s2) && decide (0 ≤ s3)) ||
  (decide (s1 ≤ 0) && decide (s2 ≤ 0) && decide (s3 ≤ 0))

/-- The mesh (`Mesh::Mesh`): the three owning sets and the perimeter. -/
structure Mesh where
  vertices : List Point
  edges : List Edge
  triangles : List Triangle
  perimeter : List Point
deriving DecidableEq, Repr

/-- The ways in which a call can end abnormally. -/
inductive Error where
  | InvalidInput
  | Degenerate
  | Inconsistent
  | Undefined
  | Diverges
deriving DecidableEq, Repr

deriving instance DecidableEq for Except

/-- The mesh as a call leaves it, and the error that ended the call, if any. -/
structure Outcome where
  mesh : Mesh
  error : Option Error
deriving DecidableEq, Repr

/-- Modelled from the spec: the back-reference `vertex.edges` of §3 and §4.M.  The
store maintains it on every insertion and removal, so it is read off the edge
set. -/
def Mesh.edgesOf (m : Mesh) (p : Point) : List Edge :=
  m.edges.filter (fun e => e.hasVertex p)

/-- Modelled from the spec: the back-reference `edge.triangles` of §3 and §4.M,
read off the triangle set. -/
def Mesh.trianglesOf (m : Mesh) (e : Edge) : List Triangle :=
  m.triangles.filter (fun t => t.hasEdge e)

/-- Modelled from the spec: deduplicating insertion of a vertex (§4.M). -/
def Mesh.emplaceVertex (m : Mesh) (p : Point) : Mesh :=
  if p ∈ m.vertices then m else { m with vertices := m.vertices ++ [p] }

/-- Modelled from the spec: deduplicating insertion of an edge (§4.M); creating a
degenerate edge (`A == B`) fails with `Degenerate`.  Returns the mesh and the
stored edge. -/
def Mesh.emplaceEdge (m : Mesh) (a b : Point) : Except Error (Mesh × Edge) :=
  if a = b then .error .Degenerate
  else
    match m.edges.find? (fun e => e.same ⟨a, b⟩) with
    | some e => .ok (m, e)
    | none => .ok ({ m with edges := m.edges ++ [⟨a, b⟩] }, ⟨a, b⟩)

/-- Modelled from the spec: a triangle is degenerate when two of its vertices
coincide or the three are collinear (§4.M), collinearity being judged with the
tolerance as in `ConvexityOfStep`. -/
def degenerateTriangle (a b c : Point) : Bool :=
  decide (a = b) || decide (b = c) || decide (a = c) || decide (ConvexityOfStep a b c = 0)

/-- Modelled from the spec: deduplicating insertion of a triangle (§4.M); creating
a degenerate triangle fails with `Degenerate`.  The call `emplace(ab, bc, ac)` of
the source is written with the vertices that the three edges share: `a` is common
to `ab` and `ac`, `b` to `ab` and `bc`, `c` to `bc` and `ac`. -/
def Mesh.emplaceTriangle (m : Mesh) (a b c : Point) : Except Error Mesh :=
  if degenerateTriangle a b c then .error .Degenerate
  else if m.triangles.any (fun t => t.same ⟨a, b, c⟩) then .ok m
  else .ok { m with triangles := m.triangles ++ [⟨a, b, c⟩] }

/-- Modelled from the spec: removal of a triangle from the triangle set (§4.M). -/
def Mesh.eraseTriangle (m : Mesh) (t : Triangle) : Mesh :=
  { m with triangles := m.triangles.filter (fun u => !u.same t) }

/-- Modelled from the spec: removal of an edge from the edge set (§4.M). -/
def Mesh.eraseEdge (m : Mesh) (e : Edge) : Mesh :=
  { m with edges := m.edges.filter (fun f => !f.same e) }

/-- The stored edge joining `a` and `b` (`t->AB()` and its siblings). -/
def Mesh.edgeRef (m : Mesh) (a b : Point) : Edge :=
  (m.edges.find? (fun e => e.same ⟨a, b⟩)).getD ⟨a, b⟩

/-- Insertion into a `std::set` of edge pointers. -/
def insertEdge (q : List Edge) (e : Edge) : List Edge :=
  if q.any (fun f => f.same e) then q else q ++ [e]

/-- The vertex of `t` opposite the edge `(I, J)`, chosen as in lines 274-278. -/
def oppositeVertex (t : Triangle) (I J : Point) : Point :=
  let K := t.A
  let K := if K = I ∨ K = J then t.B else K
  let K := if K = I ∨ K = J then t.C else K
  K

/-! ## The discretizer -/

/-- `DelaunayDiscretizer::Mesh` (lines 42-54): every point of the polygon is
emplaced in the vertex set and the perimeter is set to the polygon's points. -/
def DelaunayDiscretizer.Mesh (polygon : List Point) (mesh : Mesh) : Mesh :=
  let m := polygon.foldl (fun acc p => acc.emplaceVertex p) mesh
  { m with perimeter := polygon }

/-- The working variables of one pass of `LegalizeEdges`. -/
structure FlipState where
  mesh : Mesh
  edges : List Edge
  isLegal : Bool
  ik : Option Edge
  jk : Option Edge
  il : Option Edge
  jl : Option Edge
deriving DecidableEq, Repr

/-- The two loops of lines 300-311 (and 325-336): every edge of `P` that has `Q`
as an end point is recorded and inserted in the queue. -/
def scanEdges (mesh : Mesh) (P Q : Point) (found : Option Edge) (edges : List Edge) :
    Option Edge × List Edge :=
  (mesh.edgesOf P).foldl
    (fun acc e => if e.A = Q ∨ e.B = Q then (some e, insertEdge acc.2 e) else acc)
    (found, edges)

/-- Lines 294-315: the test of `L` against the circumcircle of `t1`, made when the
focus vertex is `L`. -/
def focusL (v : Point) (t1 : Triangle) (I J K L : Point) (s : FlipState) :
    FlipState × Option Error :=
  let C := t1.circumcenter
  let d2 := (C.x - L.x) * (C.x - L.x) + (C.y - L.y) * (C.y - L.y)
  if v = L then
    if d2 + EPSILON < t1.circumradiusSq then
      let r1 := scanEdges s.mesh I K s.ik s.edges
      let r2 := scanEdges s.mesh J K s.jk r1.2
      let s1 : FlipState := { s with isLegal := false, ik := r1.1, jk := r2.1, edges := r2.2 }
      match s1.mesh.emplaceEdge I L with
      | .error e => (s1, some e)
      | .ok (m1, il) =>
        match m1.emplaceEdge J L with
        | .error e => ({ s1 with mesh := m1, il := some il }, some e)
        | .ok (m2, jl) => ({ s1 with mesh := m2, il := some il, jl := some jl }, none)
    else (s, none)
  else (s, none)

/-- Lines 317-340: the test of `K` against the circumcircle of `t2`, made when the
focus vertex is `K`. -/
def focusK (v : Point) (t2 : Triangle) (I J K L : Point) (s : FlipState) :
    FlipState × Option Error :=
  if v = K then
    let C := t2.circumcenter
    let d2 := (C.x - K.x) * (C.x - K.x) + (C.y - K.y) * (C.y - K.y)
    if d2 + EPSILON < t2.circumradiusSq then
      let r1 := scanEdges s.mesh I L s.il s.edges
      let r2 := scanEdges s.mesh J L s.jl r1.2
      let s1 : FlipState := { s with isLegal := false, il := r1.1, jl := r2.1, edges := r2.2 }
      match s1.mesh.emplaceEdge I K with
      | .error e => (s1, some e)
      | .ok (m1, ik) =>
        match m1.emplaceEdge J K with
        | .error e => ({ s1 with mesh := m1, ik := some ik }, some e)
        | .ok (m2, jk) => ({ s1 with mesh := m2, ik := some ik, jk := some jk }, none)
    else (s, none)
  else (s, none)

/-- Lines 342-352: the flip.  The edge `(K, L)` is emplaced, `t1`, `t2` and the
edge are erased and the triangles `(ik, kl, il)` and `(jk, kl, jl)` are emplaced;
a null `ik`, `jk`, `il` or `jl` is dereferenced there.  The edges `ik`, `il` join
`I` to `K` and to `L`, and `jk`, `jl` join `J` to `K` and to `L`, so that the
triangles are `(I, K, L)` and `(J, K, L)`. -/
def flip (edge : Edge) (t1 t2 : Triangle) (I J K L : Point) (s : FlipState) :
    FlipState × Option Error :=
  match s.mesh.emplaceEdge K L with
  | .error e => (s, some e)
  | .ok (m1, _) =>
    let m2 := ((m1.eraseTriangle t1).eraseTriangle t2).eraseEdge edge
    match s.ik, s.il with
    | some _, some _ =>
      match m2.emplaceTriangle I K L with
      | .error e => ({ s with mesh := m2 }, some e)
      | .ok m3 =>
        match s.jk, s.jl with
        | some _, some _ =>
          match m3.emplaceTriangle J K L with
          | .error e => ({ s with mesh := m3 }, some e)
          | .ok m4 => ({ s with mesh := m4 }, none)
        | _, _ => ({ s with mesh := m3 }, some .Undefined)
    | _, _ => ({ s with mesh := m2 }, some .Undefined)

/-- Lines 269-352: the treatment of a dequeued edge that has the two incident
triangles `t1` and `t2`. -/
def legalizeStep (v : Point) (edge : Edge) (t1 t2 : Triangle) (edges : List Edge)
    (mesh : Mesh) : FlipState × Option Error :=
  let I := edge.A
  let J := edge.B
  let K := oppositeVertex t1 I J
  let L := oppositeVertex t2 I J
  let s0 : FlipState := ⟨mesh, edges, true, none, none, none, none⟩
  match focusL v t1 I J K L s0 with
  | (s1, some e) => (s1, some e)
  | (s1, none) =>
    match focusK v t2 I J K L s1 with
    | (s2, some e) => (s2, some e)
    | (s2, none) =>
      if !s2.isLegal then flip edge t1 t2 I J K L s2 else (s2, none)

/-- `DelaunayDiscretizer::LegalizeEdges` (lines 249-354).  Returns the outcome and
the queue as the call leaves it.  The two `assert`s of lines 261-262 are active: an
edge with no or with more than two incident triangles ends the call with
`Inconsistent`. -/
def LegalizeEdges : Nat → Point → List Edge → Mesh → Outcome × List Edge
  | _, _, [], mesh => (⟨mesh, none⟩, [])
  | 0, _, edge :: edges, mesh => (⟨mesh, some .Diverges⟩, edge :: edges)
  | fuel + 1, v, edge :: edges, mesh =>
    match mesh.trianglesOf edge with
    | [] => (⟨mesh, some .Inconsistent⟩, edges)
    | [_] => LegalizeEdges fuel v edges mesh
    | [t1, t2] =>
      match legalizeStep v edge t1 t2 edges mesh with
      | (s, some e) => (⟨s.mesh, some e⟩, s.edges)
      | (s, none) => LegalizeEdges fuel v s.edges s.mesh
    | _ :: _ :: _ :: _ => (⟨mesh, some .Inconsistent⟩, edges)

/-- The number of passes that the callers grant to `LegalizeEdges`: a flip removes
an edge that is not incident to the focus vertex and adds at most two edges to the
queue, every other pass shortens the queue. -/
def legalizeFuel (edges : List Edge) (mesh : Mesh) : Nat :=
  3 * mesh.edges.length + edges.length + 1

/-- `DelaunayDiscretizer::SplitTriangle` (lines 126-157). -/
def SplitTriangle (t : Triangle) (v : Point) (mesh : Mesh) : Outcome :=
  let A := t.A
  let B := t.B
  let C := t.C
  let D := v
  let AB := mesh.edgeRef A B
  let BC := mesh.edgeRef B C
  let AC := mesh.edgeRef A C
  match mesh.emplaceEdge A D with
  | .error e => ⟨mesh, some e⟩
  | .ok (m1, _) =>
  match m1.emplaceEdge B D with
  | .error e => ⟨m1, some e⟩
  | .ok (m2, _) =>
  match m2.emplaceEdge C D with
  | .error e => ⟨m2, some e⟩
  | .ok (m3, _) =>
  match m3.emplaceTriangle A B D with
  | .error e => ⟨m3, some e⟩
  | .ok m4 =>
  match m4.emplaceTriangle A C D with
  | .error e => ⟨m4, some e⟩
  | .ok m5 =>
  match m5.emplaceTriangle B C D with
  | .error e => ⟨m5, some e⟩
  | .ok m6 =>
    let m7 := m6.eraseTriangle t
    let edges := insertEdge (insertEdge (insertEdge [] AB) BC) AC
    (LegalizeEdges (legalizeFuel edges m7) v edges m7).1

/-- `DelaunayDiscretizer::FindContainingTriangle` (lines 115-124). -/
def FindContainingTriangle (p : Point) (mesh : Mesh) : Option Triangle :=
  mesh.triangles.find? (fun t => Contains t p)

/-- `DelaunayDiscretizer::ConstructInitialMeshFromPerimeter` (lines 86-97).  The
polygon discretizer is an external collaborator and is passed as
`polygonDiscretizer`. -/
def ConstructInitialMeshFromPerimeter (polygonDiscretizer : Mesh → Outcome) (mesh : Mesh) :
    Outcome :=
  if mesh.triangles.length ≠ 0 then ⟨mesh, none⟩
  else if mesh.perimeter.length < 3 then ⟨mesh, some .InvalidInput⟩
  else polygonDiscretizer mesh

/-- `DelaunayDiscretizer::AddInteriorPoint` (lines 99-113). -/
def AddInteriorPoint (polygonDiscretizer : Mesh → Outcome) (p : Point) (mesh : Mesh) :
    Outcome :=
  let r :=
    if mesh.triangles.length = 0 then ConstructInitialMeshFromPerimeter polygonDiscretizer mesh
    else ⟨mesh, none⟩
  match r.error with
  | some e => ⟨r.mesh, some e⟩
  | none =>
    let m1 := r.mesh.emplaceVertex p
    match FindContainingTriangle p m1 with
    | some containingTriangle => SplitTriangle containingTriangle p m1
    | none => ⟨m1, none⟩

/-- Insertion into a set of triangle pointers. -/
def insertTriangle (s : List Triangle) (t : Triangle) : List Triangle :=
  if s.any (fun u => u.same t) then s else s ++ [t]

/-- Lines 366-394: the two in-circle tests made on an edge with the incident
triangles `t1` and `t2`; `true` when the edge is not legal. -/
def violates (edge : Edge) (t1 t2 : Triangle) : Bool :=
  let I := edge.A
  let J := edge.B
  let K := oppositeVertex t1 I J
  let L := oppositeVertex t2 I J
  let C := t1.circumcenter
  let d2 := (C.x - L.x) * (C.x - L.x) + (C.y - L.y) * (C.y - L.y)
  let C' := t2.circumcenter
  let d2' := (C'.x - K.x) * (C'.x - K.x) + (C'.y - K.y) * (C'.y - K.y)
  decide (d2 + EPSILON < t1.circumradiusSq) || decide (d2' + EPSILON < t2.circumradiusSq)

/-- The body of the loop of `TestDelaunayCondition` (lines 360-400). -/
def testEdge (mesh : Mesh) (illegalTriangles : List Triangle) (edge : Edge) : List Triangle :=
  match mesh.trianglesOf edge with
  | t1 :: t2 :: _ =>
    if violates edge t1 t2 then insertTriangle (insertTriangle illegalTriangles t1) t2
    else illegalTriangles
  | _ => illegalTriangles

/-- `DelaunayDiscretizer::TestDelaunayCondition` (lines 356-405): the returned
boolean and the set of illegal triangles on return. -/
def TestDelaunayCondition (illegalTriangles : List Triangle) (mesh : Mesh) :
    Bool × List Triangle :=
  let out := mesh.edges.foldl (testEdge mesh) illegalTriangles
  (out.isEmpty, out)

/-- The value `std::numeric_limits<double>::max()`. -/
def DBL_MAX : ℚ := 2 ^ 1024 - 2 ^ 971

/-- The comparison `perimeter/area < bound` of doubles: a quotient by zero is
infinite (or not a number) and is below no bound.  Perimeter, area and quotient are
exact here; the rounding of the doubles is not modelled, so an area that is zero
here can be a small non-zero double in the source. -/
def quotientBelow (perimeter area bound : ℚ) : Bool :=
  decide (area ≠ 0) && decide (perimeter / area < bound)

/-- The variables of the boundary walk of `ExtendMesh` (lines 164-175). -/
structure WalkState where
  minPerimeterToArea : ℚ
  minEdge : Option Edge
  vlast : Option Point
  vi : Point
deriving DecidableEq, Repr

/-- The search of lines 179-184 for the boundary edge of `vi` that does not lead
back to `vlast`; `none` when the iterator runs past the end of `vi->edges`. -/
def nextBoundaryEdge (mesh : Mesh) (vlast : Option Point) (vi : Point) : Option Edge :=
  (mesh.edgesOf vi).find?
    (fun edge => !(decide ((mesh.trianglesOf edge).length ≠ 1) ||
      decide (vlast = some edge.A) || decide (vlast = some edge.B)))

/-- The visibility test of lines 186-202 for the vertex `v`, the boundary edge
and the triangle `t` incident to it. -/
def visible (v : Point) (edge : Edge) (t : Triangle) : Bool :=
  let va := edge.A
  let vb := edge.B
  let vopp := oppositeVertex t edge.A edge.B
  let b1 := decide ((v.x - vb.x) * (va.y - vb.y) - (va.x - vb.x) * (v.y - vb.y) < 0)
  let b2 := decide ((vopp.x - vb.x) * (va.y - vb.y) - (va.x - vb.x) * (vopp.y - vb.y) < 0)
  b1 != b2

/-- The quantity `perimeter` of line 209 for the triangle `(A, B, C)`. -/
def trianglePerimeter (Distance : Point → Point → ℚ) (A B C : Point) : ℚ :=
  Distance A B + Distance A C + Distance B C

/-- The quantity `area` of line 210 for the triangle `(A, B, C)`. -/
def triangleArea (A B C : Point) : ℚ :=
  fabs (A.x * (B.y - C.y) + B.x * (C.y - A.y) + C.x * (A.y - B.y)) * (1 / 2)

/-- The body of the `do` loop (lines 179-218).  `Distance` is the Euclidean
distance of `Shape/PointUtilities.hh`, which is not part of the discretizer. -/
def walkStep (Distance : Point → Point → ℚ) (v : Point) (mesh : Mesh) (s : WalkState) :
    Except Error WalkState :=
  match nextBoundaryEdge mesh s.vlast s.vi with
  | none => .error .Undefined
  | some edge =>
    match mesh.trianglesOf edge with
    | [] => .error .Undefined
    | t :: _ =>
      let legal := visible v edge t
      let minEdge :=
        if legal then
          let A := edge.A
          let B := edge.B
          let C := v
          let perimeter := trianglePerimeter Distance A B C
          let area := triangleArea A B C
          if quotientBelow perimeter area s.minPerimeterToArea then some edge else s.minEdge
        else s.minEdge
      .ok { s with minEdge := minEdge, vlast := some s.vi,
                   vi := if s.vi = edge.A then edge.B else edge.A }

/-- The `do ... while (vi != vfirst)` loop of lines 177-220. -/
def boundaryWalk (Distance : Point → Point → ℚ) (v : Point) (mesh : Mesh) (vfirst : Point) :
    Nat → WalkState → Except Error WalkState
  | 0, _ => .error .Diverges
  | fuel + 1, s =>
    match walkStep Distance v mesh s with
    | .error e => .error e
    | .ok s1 => if s1.vi ≠ vfirst then boundaryWalk Distance v mesh vfirst fuel s1 else .ok s1

/-- The number of steps granted to the boundary walk: the walk is determined by the
pair `(vlast, vi)`, which takes at most `2 * edges + 1` values, so that a walk
that has not come back by then never does. -/
def walkFuel (mesh : Mesh) : Nat := 2 * mesh.edges.length + 2

/-- The first vertex of the walk (lines 168-171). -/
def firstVertex (v : Point) (mesh : Mesh) : Option Point :=
  match mesh.vertices with
  | [] => none
  | vi :: rest => if vi = v then rest.head? else some vi

/-- The edge selected by the boundary walk of `ExtendMesh` (the value of `minEdge`
at line 222). -/
def selectEdge (Distance : Point → Point → ℚ) (v : Point) (mesh : Mesh) :
    Except Error (Option Edge) :=
  match firstVertex v mesh with
  | none => .error .Undefined
  | some vfirst =>
    match boundaryWalk Distance v mesh vfirst (walkFuel mesh) ⟨DBL_MAX, none, none, vfirst⟩ with
    | .error e => .error e
    | .ok s => .ok s.minEdge

/-- The queue built at lines 235-241: the edges of the three vertices of the new
triangle. -/
def edgesAround (mesh : Mesh) (A B C : Point) : List Edge :=
  let q := (mesh.edgesOf A).foldl insertEdge []
  let q := (mesh.edgesOf B).foldl insertEdge q
  (mesh.edgesOf C).foldl insertEdge q

/-- `DelaunayDiscretizer::ExtendMesh` (lines 159-247). -/
def ExtendMesh (Distance : Point → Point → ℚ) (v : Point) (mesh : Mesh) : Outcome :=
  match selectEdge Distance v mesh with
  | .error e => ⟨mesh, some e⟩
  | .ok none => ⟨mesh, some .Undefined⟩
  | .ok (some minEdge) =>
    match mesh.emplaceEdge v minEdge.A with
    | .error e => ⟨mesh, some e⟩
    | .ok (m1, _) =>
    match m1.emplaceEdge v minEdge.B with
    | .error e => ⟨m1, some e⟩
    | .ok (m2, _) =>
    match m2.emplaceTriangle minEdge.A v minEdge.B with
    | .error e => ⟨m2, some e⟩
    | .ok m3 =>
      let m4 := m3.emplaceVertex v
      let edges := edgesAround m4 minEdge.A v minEdge.B
      (LegalizeEdges (legalizeFuel edges m4) v edges m4).1

/-- `DelaunayDiscretizer::AddPerimeterPoint` (lines 56-84). -/
def AddPerimeterPoint (Distance : Point → Point → ℚ) (p : Point) (mesh : Mesh) : Outcome :=
  let vec := mesh.perimeter
  let m1 := mesh.emplaceVertex p
  let m2 := { m1 with perimeter := vec }
  let m3 := m2.emplaceVertex p
  if m3.vertices.length < 3 then ⟨m3, none⟩
  else if m3.vertices.length = 3 then
    match m3.vertices with
    | [vs0, vs1, vs2] =>
      match m3.emplaceEdge vs0 vs1 with
      | .error e => ⟨m3, some e⟩
      | .ok (m4, _) =>
      match m4.emplaceEdge vs1 vs2 with
      | .error e => ⟨m4, some e⟩
      | .ok (m5, _) =>
      match m5.emplaceEdge vs0 vs2 with
      | .error e => ⟨m5, some e⟩
      | .ok (m6, _) =>
      match m6.emplaceTriangle vs0 vs1 vs2 with
      | .error e => ⟨m6, some e⟩
      | .ok m7 => ⟨m7, none⟩
    | _ => ⟨m3, none⟩
  else ExtendMesh Distance p m3

/-! ## Predicates used in the statements -/

/-- Whether the edge set holds the edge that joins `a` and `b`. -/
def Mesh.hasEdge (m : Mesh) (a b : Point) : Bool :=
  m.edges.any (fun e => e.same ⟨a, b⟩)

/-- Adjacency closure (§8, invariant 1).  The back-references of the embedding are
computed from the owning sets, so that what is left of the invariant is that every
reference resolves: the end points of an edge are stored vertices and the three
edges of a triangle are stored edges. -/
def AdjacencyClosure (m : Mesh) : Prop :=
  (∀ e ∈ m.edges, e.A ∈ m.vertices ∧ e.B ∈ m.vertices) ∧
  (∀ t ∈ m.triangles, m.hasEdge t.A t.B = true ∧ m.hasEdge t.B t.C = true ∧
    m.hasEdge t.A t.C = true)

instance (m : Mesh) : Decidable (AdjacencyClosure m) := by
  unfold AdjacencyClosure
  infer_instance

/-- The boundary-count invariant (§8, invariant 3): every edge has one or two
incident triangles. -/
def BoundaryCount (m : Mesh) : Prop :=
  ∀ e ∈ m.edges, (m.trianglesOf e).length = 1 ∨ (m.trianglesOf e).length = 2

instance (m : Mesh) : Decidable (BoundaryCount m) := by
  unfold BoundaryCount
  infer_instance

/-- Twice the signed area of the triangle, the cross product of `B - A` and
`C - B`. -/
def Triangle.cross (t : Triangle) : ℚ :=
  (t.B.x - t.A.x) * (t.C.y - t.B.y) - (t.C.x - t.B.x) * (t.B.y - t.A.y)

/-- Triangle well-formedness: three distinct vertices that are not collinear. -/
def Triangle.WellFormed (t : Triangle) : Prop :=
  t.A ≠ t.B ∧ t.B ≠ t.C ∧ t.A ≠ t.C ∧ t.cross ≠ 0

instance (t : Triangle) : Decidable t.WellFormed := by
  unfold Triangle.WellFormed
  infer_instance

/-- The point lies strictly inside the triangle: the three orientation tests are
non-zero and of the same sign. -/
def StrictlyInside (t : Triangle) (p : Point) : Prop :=
  (ConvexityOfStep t.A t.B p = 1 ∧ ConvexityOfStep t.B t.C p = 1 ∧ ConvexityOfStep t.C t.A p = 1) ∨
  (ConvexityOfStep t.A t.B p = -1 ∧ ConvexityOfStep t.B t.C p = -1 ∧
    ConvexityOfStep t.C t.A p = -1)

instance (t : Triangle) (p : Point) : Decidable (StrictlyInside t p) := by
  unfold StrictlyInside
  infer_instance

/-- The in-circle test of lines 294-297 and 383-384 for the triangle `t` and the
point `P`: `|center(t) - P|^2 + EPSILON < radius(t)^2`. -/
def inCircumcircle (t : Triangle) (P : Point) : Bool :=
  let C := t.circumcenter
  decide ((C.x - P.x) * (C.x - P.x) + (C.y - P.y) * (C.y - P.y) + EPSILON < t.circumradiusSq)

/-- A violating edge: an edge `(I, J)` of the mesh whose two incident triangles
`t1` (opposite vertex `K`) and `t2` (opposite vertex `L`), the two that
`edge.triangles` lists first, satisfy `|center(t1) - L|^2 + EPSILON < radius(t1)^2`
or `|center(t2) - K|^2 + EPSILON < radius(t2)^2`. -/
def ViolatingEdge (m : Mesh) (e : Edge) (t1 t2 : Triangle) : Prop :=
  e ∈ m.edges ∧ (∃ rest, m.trianglesOf e = t1 :: t2 :: rest) ∧
  (inCircumcircle t1 (oppositeVertex t2 e.A e.B) = true ∨
    inCircumcircle t2 (oppositeVertex t1 e.A e.B) = true)

/-- The ratio `perimeter / area` of the triangle that `v` forms with the edge. -/
def perimeterToArea (Distance : Point → Point → ℚ) (v : Point) (e : Edge) : ℚ :=
  trianglePerimeter Distance e.A e.B v / triangleArea e.A e.B v

/-- A property of meshes that every operation of the store maintains. -/
structure StoreInvariant (P : Mesh → Prop) : Prop where
  emplaceVertex : ∀ m p, P m → P (m.emplaceVertex p)
  emplaceEdge : ∀ m a b m1 e, P m → m.emplaceEdge a b = .ok (m1, e) → P m1
  emplaceTriangle : ∀ m a b c m1, P m → m.emplaceTriangle a b c = .ok m1 → P m1
  eraseTriangle : ∀ m t, P m → P (m.eraseTriangle t)
  eraseEdge : ∀ m e, P m → P (m.eraseEdge e)

/-! ## Concrete inputs -/

/-- An external polygon discretizer that leaves the mesh as it is. -/
def idlePolygonDiscretizer : Mesh → Outcome := fun m => ⟨m, none⟩

/-- The integer square root, by Newton steps. -/
def isqrtAux : Nat → Nat → Nat → Nat
  | 0, _, g => g
  | fuel + 1, n, g =>
    let next := (g + n / g) / 2
    if next < g then isqrtAux fuel n next else g

/-- The integer square root of `n`. -/
def isqrt (n : Nat) : Nat := if n ≤ 1 then n else isqrtAux (n + 1) n n

/-- Modelled from the spec: `distance(a, b)`, the Euclidean norm of `b - a` (§4.G).
The square root is exact when the squared distance is the square of a rational and
is rounded down otherwise. -/
def euclidean (a b : Point) : ℚ :=
  let q := (b.x - a.x) * (b.x - a.x) + (b.y - a.y) * (b.y - a.y)
  (isqrt (q.num.toNat * q.den) : ℚ) / q.den

/-- The empty mesh. -/
def emptyMesh : Mesh := ⟨[], [], [], []⟩

/-- The unit square cut along the diagonal from `(0,0)` to `(1,1)`. -/
def squareMain : Mesh :=
  { vertices := [⟨0, 0⟩, ⟨1, 0⟩, ⟨1, 1⟩, ⟨0, 1⟩]
    edges := [⟨⟨0, 0⟩, ⟨1, 0⟩⟩, ⟨⟨1, 0⟩, ⟨1, 1⟩⟩, ⟨⟨1, 1⟩, ⟨0, 1⟩⟩, ⟨⟨0, 1⟩, ⟨0, 0⟩⟩,
              ⟨⟨0, 0⟩, ⟨1, 1⟩⟩]
    triangles := [⟨⟨0, 0⟩, ⟨1, 0⟩, ⟨1, 1⟩⟩, ⟨⟨0, 0⟩, ⟨1, 1⟩, ⟨0, 1⟩⟩]
    perimeter := [⟨0, 0⟩, ⟨1, 0⟩, ⟨1, 1⟩, ⟨0, 1⟩] }

/-- The unit square cut along the diagonal from `(1,0)` to `(0,1)`. -/
def squareAnti : Mesh :=
  { vertices := [⟨0, 0⟩, ⟨1, 0⟩, ⟨1, 1⟩, ⟨0, 1⟩]
    edges := [⟨⟨0, 0⟩, ⟨1, 0⟩⟩, ⟨⟨1, 0⟩, ⟨1, 1⟩⟩, ⟨⟨1, 1⟩, ⟨0, 1⟩⟩, ⟨⟨0, 1⟩, ⟨0, 0⟩⟩,
              ⟨⟨1, 0⟩, ⟨0, 1⟩⟩]
    triangles := [⟨⟨0, 0⟩, ⟨1, 0⟩, ⟨0, 1⟩⟩, ⟨⟨1, 0⟩, ⟨1, 1⟩, ⟨0, 1⟩⟩]
    perimeter := [⟨0, 0⟩, ⟨1, 0⟩, ⟨1, 1⟩, ⟨0, 1⟩] }

/-- The centre of the unit square. -/
def squareCentre : Point := ⟨1 / 2, 1 / 2⟩

/-- Two triangles on the edge from `(0,0)` to `(2,0)`, with apexes `(1,3)` and
`(1,-3)`. -/
def kite : Mesh :=
  { vertices := [⟨0, 0⟩, ⟨2, 0⟩, ⟨1, 3⟩, ⟨1, -3⟩]
    edges := [⟨⟨0, 0⟩, ⟨2, 0⟩⟩, ⟨⟨2, 0⟩, ⟨1, 3⟩⟩, ⟨⟨1, 3⟩, ⟨0, 0⟩⟩, ⟨⟨0, 0⟩, ⟨1, -3⟩⟩,
              ⟨⟨1, -3⟩, ⟨2, 0⟩⟩]
    triangles := [⟨⟨0, 0⟩, ⟨2, 0⟩, ⟨1, 3⟩⟩, ⟨⟨0, 0⟩, ⟨1, -3⟩, ⟨2, 0⟩⟩]
    perimeter := [⟨0, 0⟩, ⟨1, -3⟩, ⟨2, 0⟩, ⟨1, 3⟩] }

/-- A point of the upper triangle of `kite` that lies inside the circumcircle of
the lower triangle by less than `EPSILON`. -/
def kitePoint : Point := ⟨1, 3333332 / 10000000⟩

/-- A single triangle with an additional vertex `(1,1)` that has no edge. -/
def triangleWithLooseVertex : Mesh :=
  { vertices := [⟨0, 0⟩, ⟨4, 0⟩, ⟨0, 4⟩, ⟨1, 1⟩]
    edges := [⟨⟨0, 0⟩, ⟨4, 0⟩⟩, ⟨⟨4, 0⟩, ⟨0, 4⟩⟩, ⟨⟨0, 0⟩, ⟨0, 4⟩⟩]
    triangles := [⟨⟨0, 0⟩, ⟨4, 0⟩, ⟨0, 4⟩⟩]
    perimeter := [⟨0, 0⟩, ⟨4, 0⟩, ⟨0, 4⟩] }

/-- The mesh that three calls of `AddPerimeterPoint`, with `(-12,9)`, `(0,4)` and
`(3,4)`, build from the empty mesh, after the vertex `(0,0)` has been emplaced. -/
def wedge : Mesh :=
  { vertices := [⟨-12, 9⟩, ⟨0, 4⟩, ⟨3, 4⟩, ⟨0, 0⟩]
    edges := [⟨⟨-12, 9⟩, ⟨0, 4⟩⟩, ⟨⟨0, 4⟩, ⟨3, 4⟩⟩, ⟨⟨-12, 9⟩, ⟨3, 4⟩⟩]
    triangles := [⟨⟨-12, 9⟩, ⟨0, 4⟩, ⟨3, 4⟩⟩]
    perimeter := [] }

/-- The signed side value of `p` relative to the line through `A` and `B`, as
computed at lines 199-200. -/
def sideValue (p A B : Point) : ℚ :=
  (p.x - B.x) * (A.y - B.y) - (A.x - B.x) * (p.y - B.y)

/-- The points `p` and `q` lie strictly on opposite sides of the line through `A`
and `B`: both side values are non-zero and their signs differ. -/
def StrictlyOpposite (p q A B : Point) : Prop :=
  (sideValue p A B < 0 ∧ 0 < sideValue q A B) ∨ (0 < sideValue p A B ∧ sideValue q A B < 0)

instance (p q A B : Point) : Decidable (StrictlyOpposite p q A B) := by
  unfold StrictlyOpposite
  infer_instance

/-- Two triangles on the edge from `(0,0)` to `(2,0)` with apexes `(1,-3)` and
`(1,3/10)`; the upper apex lies inside the circumcircle of the lower triangle. -/
def dart : Mesh :=
  { vertices := [⟨0, 0⟩, ⟨2, 0⟩, ⟨1, -3⟩, ⟨1, 3 / 10⟩]
    edges := [⟨⟨0, 0⟩, ⟨2, 0⟩⟩, ⟨⟨2, 0⟩, ⟨1, 3 / 10⟩⟩, ⟨⟨1, 3 / 10⟩, ⟨0, 0⟩⟩, ⟨⟨0, 0⟩, ⟨1, -3⟩⟩,
              ⟨⟨1, -3⟩, ⟨2, 0⟩⟩]
    triangles := [⟨⟨0, 0⟩, ⟨1, -3⟩, ⟨2, 0⟩⟩, ⟨⟨0, 0⟩, ⟨2, 0⟩, ⟨1, 3 / 10⟩⟩]
    perimeter := [] }

/-- A mesh that holds the two vertices `(0,0)` and `(1,0)` and nothing else. -/
def twoVertices : Mesh := ⟨[⟨0, 0⟩, ⟨1, 0⟩], [], [], []⟩

/-- The three vertices of the triangle are distinct. -/
def Triangle.Distinct (t : Triangle) : Prop :=
  t.A ≠ t.B ∧ t.B ≠ t.C ∧ t.A ≠ t.C

instance (t : Triangle) : Decidable t.Distinct := by
  unfold Triangle.Distinct
  infer_instance

/-- The lists of the embedding stand for sets: no edge and no triangle is stored
twice, and every stored triangle has three different vertices (the store refuses
the others). -/
def Mesh.Sound (m : Mesh) : Prop :=
  m.edges.Pairwise (fun e f => e.same f = false) ∧
  m.triangles.Pairwise (fun t u => t.same u = false) ∧
  ∀ t ∈ m.triangles, t.Distinct

instance (m : Mesh) : Decidable m.Sound := by
  unfold Mesh.Sound
  infer_instance

/-- The number of stored edges that do not have `v` as an end point. -/
def offFocus (m : Mesh) (v : Point) : Nat :=
  (m.edges.filter (fun e => !e.hasVertex v)).length

/-- The mesh `dart` with the edge from `(1,-3)` to `(1,3/10)` and a triangle that
joins this edge to the vertex `(5,0)`. -/
def dartWithFin : Mesh :=
  { vertices := [⟨0, 0⟩, ⟨2, 0⟩, ⟨1, -3⟩, ⟨1, 3 / 10⟩, ⟨5, 0⟩]
    edges := [⟨⟨0, 0⟩, ⟨2, 0⟩⟩, ⟨⟨2, 0⟩, ⟨1, 3 / 10⟩⟩, ⟨⟨1, 3 / 10⟩, ⟨0, 0⟩⟩, ⟨⟨0, 0⟩, ⟨1, -3⟩⟩,
              ⟨⟨1, -3⟩, ⟨2, 0⟩⟩, ⟨⟨1, -3⟩, ⟨1, 3 / 10⟩⟩, ⟨⟨1, 3 / 10⟩, ⟨5, 0⟩⟩,
              ⟨⟨1, -3⟩, ⟨5, 0⟩⟩]
    triangles := [⟨⟨0, 0⟩, ⟨1, -3⟩, ⟨2, 0⟩⟩, ⟨⟨0, 0⟩, ⟨2, 0⟩, ⟨1, 3 / 10⟩⟩,
                  ⟨⟨1, -3⟩, ⟨1, 3 / 10⟩, ⟨5, 0⟩⟩]
    perimeter := [] }

/-- Four triangles that overlap: `(0,0),(4,0),(0,4)` with a triangle below its
edge from `(0,0)` to `(4,0)`, a triangle beyond its edge from `(4,0)` to `(0,4)`, and
the triangle `(0,0),(2,-1),(5,5)` that lies across the first two; the vertex
`(10,10)` has no edge. -/
def overlap : Mesh :=
  { vertices := [⟨0, 0⟩, ⟨4, 0⟩, ⟨0, 4⟩, ⟨2, -1⟩, ⟨5, 5⟩, ⟨10, 10⟩]
    edges := [⟨⟨0, 0⟩, ⟨4, 0⟩⟩, ⟨⟨4, 0⟩, ⟨0, 4⟩⟩, ⟨⟨0, 0⟩, ⟨0, 4⟩⟩, ⟨⟨0, 0⟩, ⟨2, -1⟩⟩,
              ⟨⟨2, -1⟩, ⟨4, 0⟩⟩, ⟨⟨4, 0⟩, ⟨5, 5⟩⟩, ⟨⟨0, 4⟩, ⟨5, 5⟩⟩, ⟨⟨0, 0⟩, ⟨5, 5⟩⟩,
              ⟨⟨2, -1⟩, ⟨5, 5⟩⟩]
    triangles := [⟨⟨0, 0⟩, ⟨4, 0⟩, ⟨0, 4⟩⟩, ⟨⟨0, 0⟩, ⟨2, -1⟩, ⟨4, 0⟩⟩, ⟨⟨4, 0⟩, ⟨5, 5⟩, ⟨0, 4⟩⟩,
                  ⟨⟨0, 0⟩, ⟨2, -1⟩, ⟨5, 5⟩⟩]
    perimeter := [] }

/-- A point strictly inside the first triangle of `overlap` and outside the three
others. -/
def overlapPoint : Point := ⟨1, 3 / 2⟩

/-- Whether every flip that `LegalizeEdges` completes creates an edge `(K, L)` that
the mesh did not store before the pass.  The run is the one of `LegalizeEdges`. -/
def freshFlips : Nat → Point → List Edge → Mesh → Bool
  | _, _, [], _ => true
  | 0, _, _ :: _, _ => true
  | fuel + 1, v, edge :: edges, mesh =>
    match mesh.trianglesOf edge with
    | [_] => freshFlips fuel v edges mesh
    | [t1, t2] =>
      match legalizeStep v edge t1 t2 edges mesh with
      | (s, none) =>
        (s.isLegal ||
          !mesh.hasEdge (oppositeVertex t1 edge.A edge.B) (oppositeVertex t2 edge.A edge.B)) &&
        freshFlips fuel v s.edges s.mesh
      | (_, some _) => true
    | _ => true

/-- The mesh that `SplitTriangle` hands to `LegalizeEdges` (lines 141-149), or the
error that the store raises before. -/
def splitStore (t : Triangle) (v : Point) (mesh : Mesh) : Except Error Mesh :=
  match mesh.emplaceEdge t.A v with
  | .error e => .error e
  | .ok (m1, _) =>
  match m1.emplaceEdge t.B v with
  | .error e => .error e
  | .ok (m2, _) =>
  match m2.emplaceEdge t.C v with
  | .error e => .error e
  | .ok (m3, _) =>
  match m3.emplaceTriangle t.A t.B v with
  | .error e => .error e
  | .ok m4 =>
  match m4.emplaceTriangle t.A t.C v with
  | .error e => .error e
  | .ok m5 =>
  match m5.emplaceTriangle t.B t.C v with
  | .error e => .error e
  | .ok m6 => .ok (m6.eraseTriangle t)

/-- The queue that `SplitTriangle` hands to `LegalizeEdges` (lines 151-154). -/
def splitQueue (t : Triangle) (mesh : Mesh) : List Edge :=
  insertEdge (insertEdge (insertEdge [] (mesh.edgeRef t.A t.B)) (mesh.edgeRef t.B t.C))
    (mesh.edgeRef t.A t.C)

/-- Whether every flip completed during `AddInteriorPoint(p, mesh)` on a populated
mesh creates an edge that the mesh did not store before that flip. -/
def freshInterior (p : Point) (mesh : Mesh) : Bool :=
  let m1 := mesh.emplaceVertex p
  match FindContainingTriangle p m1 with
  | none => true
  | some t =>
    match splitStore t p m1 with
    | .error _ => true
    | .ok m7 => freshFlips (legalizeFuel (splitQueue t m1) m7) p (splitQueue t m1) m7

/-- The queue is a set of stored edges: every queued edge is stored and no edge is
queued twice. -/
def Queued (q : List Edge) (m : Mesh) : Prop :=
  (∀ f ∈ q, m.hasEdge f.A f.B = true) ∧ q.Pairwise (fun e f => e.same f = false)

instance (q : List Edge) (m : Mesh) : Decidable (Queued q m) := by
  unfold Queued
  infer_instance

/-- The boundary edges that the walk of `ExtendMesh` visits, in the order of the
visits: the edge that the search of lines 179-184 finds at each pass of the `do`
loop. -/
def walkTrace (Distance : Point → Point → ℚ) (v : Point) (mesh : Mesh) (vfirst : Point) :
    Nat → WalkState → List Edge
  | 0, _ => []
  | fuel + 1, s =>
    match nextBoundaryEdge mesh s.vlast s.vi with
    | none => []
    | some edge =>
      match walkStep Distance v mesh s with
      | .error _ => [edge]
      | .ok s1 =>
        if s1.vi ≠ vfirst then edge :: walkTrace Distance v mesh vfirst fuel s1 else [edge]

/-- The vertex at position `i` of the closed sequence `c`, the positions counted
modulo the length of `c`. -/
def cyclic (c : List Point) (i : ℤ) : Point :=
  c.getD (i % c.length).toNat ⟨0, 0⟩

/-- The boundary edges of the mesh, those with exactly one incident triangle, form
the simple closed polygon with the vertices `c`: at least three vertices, none
twice, every side of the polygon is a stored edge, and the stored edges with one
incident triangle are the sides of the polygon. -/
def BoundaryPolygon (m : Mesh) (c : List Point) : Prop :=
  3 ≤ c.length ∧ c.Nodup ∧
  (∀ i : Nat, i < c.length → m.hasEdge (cyclic c i) (cyclic c (i + 1)) = true) ∧
  (∀ e ∈ m.edges, (m.trianglesOf e).length = 1 ↔
    ∃ i : Nat, i < c.length ∧ e.same ⟨cyclic c i, cyclic c (i + 1)⟩ = true)

instance (m : Mesh) (c : List Point) : Decidable (BoundaryPolygon m c) := by
  unfold BoundaryPolygon
  infer_instance

/-- A closed sequence `c` of `n` vertices, indexed by the integers, whose sides are
the boundary edges of the mesh. -/
structure Ring (m : Mesh) (n : Nat) (c : ℤ → Point) : Prop where
  three : 3 ≤ n
  periodic : ∀ i, c (i + n) = c i
  simple : ∀ i j, c i = c j → (n : ℤ) ∣ i - j
  stored : ∀ i, m.hasEdge (c i) (c (i + 1)) = true
  boundary : ∀ e ∈ m.edges, (m.trianglesOf e).length = 1 ↔
    ∃ i, e.same ⟨c i, c (i + 1)⟩ = true

/-- A triangle with the additional vertex `(-1,-1)`, which has no edge and is the
first vertex of the vertex set. -/
def looseVertexFirst : Mesh :=
  { vertices := [⟨-1, -1⟩, ⟨0, 0⟩, ⟨0, 4⟩, ⟨4, 0⟩]
    edges := [⟨⟨0, 0⟩, ⟨4, 0⟩⟩, ⟨⟨4, 0⟩, ⟨0, 4⟩⟩, ⟨⟨0, 0⟩, ⟨0, 4⟩⟩]
    triangles := [⟨⟨0, 0⟩, ⟨4, 0⟩, ⟨0, 4⟩⟩]
    perimeter := [] }

/-- A violating edge in the words of the specification: a stored edge `(I, J)` with
two different incident triangles `t1` (opposite vertex `K`) and `t2` (opposite
vertex `L`) such that `|center(t1) - L|^2 + EPSILON < radius(t1)^2` or
`|center(t2) - K|^2 + EPSILON < radius(t2)^2`. -/
def IncidentViolation (m : Mesh) (e : Edge) (t1 t2 : Triangle) : Prop :=
  e ∈ m.edges ∧ t1 ∈ m.trianglesOf e ∧ t2 ∈ m.trianglesOf e ∧ t1 ≠ t2 ∧
  (inCircumcircle t1 (oppositeVertex t2 e.A e.B) = true ∨
    inCircumcircle t2 (oppositeVertex t1 e.A e.B) = true)

instance (m : Mesh) (e : Edge) (t1 t2 : Triangle) : Decidable (IncidentViolation m e t1 t2) := by
  unfold IncidentViolation
  infer_instance

/-- Three triangles on the edge from `(0,0)` to `(2,0)`: the two of `kite` and a
third one with the apex `(1,1/2)`, which lies inside the circumcircle of the first. -/
def fan : Mesh :=
  { vertices := [⟨0, 0⟩, ⟨2, 0⟩, ⟨1, 3⟩, ⟨1, -3⟩, ⟨1, 1 / 2⟩]
    edges := [⟨⟨0, 0⟩, ⟨2, 0⟩⟩, ⟨⟨2, 0⟩, ⟨1, 3⟩⟩, ⟨⟨1, 3⟩, ⟨0, 0⟩⟩, ⟨⟨0, 0⟩, ⟨1, -3⟩⟩,
              ⟨⟨1, -3⟩, ⟨2, 0⟩⟩, ⟨⟨2, 0⟩, ⟨1, 1 / 2⟩⟩, ⟨⟨1, 1 / 2⟩, ⟨0, 0⟩⟩]
    triangles := [⟨⟨0, 0⟩, ⟨2, 0⟩, ⟨1, 3⟩⟩, ⟨⟨0, 0⟩, ⟨1, -3⟩, ⟨2, 0⟩⟩,
                  ⟨⟨0, 0⟩, ⟨2, 0⟩, ⟨1, 1 / 2⟩⟩]
    perimeter := [] }

/-- Modelled from the spec: the deduplicating insertion of a triangle by a store
that refuses a triangle with a repeated vertex and does not test collinearity.
§4.M asks for the refusal of collinear triangles, which `Mesh.emplaceTriangle`
makes; scenario S2 of §8 can only hold with a store that admits the triangle made
of the two ends of the diagonal and the centre of the square. -/
def Mesh.admitTriangle (m : Mesh) (a b c : Point) : Except Error Mesh :=
  if decide (a = b) || decide (b = c) || decide (a = c) then .error .Degenerate
  else if m.triangles.any (fun t => t.same ⟨a, b, c⟩) then .ok m
  else .ok { m with triangles := m.triangles ++ [⟨a, b, c⟩] }

/-- Lines 342-352 over a store whose insertion of a triangle is `emplaceT`; with
`Mesh.emplaceTriangle` this is `flip`. -/
def flipWith (emplaceT : Mesh → Point → Point → Point → Except Error Mesh) (edge : Edge)
    (t1 t2 : Triangle) (I J K L : Point) (s : FlipState) : FlipState × Option Error :=
  match s.mesh.emplaceEdge K L with
  | .error e => (s, some e)
  | .ok (m1, _) =>
    let m2 := ((m1.eraseTriangle t1).eraseTriangle t2).eraseEdge edge
    match s.ik, s.il with
    | some _, some _ =>
      match emplaceT m2 I K L with
      | .error e => ({ s with mesh := m2 }, some e)
      | .ok m3 =>
        match s.jk, s.jl with
        | some _, some _ =>
          match emplaceT m3 J K L with
          | .error e => ({ s with mesh := m3 }, some e)
          | .ok m4 => ({ s with mesh := m4 }, none)
        | _, _ => ({ s with mesh := m3 }, some .Undefined)
    | _, _ => ({ s with mesh := m2 }, some .Undefined)

/-- Lines 269-352 over a store whose insertion of a triangle is `emplaceT`; with
`Mesh.emplaceTriangle` this is `legalizeStep`. -/
def legalizeStepWith (emplaceT : Mesh → Point → Point → Point → Except Error Mesh)
    (v : Point) (edge : Edge) (t1 t2 : Triangle) (edges : List Edge) (mesh : Mesh) :
    FlipState × Option Error :=
  let I := edge.A
  let J := edge.B
  let K := oppositeVertex t1 I J
  let L := oppositeVertex t2 I J
  let s0 : FlipState := ⟨mesh, edges, true, none, none, none, none⟩
  match focusL v t1 I J K L s0 with
  | (s1, some e) => (s1, some e)
  | (s1, none) =>
    match focusK v t2 I J K L s1 with
    | (s2, some e) => (s2, some e)
    | (s2, none) =>
      if !s2.isLegal then flipWith emplaceT edge t1 t2 I J K L s2 else (s2, none)

/-- `DelaunayDiscretizer::LegalizeEdges` (lines 249-354) over a store whose
insertion of a triangle is `emplaceT`; with `Mesh.emplaceTriangle` this is
`LegalizeEdges`. -/
def LegalizeEdgesWith (emplaceT : Mesh → Point → Point → Point → Except Error Mesh) :
    Nat → Point → List Edge → Mesh → Outcome × List Edge
  | _, _, [], mesh => (⟨mesh, none⟩, [])
  | 0, _, edge :: edges, mesh => (⟨mesh, some .Diverges⟩, edge :: edges)
  | fuel + 1, v, edge :: edges, mesh =>
    match mesh.trianglesOf edge with
    | [] => (⟨mesh, some .Inconsistent⟩, edges)
    | [_] => LegalizeEdgesWith emplaceT fuel v edges mesh
    | [t1, t2] =>
      match legalizeStepWith emplaceT v edge t1 t2 edges mesh with
      | (s, some e) => (⟨s.mesh, some e⟩, s.edges)
      | (s, none) => LegalizeEdgesWith emplaceT fuel v s.edges s.mesh
    | _ :: _ :: _ :: _ => (⟨mesh, some .Inconsistent⟩, edges)

/-- `DelaunayDiscretizer::SplitTriangle` (lines 126-157) over a store whose
insertion of a triangle is `emplaceT`; with `Mesh.emplaceTriangle` this is
`SplitTriangle`. -/
def SplitTriangleWith (emplaceT : Mesh → Point → Point → Point → Except Error Mesh)
    (t : Triangle) (v : Point) (mesh : Mesh) : Outcome :=
  let A := t.A
  let B := t.B
  let C := t.C
  let D := v
  let AB := mesh.edgeRef A B
  let BC := mesh.edgeRef B C
  let AC := mesh.edgeRef A C
  match mesh.emplaceEdge A D with
  | .error e => ⟨mesh, some e⟩
  | .ok (m1, _) =>
  match m1.emplaceEdge B D with
  | .error e => ⟨m1, some e⟩
  | .ok (m2, _) =>
  match m2.emplaceEdge C D with
  | .error e => ⟨m2, some e⟩
  | .ok (m3, _) =>
  match emplaceT m3 A B D with
  | .error e => ⟨m3, some e⟩
  | .ok m4 =>
  match emplaceT m4 A C D with
  | .error e => ⟨m4, some e⟩
  | .ok m5 =>
  match emplaceT m5 B C D with
  | .error e => ⟨m5, some e⟩
  | .ok m6 =>
    let m7 := m6.eraseTriangle t
    let edges := insertEdge (insertEdge (insertEdge [] AB) BC) AC
    (LegalizeEdgesWith emplaceT (legalizeFuel edges m7) v edges m7).1

/-- `DelaunayDiscretizer::AddInteriorPoint` (lines 99-113) over a store whose
insertion of a triangle is `emplaceT`; with `Mesh.emplaceTriangle` this is
`AddInteriorPoint`. -/
def AddInteriorPointWith (emplaceT : Mesh → Point → Point → Point → Except Error Mesh)
    (polygonDiscretizer : Mesh → Outcome) (p : Point) (mesh : Mesh) : Outcome :=
  let r :=
    if mesh.triangles.length = 0 then ConstructInitialMeshFromPerimeter polygonDiscretizer mesh
    else ⟨mesh, none⟩
  match r.error with
  | some e => ⟨r.mesh, some e⟩
  | none =>
    let m1 := r.mesh.emplaceVertex p
    match FindContainingTriangle p m1 with
    | some containingTriangle => SplitTriangleWith emplaceT containingTriangle p m1
    | none => ⟨m1, none⟩

/-- Two triangles on the edge from `(0,0)` to `(1,0)`: the triangle with the apex
`(0,1)` and a thin one with the apex `(-1/1000,-1/1000)`.  The boundary is the
simple polygon `(0,0), (-1/1000,-1/1000), (1,0), (0,1)`. -/
def sliver : Mesh :=
  { vertices := [⟨0, 0⟩, ⟨1, 0⟩, ⟨0, 1⟩, ⟨-1 / 1000, -1 / 1000⟩]
    edges := [⟨⟨0, 0⟩, ⟨1, 0⟩⟩, ⟨⟨1, 0⟩, ⟨0, 1⟩⟩, ⟨⟨0, 1⟩, ⟨0, 0⟩⟩,
              ⟨⟨0, 0⟩, ⟨-1 / 1000, -1 / 1000⟩⟩, ⟨⟨-1 / 1000, -1 / 1000⟩, ⟨1, 0⟩⟩]
    triangles := [⟨⟨0, 0⟩, ⟨1, 0⟩, ⟨0, 1⟩⟩, ⟨⟨0, 0⟩, ⟨-1 / 1000, -1 / 1000⟩, ⟨1, 0⟩⟩]
    perimeter := [] }

/-- A point strictly inside the first triangle of `sliver`, inside the circumcircle
of the thin triangle by more than `EPSILON`, and collinear within the tolerance
`EPS` with `(0,0)` and `(-1/1000,-1/1000)`. -/
def sliverPoint : Point := ⟨1 / 50, 191 / 10000⟩

/-- The mesh `sliver` after the first triangle has been split at `sliverPoint`: four
triangles, with the same boundary polygon. -/
def sliverSplit : Mesh :=
  { vertices := [⟨0, 0⟩, ⟨1, 0⟩, ⟨0, 1⟩, ⟨-1 / 1000, -1 / 1000⟩, sliverPoint]
    edges := [⟨⟨0, 0⟩, ⟨1, 0⟩⟩, ⟨⟨1, 0⟩, ⟨0, 1⟩⟩, ⟨⟨0, 1⟩, ⟨0, 0⟩⟩,
              ⟨⟨0, 0⟩, ⟨-1 / 1000, -1 / 1000⟩⟩, ⟨⟨-1 / 1000, -1 / 1000⟩, ⟨1, 0⟩⟩,
              ⟨⟨0, 0⟩, sliverPoint⟩, ⟨⟨1, 0⟩, sliverPoint⟩, ⟨⟨0, 1⟩, sliverPoint⟩]
    triangles := [⟨⟨0, 0⟩, ⟨-1 / 1000, -1 / 1000⟩, ⟨1, 0⟩⟩, ⟨⟨0, 0⟩, ⟨1, 0⟩, sliverPoint⟩,
                  ⟨⟨0, 0⟩, ⟨0, 1⟩, sliverPoint⟩, ⟨⟨1, 0⟩, ⟨0, 1⟩, sliverPoint⟩]
    perimeter := [] }

theorem focusL_invariant {P : Mesh → Prop} (hP : StoreInvariant P) (v : Point) (t1 : Triangle)
    (I J K L : Point) (s : FlipState) (h : P s.mesh) :
    P (focusL v t1 I J K L s).1.mesh := by
  unfold focusL
  dsimp only
  split_ifs
  · split
    · exact h
    · rename_i m1 il heq
      have h1 := hP.emplaceEdge _ _ _ _ _ h heq
      split
      · exact h1
      · rename_i m2 jl heq2
        exact hP.emplaceEdge _ _ _ _ _ h1 heq2
  · exact h
  · exact h

theorem focusK_invariant {P : Mesh → Prop} (hP : StoreInvariant P) (v : Point) (t2 : Triangle)
    (I J K L : Point) (s : FlipState) (h : P s.mesh) :
    P (focusK v t2 I J K L s).1.mesh := by
  unfold focusK
  dsimp only
  split_ifs
  · split
    · exact h
    · rename_i m1 ik heq
      have h1 := hP.emplaceEdge _ _ _ _ _ h heq
      split
      · exact h1
      · rename_i m2 jk heq2
        exact hP.emplaceEdge _ _ _ _ _ h1 heq2
  · exact h
  · exact h

theorem flip_invariant {P : Mesh → Prop} (hP : StoreInvariant P) (edge : Edge)
    (t1 t2 : Triangle) (I J K L : Point) (s : FlipState) (h : P s.mesh) :
    P (flip edge t1 t2 I J K L s).1.mesh := by
  unfold flip
  split
  · exact h
  · rename_i m1 kl heq
    have h1 := hP.emplaceEdge _ _ _ _ _ h heq
    have h2 : P (((m1.eraseTriangle t1).eraseTriangle t2).eraseEdge edge) :=
      hP.eraseEdge _ _ (hP.eraseTriangle _ _ (hP.eraseTriangle _ _ h1))
    dsimp only
    split
    · split
      · exact h2
      · rename_i m3 heq3
        have h3 := hP.emplaceTriangle _ _ _ _ _ h2 heq3
        split
        · split
          · exact h3
          · rename_i m4 heq4
            exact hP.emplaceTriangle _ _ _ _ _ h3 heq4
        · exact h3
    · exact h2

theorem legalizeStep_invariant {P : Mesh → Prop} (hP : StoreInvariant P) (v : Point)
    (edge : Edge) (t1 t2 : Triangle) (edges : List Edge) (mesh : Mesh) (h : P mesh) :
    P (legalizeStep v edge t1 t2 edges mesh).1.mesh := by
  unfold legalizeStep
  dsimp only
  have h1 := focusL_invariant hP v t1 edge.A edge.B (oppositeVertex t1 edge.A edge.B)
    (oppositeVertex t2 edge.A edge.B) ⟨mesh, edges, true, none, none, none, none⟩ h
  split
  · rename_i s1 e heq
    rw [heq] at h1
    exact h1
  · rename_i s1 heq
    rw [heq] at h1
    have h2 := focusK_invariant hP v t2 edge.A edge.B (oppositeVertex t1 edge.A edge.B)
      (oppositeVertex t2 edge.A edge.B) s1 h1
    split
    · rename_i s2 e heq2
      rw [heq2] at h2
      exact h2
    · rename_i s2 heq2
      rw [heq2] at h2
      split_ifs
      · exact flip_invariant hP edge t1 t2 _ _ _ _ s2 h2
      · exact h2

theorem LegalizeEdges_invariant {P : Mesh → Prop} (hP : StoreInvariant P) (fuel : Nat)
    (v : Point) (edges : List Edge) (mesh : Mesh) (h : P mesh) :
    P (LegalizeEdges fuel v edges mesh).1.mesh := by
  induction fuel generalizing edges mesh with
  | zero =>
    cases edges with
    | nil => simpa [LegalizeEdges] using h
    | cons e es => simpa [LegalizeEdges] using h
  | succ n ih =>
    cases edges with
    | nil => simpa [LegalizeEdges] using h
    | cons e es =>
      rw [LegalizeEdges]
      split
      · exact h
      · exact ih es mesh h
      · rename_i t1 t2 heq
        have h1 := legalizeStep_invariant hP v e t1 t2 es mesh h
        split
        · rename_i s err hs
          rw [hs] at h1
          exact h1
        · rename_i s hs
          rw [hs] at h1
          exact ih s.edges s.mesh h1
      · exact h

theorem ExtendMesh_invariant {P : Mesh → Prop} (hP : StoreInvariant P)
    (Distance : Point → Point → ℚ) (v : Point) (mesh : Mesh) (h : P mesh) :
    P (ExtendMesh Distance v mesh).mesh := by
  unfold ExtendMesh
  split
  · exact h
  · exact h
  · rename_i minEdge _
    split
    · exact h
    · rename_i m1 _ h1
      have p1 := hP.emplaceEdge _ _ _ _ _ h h1
      split
      · exact p1
      · rename_i m2 _ h2
        have p2 := hP.emplaceEdge _ _ _ _ _ p1 h2
        split
        · exact p2
        · rename_i m3 h3
          have p3 := hP.emplaceTriangle _ _ _ _ _ p2 h3
          exact LegalizeEdges_invariant hP _ _ _ _ (hP.emplaceVertex _ _ p3)

/-! ## What the store operations leave untouched -/

theorem emplaceVertex_frame (m : Mesh) (p : Point) :
    (m.emplaceVertex p).edges = m.edges ∧ (m.emplaceVertex p).triangles = m.triangles ∧
      (m.emplaceVertex p).perimeter = m.perimeter := by
  unfold Mesh.emplaceVertex
  split_ifs <;> simp

theorem emplaceEdge_frame {m m1 : Mesh} {a b : Point} {e : Edge}
    (h : m.emplaceEdge a b = .ok (m1, e)) :
    m1.vertices = m.vertices ∧ m1.triangles = m.triangles ∧ m1.perimeter = m.perimeter := by
  unfold Mesh.emplaceEdge at h
  split_ifs at h
  split at h
  · simp only [Except.ok.injEq, Prod.mk.injEq] at h
    rw [← h.1]
    simp
  · simp only [Except.ok.injEq, Prod.mk.injEq] at h
    rw [← h.1]
    simp

theorem emplaceTriangle_frame {m m1 : Mesh} {a b c : Point}
    (h : m.emplaceTriangle a b c = .ok m1) :
    m1.vertices = m.vertices ∧ m1.edges = m.edges ∧ m1.perimeter = m.perimeter := by
  unfold Mesh.emplaceTriangle at h
  split_ifs at h
  · simp only [Except.ok.injEq] at h
    rw [← h]
    simp
  · simp only [Except.ok.injEq] at h
    rw [← h]
    simp

theorem emplaceEdge_error {m : Mesh} {a b : Point} {e : Error}
    (h : m.emplaceEdge a b = .error e) : e = .Degenerate := by
  unfold Mesh.emplaceEdge at h
  split_ifs at h
  · simp only [Except.error.injEq] at h
    exact h.symm
  · split at h <;> simp at h

theorem emplaceTriangle_error {m : Mesh} {a b c : Point} {e : Error}
    (h : m.emplaceTriangle a b c = .error e) : e = .Degenerate := by
  unfold Mesh.emplaceTriangle at h
  split_ifs at h
  simp only [Except.error.injEq] at h
  exact h.symm

theorem perimeter_storeInvariant (c : List Point) :
    StoreInvariant (fun m => m.perimeter = c) where
  emplaceVertex := fun m p h => by rw [(emplaceVertex_frame m p).2.2]; exact h
  emplaceEdge := fun m a b m1 e h heq => by rw [(emplaceEdge_frame heq).2.2]; exact h
  emplaceTriangle := fun m a b c m1 h heq => by rw [(emplaceTriangle_frame heq).2.2]; exact h
  eraseTriangle := fun m t h => h
  eraseEdge := fun m e h => h

/-! ## Errors raised below `AddInteriorPoint` -/

theorem focusL_error (v : Point) (t1 : Triangle) (I J K L : Point) (s : FlipState) :
    (focusL v t1 I J K L s).2 ≠ some .InvalidInput := by
  unfold focusL
  dsimp only
  split_ifs
  · split
    · rename_i e heq
      rw [emplaceEdge_error heq]
      simp
    · split
      · rename_i e heq
        rw [emplaceEdge_error heq]
        simp
      · simp
  · simp
  · simp

theorem focusK_error (v : Point) (t2 : Triangle) (I J K L : Point) (s : FlipState) :
    (focusK v t2 I J K L s).2 ≠ some .InvalidInput := by
  unfold focusK
  dsimp only
  split_ifs
  · split
    · rename_i e heq
      rw [emplaceEdge_error heq]
      simp
    · split
      · rename_i e heq
        rw [emplaceEdge_error heq]
        simp
      · simp
  · simp
  · simp

theorem flip_error (edge : Edge) (t1 t2 : Triangle) (I J K L : Point) (s : FlipState) :
    (flip edge t1 t2 I J K L s).2 ≠ some .InvalidInput := by
  unfold flip
  split
  · rename_i e heq
    rw [emplaceEdge_error heq]
    simp
  · dsimp only
    split
    · split
      · rename_i e heq
        rw [emplaceTriangle_error heq]
        simp
      · split
        · split
          · rename_i e heq
            rw [emplaceTriangle_error heq]
            simp
          · simp
        · simp
    · simp

theorem legalizeStep_error (v : Point) (edge : Edge) (t1 t2 : Triangle) (edges : List Edge)
    (mesh : Mesh) : (legalizeStep v edge t1 t2 edges mesh).2 ≠ some .InvalidInput := by
  unfold legalizeStep
  dsimp only
  split
  · rename_i s1 e heq
    have h := focusL_error v t1 edge.A edge.B (oppositeVertex t1 edge.A edge.B)
      (oppositeVertex t2 edge.A edge.B) ⟨mesh, edges, true, none, none, none, none⟩
    rw [heq] at h
    exact h
  · split
    · rename_i _ s1 _ _ s2 e heq
      have h := focusK_error v t2 edge.A edge.B (oppositeVertex t1 edge.A edge.B)
        (oppositeVertex t2 edge.A edge.B) s1
      rw [heq] at h
      exact h
    · split_ifs
      · exact flip_error _ _ _ _ _ _ _ _
      · simp

theorem LegalizeEdges_error (fuel : Nat) (v : Point) (edges : List Edge) (mesh : Mesh) :
    (LegalizeEdges fuel v edges mesh).1.error ≠ some .InvalidInput := by
  induction fuel generalizing edges mesh with
  | zero =>
    cases edges with
    | nil => simp [LegalizeEdges]
    | cons e es => simp [LegalizeEdges]
  | succ n ih =>
    cases edges with
    | nil => simp [LegalizeEdges]
    | cons e es =>
      rw [LegalizeEdges]
      split
      · simp
      · exact ih es mesh
      · rename_i t1 t2 heq
        split
        · rename_i s err hs
          have h := legalizeStep_error v e t1 t2 es mesh
          rw [hs] at h
          exact h
        · rename_i s hs
          exact ih s.edges s.mesh
      · simp

theorem SplitTriangle_error (t : Triangle) (v : Point) (mesh : Mesh) :
    (SplitTriangle t v mesh).error ≠ some .InvalidInput := by
  unfold SplitTriangle
  dsimp only
  split
  · rename_i e heq
    rw [emplaceEdge_error heq]
    simp
  · split
    · rename_i e heq
      rw [emplaceEdge_error heq]
      simp
    · split
      · rename_i e heq
        rw [emplaceEdge_error heq]
        simp
      · split
        · rename_i e heq
          rw [emplaceTriangle_error heq]
          simp
        · split
          · rename_i e heq
            rw [emplaceTriangle_error heq]
            simp
          · split
            · rename_i e heq
              rw [emplaceTriangle_error heq]
              simp
            · exact LegalizeEdges_error _ _ _ _

/-! ## Claims -/

/-- C5 (the code departs from the claim): `AddPerimeterPoint` copies the perimeter
and sets it back without appending the new vertex, so the perimeter sequence after
the call equals the perimeter sequence before the call, for every mesh and every
point. -/
theorem AddPerimeterPoint_perimeter_unchanged (Distance : Point → Point → ℚ) (p : Point)
    (mesh : Mesh) : (AddPerimeterPoint Distance p mesh).mesh.perimeter = mesh.perimeter := by
  have hP := perimeter_storeInvariant mesh.perimeter
  have h3 : (({ mesh.emplaceVertex p with perimeter := mesh.perimeter } : Mesh).emplaceVertex
      p).perimeter = mesh.perimeter := by
    rw [(emplaceVertex_frame _ p).2.2]
  unfold AddPerimeterPoint
  dsimp only
  split_ifs
  · exact h3
  · split
    · split
      · exact h3
      · rename_i m4 _ h4
        have p4 := hP.emplaceEdge _ _ _ _ _ h3 h4
        split
        · exact p4
        · rename_i m5 _ h5
          have p5 := hP.emplaceEdge _ _ _ _ _ p4 h5
          split
          · exact p5
          · rename_i m6 _ h6
            have p6 := hP.emplaceEdge _ _ _ _ _ p5 h6
            split
            · exact p6
            · rename_i m7 h7
              exact hP.emplaceTriangle _ _ _ _ _ p6 h7
    · exact h3
  · exact ExtendMesh_invariant hP Distance p _ h3

theorem foldl_emplaceVertex_frame (polygon : List Point) (mesh : Mesh) :
    (polygon.foldl (fun acc p => acc.emplaceVertex p) mesh).edges = mesh.edges ∧
    (polygon.foldl (fun acc p => acc.emplaceVertex p) mesh).triangles = mesh.triangles ∧
    ∀ q, q ∈ (polygon.foldl (fun acc p => acc.emplaceVertex p) mesh).vertices ↔
      q ∈ mesh.vertices ∨ q ∈ polygon := by
  induction polygon generalizing mesh with
  | nil => simp
  | cons a l ih =>
    rw [List.foldl_cons]
    obtain ⟨h1, h2, h3⟩ := ih (mesh.emplaceVertex a)
    refine ⟨?_, ?_, ?_⟩
    · rw [h1, (emplaceVertex_frame mesh a).1]
    · rw [h2, (emplaceVertex_frame mesh a).2.1]
    · intro q
      rw [h3 q]
      unfold Mesh.emplaceVertex
      split_ifs with ha
      · constructor
        · rintro (h | h)
          · exact Or.inl h
          · exact Or.inr (List.mem_cons_of_mem _ h)
        · rintro (h | h)
          · exact Or.inl h
          · rcases List.mem_cons.mp h with h | h
            · exact Or.inl (h ▸ ha)
            · exact Or.inr h
      · simp only [List.mem_append, List.mem_singleton, List.mem_cons]
        tauto

/-- C6 (as amended): `DelaunayDiscretizer::Mesh` registers the polygon and builds
nothing.  After the call the vertex set holds the former vertices and the points of
the polygon, the perimeter is the sequence of the polygon's points, and the edge
set and the triangle set are as before; applied to an empty mesh it leaves a mesh
without edges and triangles. -/
theorem Mesh_registers_polygon_only (polygon : List Point) (mesh : Mesh) :
    (DelaunayDiscretizer.Mesh polygon mesh).edges = mesh.edges ∧
    (DelaunayDiscretizer.Mesh polygon mesh).triangles = mesh.triangles ∧
    (DelaunayDiscretizer.Mesh polygon mesh).perimeter = polygon ∧
    (∀ q, q ∈ (DelaunayDiscretizer.Mesh polygon mesh).vertices ↔
      q ∈ mesh.vertices ∨ q ∈ polygon) ∧
    (DelaunayDiscretizer.Mesh polygon emptyMesh).edges = [] ∧
    (DelaunayDiscretizer.Mesh polygon emptyMesh).triangles = [] := by
  obtain ⟨h1, h2, h3⟩ := foldl_emplaceVertex_frame polygon mesh
  obtain ⟨e1, e2, _⟩ := foldl_emplaceVertex_frame polygon emptyMesh
  unfold DelaunayDiscretizer.Mesh
  exact ⟨h1, h2, rfl, h3, e1, e2⟩

/-- C6 (the claim fails): applied to the empty mesh and the unit square,
`DelaunayDiscretizer::Mesh` leaves 4 vertices, no edge and no triangle, not 5 edges
and 2 triangles; the mesh is not populated. -/
theorem Mesh_unit_square_not_populated :
    (DelaunayDiscretizer.Mesh [⟨0, 0⟩, ⟨1, 0⟩, ⟨1, 1⟩, ⟨0, 1⟩] emptyMesh).vertices.length = 4 ∧
    (DelaunayDiscretizer.Mesh [⟨0, 0⟩, ⟨1, 0⟩, ⟨1, 1⟩, ⟨0, 1⟩] emptyMesh).edges.length = 0 ∧
    (DelaunayDiscretizer.Mesh [⟨0, 0⟩, ⟨1, 0⟩, ⟨1, 1⟩, ⟨0, 1⟩] emptyMesh).triangles.length = 0 := by
  decide!

/-- C7: on a mesh without triangles whose perimeter has fewer than 3 points
`AddInteriorPoint` ends with the error of `ConstructInitialMeshFromPerimeter` and
returns the mesh as it was (the point is not inserted); on a mesh that has a
triangle the call never ends with that error. -/
theorem AddInteriorPoint_too_few_perimeter (polygonDiscretizer : Mesh → Outcome) (p : Point)
    (mesh : Mesh) :
    (mesh.triangles = [] → mesh.perimeter.length < 3 →
      AddInteriorPoint polygonDiscretizer p mesh = ⟨mesh, some .InvalidInput⟩) ∧
    (mesh.triangles ≠ [] →
      (AddInteriorPoint polygonDiscretizer p mesh).error ≠ some .InvalidInput) := by
  constructor
  · intro ht hp
    unfold AddInteriorPoint ConstructInitialMeshFromPerimeter
    simp [ht, hp]
  · intro ht
    have hl : mesh.triangles.length ≠ 0 := by
      intro h
      exact ht (List.length_eq_zero.mp h)
    unfold AddInteriorPoint
    simp only [hl, if_false]
    split
    · exact SplitTriangle_error _ _ _
    · simp

/-- Witness for C7: the empty mesh, and the mesh `kite` with the point
`kitePoint`. -/
theorem AddInteriorPoint_too_few_perimeter_witness :
    AddInteriorPoint idlePolygonDiscretizer ⟨0, 0⟩ emptyMesh = ⟨emptyMesh, some .InvalidInput⟩ ∧
    (AddInteriorPoint idlePolygonDiscretizer kitePoint kite).error ≠ some .InvalidInput :=
  ⟨(AddInteriorPoint_too_few_perimeter idlePolygonDiscretizer ⟨0, 0⟩ emptyMesh).1 rfl
      (by decide),
   (AddInteriorPoint_too_few_perimeter idlePolygonDiscretizer kitePoint kite).2 (by decide)⟩

theorem find_stored_edge {m : Mesh} {a b : Point} (h : m.hasEdge a b = true) :
    ∃ e, m.edges.find? (fun e => e.same ⟨a, b⟩) = some e := by
  unfold Mesh.hasEdge at h
  rw [List.any_eq_true] at h
  obtain ⟨f, hf, hs⟩ := h
  cases hfind : m.edges.find? (fun e => e.same ⟨a, b⟩) with
  | some e => exact ⟨e, rfl⟩
  | none =>
    rw [List.find?_eq_none] at hfind
    exact absurd hs (hfind f hf)

theorem emplaceEdge_stored {m : Mesh} {a b : Point} (hab : a ≠ b)
    (h : m.hasEdge a b = true) : ∃ e, m.emplaceEdge a b = .ok (m, e) := by
  obtain ⟨e, he⟩ := find_stored_edge h
  refine ⟨e, ?_⟩
  unfold Mesh.emplaceEdge
  rw [if_neg hab, he]

theorem emplaceEdge_same (m : Mesh) (a : Point) : m.emplaceEdge a a = .error .Degenerate := by
  unfold Mesh.emplaceEdge
  simp

theorem SplitTriangle_corner (mesh : Mesh) (t : Triangle) (p : Point)
    (hAB : mesh.hasEdge t.A t.B = true) (hBC : mesh.hasEdge t.B t.C = true)
    (hAC : mesh.hasEdge t.A t.C = true) (hcorner : t.hasVertex p = true) :
    SplitTriangle t p mesh = ⟨mesh, some .Degenerate⟩ := by
  unfold SplitTriangle
  dsimp only
  by_cases hA : t.A = p
  · rw [hA, emplaceEdge_same]
  · by_cases hB : t.B = p
    · subst hB
      obtain ⟨e, he⟩ := emplaceEdge_stored hA hAB
      rw [he]
      dsimp only
      rw [emplaceEdge_same]
    · have hC : t.C = p := by
        unfold Triangle.hasVertex at hcorner
        simp only [Bool.or_eq_true, decide_eq_true_eq] at hcorner
        tauto
      subst hC
      obtain ⟨e, he⟩ := emplaceEdge_stored hA hAC
      obtain ⟨f, hf⟩ := emplaceEdge_stored hB hBC
      rw [he]
      dsimp only
      rw [hf]
      dsimp only
      rw [emplaceEdge_same]

/-- C3 (as amended): when `p` is a stored vertex and a corner of the triangle that
`FindContainingTriangle` returns, `AddInteriorPoint` on a populated mesh with
adjacency closure leaves the vertex set, the edge set, the triangle set and the
perimeter unchanged; the call does not return normally, it ends with the error
`Degenerate` that the store raises for the edge from `p` to `p`. -/
theorem AddInteriorPoint_existing_corner (polygonDiscretizer : Mesh → Outcome) (p : Point)
    (mesh : Mesh) (t : Triangle) (hpop : mesh.triangles ≠ []) (hclosed : AdjacencyClosure mesh)
    (hv : p ∈ mesh.vertices) (hfind : FindContainingTriangle p mesh = some t)
    (hcorner : t.hasVertex p = true) :
    AddInteriorPoint polygonDiscretizer p mesh = ⟨mesh, some .Degenerate⟩ := by
  have hl : mesh.triangles.length ≠ 0 := by
    intro h
    exact hpop (List.length_eq_zero.mp h)
  have hm : mesh.emplaceVertex p = mesh := by
    unfold Mesh.emplaceVertex
    rw [if_pos hv]
  have ht : t ∈ mesh.triangles := by
    unfold FindContainingTriangle at hfind
    exact List.mem_of_find?_eq_some hfind
  obtain ⟨h1, h2, h3⟩ := hclosed.2 t ht
  unfold AddInteriorPoint
  simp only [hl, if_false]
  rw [hm, hfind]
  exact SplitTriangle_corner mesh t p h1 h2 h3 hcorner

/-- Witness for C3 (as amended): `kitePoint` is inserted in the mesh `kite` and
then inserted again. -/
theorem AddInteriorPoint_existing_corner_witness :
    AddInteriorPoint idlePolygonDiscretizer kitePoint
        (AddInteriorPoint idlePolygonDiscretizer kitePoint kite).mesh =
      ⟨(AddInteriorPoint idlePolygonDiscretizer kitePoint kite).mesh, some .Degenerate⟩ :=
  AddInteriorPoint_existing_corner idlePolygonDiscretizer kitePoint
    (AddInteriorPoint idlePolygonDiscretizer kitePoint kite).mesh ⟨⟨0, 0⟩, ⟨2, 0⟩, kitePoint⟩
    (by decide!) (by decide!) (by decide!) (by decide!) (by decide!)

/-- C3 (the claim fails): in the mesh `triangleWithLooseVertex` the point `(1,1)` is
a stored vertex, and `AddInteriorPoint` with `(1,1)` returns normally with the
containing triangle split: the edge set grows from 3 to 6 edges and the triangle
set from 1 to 3 triangles. -/
theorem AddInteriorPoint_existing_vertex_splits :
    (⟨1, 1⟩ : Point) ∈ triangleWithLooseVertex.vertices ∧
    triangleWithLooseVertex.triangles ≠ [] ∧
    (AddInteriorPoint idlePolygonDiscretizer ⟨1, 1⟩ triangleWithLooseVertex).error = none ∧
    (AddInteriorPoint idlePolygonDiscretizer ⟨1, 1⟩ triangleWithLooseVertex).mesh.vertices =
      triangleWithLooseVertex.vertices ∧
    triangleWithLooseVertex.edges.length = 3 ∧
    (AddInteriorPoint idlePolygonDiscretizer ⟨1, 1⟩ triangleWithLooseVertex).mesh.edges.length
      = 6 ∧
    triangleWithLooseVertex.triangles.length = 1 ∧
    (AddInteriorPoint idlePolygonDiscretizer ⟨1, 1⟩
      triangleWithLooseVertex).mesh.triangles.length = 3 := by
  decide!

/-- C9 (as amended): on a populated mesh, when no triangle contains `p`,
`AddInteriorPoint` inserts `p` in the vertex set and does nothing else: the edge
set and the triangle set are unchanged and the call returns normally. -/
theorem AddInteriorPoint_outside (polygonDiscretizer : Mesh → Outcome) (p : Point)
    (mesh : Mesh) (hpop : mesh.triangles ≠ [])
    (hout : ∀ t ∈ mesh.triangles, Contains t p = false) :
    AddInteriorPoint polygonDiscretizer p mesh = ⟨mesh.emplaceVertex p, none⟩ ∧
    (mesh.emplaceVertex p).edges = mesh.edges ∧
    (mesh.emplaceVertex p).triangles = mesh.triangles := by
  have hl : mesh.triangles.length ≠ 0 := by
    intro h
    exact hpop (List.length_eq_zero.mp h)
  have hf : FindContainingTriangle p (mesh.emplaceVertex p) = none := by
    unfold FindContainingTriangle
    rw [(emplaceVertex_frame mesh p).2.1, List.find?_eq_none]
    intro t ht
    rw [hout t ht]
    simp
  refine ⟨?_, (emplaceVertex_frame mesh p).1, (emplaceVertex_frame mesh p).2.1⟩
  unfold AddInteriorPoint
  simp only [hl, if_false]
  rw [hf]

/-- Witness for C9 (as amended): the mesh `kite` and the point `(5,0)`. -/
theorem AddInteriorPoint_outside_witness :
    AddInteriorPoint idlePolygonDiscretizer ⟨5, 0⟩ kite = ⟨kite.emplaceVertex ⟨5, 0⟩, none⟩ ∧
    (kite.emplaceVertex ⟨5, 0⟩).edges = kite.edges ∧
    (kite.emplaceVertex ⟨5, 0⟩).triangles = kite.triangles :=
  AddInteriorPoint_outside idlePolygonDiscretizer ⟨5, 0⟩ kite (by decide) (by decide!)

/-- C9 (the claim fails): the point `(5,0)` lies in no triangle of `kite` and to
the right of all its vertices, outside the convex hull; after `AddInteriorPoint` it
is a vertex, no triangle has it as a vertex and no edge is incident to it. -/
theorem AddInteriorPoint_outside_no_triangle :
    kite.triangles ≠ [] ∧
    (∀ t ∈ kite.triangles, Contains t ⟨5, 0⟩ = false) ∧
    (∀ q ∈ kite.vertices, q.x < 5) ∧
    (AddInteriorPoint idlePolygonDiscretizer ⟨5, 0⟩ kite).error = none ∧
    (⟨5, 0⟩ : Point) ∈ (AddInteriorPoint idlePolygonDiscretizer ⟨5, 0⟩ kite).mesh.vertices ∧
    (∀ t ∈ (AddInteriorPoint idlePolygonDiscretizer ⟨5, 0⟩ kite).mesh.triangles,
      t.hasVertex ⟨5, 0⟩ = false) ∧
    (AddInteriorPoint idlePolygonDiscretizer ⟨5, 0⟩ kite).mesh.edgesOf ⟨5, 0⟩ = [] := by
  decide!

theorem Triangle.same_iff (t u : Triangle) :
    t.same u = true ↔ ∀ p, t.hasVertex p = true ↔ u.hasVertex p = true := by
  unfold Triangle.same Triangle.hasVertex
  simp only [Bool.and_eq_true, Bool.or_eq_true, decide_eq_true_eq]
  constructor
  · rintro ⟨⟨⟨⟨⟨h1, h2⟩, h3⟩, h4⟩, h5⟩, h6⟩ p
    constructor
    · rintro ((h | h) | h) <;> (rw [← h]; assumption)
    · rintro ((h | h) | h) <;> (rw [← h]; assumption)
  · intro h
    refine ⟨⟨⟨⟨⟨?_, ?_⟩, ?_⟩, ?_⟩, ?_⟩, ?_⟩
    · exact (h u.A).mpr (by simp)
    · exact (h u.B).mpr (by simp)
    · exact (h u.C).mpr (by simp)
    · exact (h t.A).mp (by simp)
    · exact (h t.B).mp (by simp)
    · exact (h t.C).mp (by simp)

theorem Triangle.same_refl (t : Triangle) : t.same t = true :=
  (Triangle.same_iff t t).mpr (fun _ => Iff.rfl)

theorem Triangle.same_trans {t u w : Triangle} (h1 : t.same u = true) (h2 : u.same w = true) :
    t.same w = true :=
  (Triangle.same_iff t w).mpr
    (fun p => ((Triangle.same_iff t u).mp h1 p).trans ((Triangle.same_iff u w).mp h2 p))

theorem insertTriangle_mem (s : List Triangle) (x t : Triangle) :
    (∃ u ∈ insertTriangle s x, u.same t = true) ↔
      (∃ u ∈ s, u.same t = true) ∨ x.same t = true := by
  unfold insertTriangle
  split_ifs with h
  · constructor
    · intro hu
      exact Or.inl hu
    · rintro (hu | hx)
      · exact hu
      · rw [List.any_eq_true] at h
        obtain ⟨u, hu, hux⟩ := h
        exact ⟨u, hu, Triangle.same_trans hux hx⟩
  · constructor
    · rintro ⟨u, hu, hut⟩
      simp only [List.mem_append, List.mem_singleton] at hu
      rcases hu with hu | hu
      · exact Or.inl ⟨u, hu, hut⟩
      · exact Or.inr (hu ▸ hut)
    · rintro (⟨u, hu, hut⟩ | hx)
      · exact ⟨u, List.mem_append_left _ hu, hut⟩
      · exact ⟨x, by simp, hx⟩

theorem testEdge_mem (mesh : Mesh) (s : List Triangle) (e : Edge) (t : Triangle) :
    (∃ u ∈ testEdge mesh s e, u.same t = true) ↔
      (∃ u ∈ s, u.same t = true) ∨
        ∃ t1 t2, (∃ rest, mesh.trianglesOf e = t1 :: t2 :: rest) ∧ violates e t1 t2 = true ∧
          (t1.same t = true ∨ t2.same t = true) := by
  unfold testEdge
  split
  · rename_i t1 t2 rest heq
    split_ifs with hv
    · rw [insertTriangle_mem, insertTriangle_mem]
      constructor
      · rintro ((h | h) | h)
        · exact Or.inl h
        · exact Or.inr ⟨t1, t2, ⟨rest, heq⟩, hv, Or.inl h⟩
        · exact Or.inr ⟨t1, t2, ⟨rest, heq⟩, hv, Or.inr h⟩
      · rintro (h | ⟨a, b, ⟨r, hr⟩, _, hab⟩)
        · exact Or.inl (Or.inl h)
        · rw [heq] at hr
          simp only [List.cons.injEq] at hr
          obtain ⟨ha, hb, _⟩ := hr
          subst ha hb
          rcases hab with h | h
          · exact Or.inl (Or.inr h)
          · exact Or.inr h
    · constructor
      · intro h
        exact Or.inl h
      · rintro (h | ⟨a, b, ⟨r, hr⟩, hviol, _⟩)
        · exact h
        · rw [heq] at hr
          simp only [List.cons.injEq] at hr
          obtain ⟨ha, hb, _⟩ := hr
          subst ha hb
          exact absurd hviol hv
  · rename_i hne
    constructor
    · intro h
      exact Or.inl h
    · rintro (h | ⟨a, b, ⟨r, hr⟩, _, _⟩)
      · exact h
      · exact absurd hr (hne a b r)

theorem testEdges_mem (mesh : Mesh) (es : List Edge) (s : List Triangle) (t : Triangle) :
    (∃ u ∈ es.foldl (testEdge mesh) s, u.same t = true) ↔
      (∃ u ∈ s, u.same t = true) ∨
        ∃ e ∈ es, ∃ t1 t2, (∃ rest, mesh.trianglesOf e = t1 :: t2 :: rest) ∧
          violates e t1 t2 = true ∧ (t1.same t = true ∨ t2.same t = true) := by
  induction es generalizing s with
  | nil => simp
  | cons e es ih =>
    rw [List.foldl_cons, ih, testEdge_mem]
    constructor
    · rintro ((h | ⟨t1, t2, h⟩) | ⟨f, hf, h⟩)
      · exact Or.inl h
      · exact Or.inr ⟨e, List.mem_cons_self _ _, t1, t2, h⟩
      · exact Or.inr ⟨f, List.mem_cons_of_mem _ hf, h⟩
    · rintro (h | ⟨f, hf, t1, t2, h⟩)
      · exact Or.inl (Or.inl h)
      · rcases List.mem_cons.mp hf with hfe | hfe
        · subst hfe
          exact Or.inl (Or.inr ⟨t1, t2, h⟩)
        · exact Or.inr ⟨f, hfe, t1, t2, h⟩

theorem violates_iff (e : Edge) (t1 t2 : Triangle) :
    violates e t1 t2 = true ↔
      (inCircumcircle t1 (oppositeVertex t2 e.A e.B) = true ∨
        inCircumcircle t2 (oppositeVertex t1 e.A e.B) = true) := by
  unfold violates inCircumcircle
  simp only [Bool.or_eq_true, decide_eq_true_eq]

/-- `TestDelaunayCondition`, called with an empty offending set, returns `true`
exactly when no edge has, as the first two triangles that `edge.triangles` lists,
triangles `T1` (opposite vertex `K`) and `T2` (opposite vertex `L`) with
`|center(T1) - L|^2 + EPSILON < radius(T1)^2` or
`|center(T2) - K|^2 + EPSILON < radius(T2)^2`; and the offending set on return
consists, up to the identity of triangles, of these triangles `T1`, `T2`.  A third
triangle on an edge is not read. -/
theorem TestDelaunayCondition_first_two (mesh : Mesh) :
    ((TestDelaunayCondition [] mesh).1 = true ↔
      ¬ ∃ e t1 t2, ViolatingEdge mesh e t1 t2) ∧
    (∀ t, (∃ u ∈ (TestDelaunayCondition [] mesh).2, u.same t = true) ↔
      ∃ e t1 t2, ViolatingEdge mesh e t1 t2 ∧ (t1.same t = true ∨ t2.same t = true)) := by
  have key : ∀ t, (∃ u ∈ mesh.edges.foldl (testEdge mesh) [], u.same t = true) ↔
      ∃ e t1 t2, ViolatingEdge mesh e t1 t2 ∧ (t1.same t = true ∨ t2.same t = true) := by
    intro t
    rw [testEdges_mem]
    unfold ViolatingEdge
    constructor
    · rintro (⟨u, hu, _⟩ | ⟨e, he, t1, t2, hr, hv, hs⟩)
      · simp at hu
      · exact ⟨e, t1, t2, ⟨he, hr, (violates_iff e t1 t2).mp hv⟩, hs⟩
    · rintro ⟨e, t1, t2, ⟨he, hr, hv⟩, hs⟩
      exact Or.inr ⟨e, he, t1, t2, hr, (violates_iff e t1 t2).mpr hv, hs⟩
  refine ⟨?_, key⟩
  unfold TestDelaunayCondition
  dsimp only
  rw [List.isEmpty_iff]
  constructor
  · rintro hempty ⟨e, t1, t2, hv⟩
    obtain ⟨u, hu, _⟩ := (key t1).mpr ⟨e, t1, t2, hv, Or.inl (Triangle.same_refl t1)⟩
    rw [hempty] at hu
    simp at hu
  · intro hno
    cases hout : mesh.edges.foldl (testEdge mesh) [] with
    | nil => rfl
    | cons u us =>
      exfalso
      apply hno
      obtain ⟨e, t1, t2, hv, _⟩ := (key u).mp ⟨u, by rw [hout]; simp, Triangle.same_refl u⟩
      exact ⟨e, t1, t2, hv⟩

theorem emplaceTriangle_not_degenerate {m m1 : Mesh} {a b c : Point}
    (h : m.emplaceTriangle a b c = .ok m1) : degenerateTriangle a b c = false := by
  unfold Mesh.emplaceTriangle at h
  split_ifs at h with hd
  · simpa using hd
  · simpa using hd

theorem walkStep_minPerimeterToArea {Distance : Point → Point → ℚ} {v : Point} {mesh : Mesh}
    {s s1 : WalkState} (h : walkStep Distance v mesh s = .ok s1) :
    s1.minPerimeterToArea = s.minPerimeterToArea := by
  unfold walkStep at h
  split at h
  · simp at h
  · split at h
    · simp at h
    · simp only [Except.ok.injEq] at h
      rw [← h]

theorem boundaryWalk_minPerimeterToArea {Distance : Point → Point → ℚ} {v : Point}
    {mesh : Mesh} {vfirst : Point} (fuel : Nat) {s s1 : WalkState}
    (h : boundaryWalk Distance v mesh vfirst fuel s = .ok s1) :
    s1.minPerimeterToArea = s.minPerimeterToArea := by
  induction fuel generalizing s with
  | zero => simp [boundaryWalk] at h
  | succ n ih =>
    rw [boundaryWalk] at h
    split at h
    · simp at h
    · rename_i s2 h2
      have e2 := walkStep_minPerimeterToArea h2
      split_ifs at h
      · rw [ih h, e2]
      · simp only [Except.ok.injEq] at h
        rw [← h, e2]

/-- C1 (the code departs from the claim): the mesh `kite` is populated, satisfies
adjacency closure and the boundary-count invariant and passes
`TestDelaunayCondition`; `kitePoint` is not a vertex and lies strictly inside the
upper triangle and in no other.  `AddInteriorPoint` returns normally and keeps the
edge from `(0,0)` to `(2,0)`, because `kitePoint` is not inside the circumcircle of
the lower triangle by more than `EPSILON`; but `(1,-3)` is inside the circumcircle
of the new triangle on that edge by more than `EPSILON`, and `TestDelaunayCondition`
called with an empty set returns `false`. -/
theorem AddInteriorPoint_kite_not_delaunay :
    kite.triangles ≠ [] ∧ AdjacencyClosure kite ∧ BoundaryCount kite ∧
    TestDelaunayCondition [] kite = (true, []) ∧
    kitePoint ∉ kite.vertices ∧
    StrictlyInside ⟨⟨0, 0⟩, ⟨2, 0⟩, ⟨1, 3⟩⟩ kitePoint ∧
    Contains ⟨⟨0, 0⟩, ⟨1, -3⟩, ⟨2, 0⟩⟩ kitePoint = false ∧
    inCircumcircle ⟨⟨0, 0⟩, ⟨1, -3⟩, ⟨2, 0⟩⟩ kitePoint = false ∧
    inCircumcircle ⟨⟨0, 0⟩, ⟨2, 0⟩, kitePoint⟩ ⟨1, -3⟩ = true ∧
    (AddInteriorPoint idlePolygonDiscretizer kitePoint kite).error = none ∧
    (AddInteriorPoint idlePolygonDiscretizer kitePoint kite).mesh.triangles =
      [⟨⟨0, 0⟩, ⟨1, -3⟩, ⟨2, 0⟩⟩, ⟨⟨0, 0⟩, ⟨2, 0⟩, kitePoint⟩, ⟨⟨0, 0⟩, ⟨1, 3⟩, kitePoint⟩,
       ⟨⟨2, 0⟩, ⟨1, 3⟩, kitePoint⟩] ∧
    TestDelaunayCondition [] (AddInteriorPoint idlePolygonDiscretizer kitePoint kite).mesh =
      (false, [⟨⟨0, 0⟩, ⟨1, -3⟩, ⟨2, 0⟩⟩, ⟨⟨0, 0⟩, ⟨2, 0⟩, kitePoint⟩]) := by
  decide!

/-- With the store of §4.M, which refuses every collinear triangle, on the unit
square cut along either diagonal `AddInteriorPoint` with the centre `(1/2, 1/2)`
ends with `Degenerate` when the split reaches the triangle made of the two ends of
the diagonal and the centre.  The diagonal is still an edge and the two triangles
of the square are still in the triangle set, next to one (main diagonal) or two
(other diagonal) triangles of the split. -/
theorem AddInteriorPoint_square_centre_fails :
    (AddInteriorPoint idlePolygonDiscretizer squareCentre squareMain).error = some .Degenerate ∧
    (⟨⟨0, 0⟩, ⟨1, 1⟩⟩ : Edge) ∈
      (AddInteriorPoint idlePolygonDiscretizer squareCentre squareMain).mesh.edges ∧
    (AddInteriorPoint idlePolygonDiscretizer squareCentre squareMain).mesh.triangles =
      [⟨⟨0, 0⟩, ⟨1, 0⟩, ⟨1, 1⟩⟩, ⟨⟨0, 0⟩, ⟨1, 1⟩, ⟨0, 1⟩⟩, ⟨⟨0, 0⟩, ⟨1, 0⟩, squareCentre⟩] ∧
    (AddInteriorPoint idlePolygonDiscretizer squareCentre squareAnti).error = some .Degenerate ∧
    (⟨⟨1, 0⟩, ⟨0, 1⟩⟩ : Edge) ∈
      (AddInteriorPoint idlePolygonDiscretizer squareCentre squareAnti).mesh.edges ∧
    (AddInteriorPoint idlePolygonDiscretizer squareCentre squareAnti).mesh.triangles =
      [⟨⟨0, 0⟩, ⟨1, 0⟩, ⟨0, 1⟩⟩, ⟨⟨1, 0⟩, ⟨1, 1⟩, ⟨0, 1⟩⟩, ⟨⟨0, 0⟩, ⟨1, 0⟩, squareCentre⟩,
       ⟨⟨0, 0⟩, ⟨0, 1⟩, squareCentre⟩] ∧
    triangleArea ⟨0, 0⟩ ⟨1, 0⟩ ⟨1, 1⟩ = 1 / 2 ∧ triangleArea ⟨0, 0⟩ ⟨1, 0⟩ ⟨0, 1⟩ = 1 / 2 := by
  decide!

/-- C4 (the code departs from the claim): `wedge` is the triangle `(-12,9)`,
`(0,4)`, `(3,4)` and the new vertex is `(0,0)`.  The boundary edges from `(-12,9)`
to `(0,4)` and from `(0,4)` to `(3,4)` are both visible; the first has the ratio
`32 / 24 = 4/3`, the second the ratio `12 / 6 = 2`.  The walk of `ExtendMesh`
selects the second one. -/
theorem selectEdge_wedge_not_minimal :
    (wedge.trianglesOf ⟨⟨-12, 9⟩, ⟨0, 4⟩⟩).length = 1 ∧
    (wedge.trianglesOf ⟨⟨0, 4⟩, ⟨3, 4⟩⟩).length = 1 ∧
    visible ⟨0, 0⟩ ⟨⟨-12, 9⟩, ⟨0, 4⟩⟩ ⟨⟨-12, 9⟩, ⟨0, 4⟩, ⟨3, 4⟩⟩ = true ∧
    visible ⟨0, 0⟩ ⟨⟨0, 4⟩, ⟨3, 4⟩⟩ ⟨⟨-12, 9⟩, ⟨0, 4⟩, ⟨3, 4⟩⟩ = true ∧
    perimeterToArea euclidean ⟨0, 0⟩ ⟨⟨-12, 9⟩, ⟨0, 4⟩⟩ = 4 / 3 ∧
    perimeterToArea euclidean ⟨0, 0⟩ ⟨⟨0, 4⟩, ⟨3, 4⟩⟩ = 2 ∧
    selectEdge euclidean ⟨0, 0⟩ wedge = .ok (some ⟨⟨0, 4⟩, ⟨3, 4⟩⟩) ∧
    ((AddPerimeterPoint euclidean ⟨3, 4⟩ (AddPerimeterPoint euclidean ⟨0, 4⟩
      (AddPerimeterPoint euclidean ⟨-12, 9⟩ emptyMesh).mesh).mesh).mesh.emplaceVertex ⟨0, 0⟩
      = wedge) ∧
    (AddPerimeterPoint euclidean ⟨0, 0⟩ (AddPerimeterPoint euclidean ⟨3, 4⟩
      (AddPerimeterPoint euclidean ⟨0, 4⟩
        (AddPerimeterPoint euclidean ⟨-12, 9⟩ emptyMesh).mesh).mesh).mesh).mesh.triangles =
      [⟨⟨-12, 9⟩, ⟨0, 4⟩, ⟨3, 4⟩⟩, ⟨⟨0, 4⟩, ⟨0, 0⟩, ⟨3, 4⟩⟩] := by
  decide!

theorem emplaceEdge_mono {m m1 : Mesh} {a b : Point} {e : Edge}
    (h : m.emplaceEdge a b = .ok (m1, e)) : ∀ f ∈ m.edges, f ∈ m1.edges := by
  unfold Mesh.emplaceEdge at h
  split_ifs at h
  split at h
  · simp only [Except.ok.injEq, Prod.mk.injEq] at h
    rw [← h.1]
    exact fun f hf => hf
  · simp only [Except.ok.injEq, Prod.mk.injEq] at h
    rw [← h.1]
    exact fun f hf => List.mem_append_left _ hf

theorem insertTriangle_superset (s : List Triangle) (x : Triangle) :
    ∀ t ∈ s, t ∈ insertTriangle s x := by
  intro t ht
  unfold insertTriangle
  split_ifs
  · exact ht
  · exact List.mem_append_left _ ht

theorem testEdge_superset (mesh : Mesh) (s : List Triangle) (e : Edge) :
    ∀ t ∈ s, t ∈ testEdge mesh s e := by
  intro t ht
  unfold testEdge
  split
  · split_ifs
    · exact insertTriangle_superset _ _ t (insertTriangle_superset _ _ t ht)
    · exact ht
  · exact ht

theorem testEdges_superset (mesh : Mesh) (es : List Edge) (s : List Triangle) :
    ∀ t ∈ s, t ∈ es.foldl (testEdge mesh) s := by
  induction es generalizing s with
  | nil => exact fun t ht => ht
  | cons e es ih =>
    intro t ht
    rw [List.foldl_cons]
    exact ih _ t (testEdge_superset mesh s e t ht)

/-- C20: for every mesh and every initial content `S` of the offending set, the set
on return of `TestDelaunayCondition` contains every element of `S`, the returned
boolean is `true` exactly when the set on return is empty, and a non-empty `S`
makes the call return `false` whatever the mesh is.  The mesh is a constant
argument of the function: the call has no mesh to return. -/
theorem TestDelaunayCondition_initial_set (S : List Triangle) (mesh : Mesh) :
    (∀ t ∈ S, t ∈ (TestDelaunayCondition S mesh).2) ∧
    ((TestDelaunayCondition S mesh).1 = true ↔ (TestDelaunayCondition S mesh).2 = []) ∧
    (S ≠ [] → (TestDelaunayCondition S mesh).1 = false) := by
  unfold TestDelaunayCondition
  dsimp only
  refine ⟨testEdges_superset mesh mesh.edges S, List.isEmpty_iff, ?_⟩
  intro hS
  cases S with
  | nil => exact absurd rfl hS
  | cons t ts =>
    have hmem := testEdges_superset mesh mesh.edges (t :: ts) t (List.mem_cons_self _ _)
    cases hout : mesh.edges.foldl (testEdge mesh) (t :: ts) with
    | nil =>
      rw [hout] at hmem
      simp at hmem
    | cons u us => rfl

/-- Witness for C20: the mesh `kite`, in which no edge violates the test, and an
offending set that holds one triangle. -/
theorem TestDelaunayCondition_initial_set_witness :
    TestDelaunayCondition [] kite = (true, []) ∧
    (TestDelaunayCondition [⟨⟨0, 0⟩, ⟨2, 0⟩, ⟨1, 3⟩⟩] kite).1 = false :=
  ⟨by decide!,
   (TestDelaunayCondition_initial_set [⟨⟨0, 0⟩, ⟨2, 0⟩, ⟨1, 3⟩⟩] kite).2.2 (by decide)⟩

/-! ## The visibility test -/

theorem visible_iff (v : Point) (edge : Edge) (t : Triangle) :
    visible v edge t = true ↔
      ¬ (sideValue v edge.A edge.B < 0 ↔
        sideValue (oppositeVertex t edge.A edge.B) edge.A edge.B < 0) := by
  unfold visible sideValue
  dsimp only
  by_cases h1 : (v.x - edge.B.x) * (edge.A.y - edge.B.y) -
      (edge.A.x - edge.B.x) * (v.y - edge.B.y) < 0 <;>
  by_cases h2 : ((oppositeVertex t edge.A edge.B).x - edge.B.x) * (edge.A.y - edge.B.y) -
      (edge.A.x - edge.B.x) * ((oppositeVertex t edge.A edge.B).y - edge.B.y) < 0 <;>
  simp [h1, h2]

/-- C12 (as amended): the visibility test of `ExtendMesh` accepts the edge `(A, B)`
exactly when one of the two side values computed at lines 199-200, of `v` and of
the third vertex `O`, is negative and the other is not.  When neither side value is
zero this is the same as `v` and `O` lying strictly on opposite sides of the line
`AB`; a vertex `v` whose side value is zero is accepted exactly when the side value
of `O` is negative. -/
theorem visible_characterisation (v : Point) (edge : Edge) (t : Triangle) :
    (visible v edge t = true ↔
      ¬ (sideValue v edge.A edge.B < 0 ↔
        sideValue (oppositeVertex t edge.A edge.B) edge.A edge.B < 0)) ∧
    (sideValue v edge.A edge.B ≠ 0 →
      sideValue (oppositeVertex t edge.A edge.B) edge.A edge.B ≠ 0 →
      (visible v edge t = true ↔
        StrictlyOpposite v (oppositeVertex t edge.A edge.B) edge.A edge.B)) ∧
    (sideValue v edge.A edge.B = 0 →
      (visible v edge t = true ↔
        sideValue (oppositeVertex t edge.A edge.B) edge.A edge.B < 0)) := by
  refine ⟨visible_iff v edge t, ?_, ?_⟩
  · intro hv ho
    rw [visible_iff]
    unfold StrictlyOpposite
    rcases lt_or_gt_of_ne hv with h1 | h1 <;> rcases lt_or_gt_of_ne ho with h2 | h2
    · constructor
      · intro h
        exact absurd ⟨fun _ => h2, fun _ => h1⟩ h
      · rintro (⟨_, h⟩ | ⟨h, _⟩)
        · exact absurd h2 (not_lt.mpr (le_of_lt h))
        · exact absurd h1 (not_lt.mpr (le_of_lt h))
    · constructor
      · intro _
        exact Or.inl ⟨h1, h2⟩
      · intro _ h
        exact absurd (h.mp h1) (not_lt.mpr (le_of_lt h2))
    · constructor
      · intro _
        exact Or.inr ⟨h1, h2⟩
      · intro _ h
        exact absurd (h.mpr h2) (not_lt.mpr (le_of_lt h1))
    · constructor
      · intro h
        exfalso
        apply h
        constructor
        · intro h'
          exact absurd h' (not_lt.mpr (le_of_lt h1))
        · intro h'
          exact absurd h' (not_lt.mpr (le_of_lt h2))
      · rintro (⟨h, _⟩ | ⟨_, h⟩)
        · exact absurd h (not_lt.mpr (le_of_lt h1))
        · exact absurd h (not_lt.mpr (le_of_lt h2))
  · intro hv
    rw [visible_iff, hv]
    simp

/-- Witness for C12 (as amended): the edge from `(0,0)` to `(1,0)` with the third
vertex `(0,-1)`, seen from `(1,1)` and from the collinear vertex `(2,0)`. -/
theorem visible_characterisation_witness :
    (visible ⟨1, 1⟩ ⟨⟨0, 0⟩, ⟨1, 0⟩⟩ ⟨⟨0, 0⟩, ⟨1, 0⟩, ⟨0, -1⟩⟩ = true ↔
      StrictlyOpposite ⟨1, 1⟩ (oppositeVertex ⟨⟨0, 0⟩, ⟨1, 0⟩, ⟨0, -1⟩⟩ ⟨0, 0⟩ ⟨1, 0⟩)
        ⟨0, 0⟩ ⟨1, 0⟩) ∧
    (visible ⟨2, 0⟩ ⟨⟨0, 0⟩, ⟨1, 0⟩⟩ ⟨⟨0, 0⟩, ⟨1, 0⟩, ⟨0, -1⟩⟩ = true ↔
      sideValue (oppositeVertex ⟨⟨0, 0⟩, ⟨1, 0⟩, ⟨0, -1⟩⟩ ⟨0, 0⟩ ⟨1, 0⟩) ⟨0, 0⟩ ⟨1, 0⟩ < 0) :=
  ⟨(visible_characterisation ⟨1, 1⟩ ⟨⟨0, 0⟩, ⟨1, 0⟩⟩ ⟨⟨0, 0⟩, ⟨1, 0⟩, ⟨0, -1⟩⟩).2.1
      (by decide!) (by decide!),
   (visible_characterisation ⟨2, 0⟩ ⟨⟨0, 0⟩, ⟨1, 0⟩⟩ ⟨⟨0, 0⟩, ⟨1, 0⟩, ⟨0, -1⟩⟩).2.2
      (by decide!)⟩

/-- C12 (the claim fails): for the edge from `(0,0)` to `(1,0)` whose triangle has
the third vertex `(0,-1)`, the vertex `(2,0)` is collinear with the edge, its side
value is zero, and the visibility test accepts the edge. -/
theorem visible_collinear_accepted :
    oppositeVertex ⟨⟨0, 0⟩, ⟨1, 0⟩, ⟨0, -1⟩⟩ ⟨0, 0⟩ ⟨1, 0⟩ = ⟨0, -1⟩ ∧
    sideValue ⟨2, 0⟩ ⟨0, 0⟩ ⟨1, 0⟩ = 0 ∧
    ¬ StrictlyOpposite ⟨2, 0⟩ ⟨0, -1⟩ ⟨0, 0⟩ ⟨1, 0⟩ ∧
    visible ⟨2, 0⟩ ⟨⟨0, 0⟩, ⟨1, 0⟩⟩ ⟨⟨0, 0⟩, ⟨1, 0⟩, ⟨0, -1⟩⟩ = true := by
  decide!

/-! ## An edge whose opposite vertices are not the focus vertex -/

theorem legalizeStep_without_focus (v : Point) (edge : Edge) (t1 t2 : Triangle)
    (edges : List Edge) (mesh : Mesh) (hK : v ≠ oppositeVertex t1 edge.A edge.B)
    (hL : v ≠ oppositeVertex t2 edge.A edge.B) :
    legalizeStep v edge t1 t2 edges mesh =
      (⟨mesh, edges, true, none, none, none, none⟩, none) := by
  unfold legalizeStep focusL focusK
  simp [hK, hL]

/-- C16 (as amended): when the two opposite vertices `K` and `L` of a dequeued edge
with two incident triangles are both different from the focus vertex,
`LegalizeEdges` makes no in-circle test on that edge: it leaves the mesh as it is,
does not flip the edge, adds nothing to the queue and goes on with the rest of the
queue, whether or not `|center(T1) - L|^2 + EPSILON < radius(T1)^2` or
`|center(T2) - K|^2 + EPSILON < radius(T2)^2` holds. -/
theorem LegalizeEdges_without_focus (fuel : Nat) (v : Point) (edge : Edge) (t1 t2 : Triangle)
    (edges : List Edge) (mesh : Mesh) (htri : mesh.trianglesOf edge = [t1, t2])
    (hK : v ≠ oppositeVertex t1 edge.A edge.B) (hL : v ≠ oppositeVertex t2 edge.A edge.B) :
    LegalizeEdges (fuel + 1) v (edge :: edges) mesh = LegalizeEdges fuel v edges mesh := by
  rw [LegalizeEdges, htri]
  dsimp only
  rw [legalizeStep_without_focus v edge t1 t2 edges mesh hK hL]

/-- Witness for C16 (as amended): the mesh `dart`, its edge from `(0,0)` to `(2,0)`
and the focus vertex `(0,0)`. -/
theorem LegalizeEdges_without_focus_witness :
    LegalizeEdges (0 + 1) ⟨0, 0⟩ [⟨⟨0, 0⟩, ⟨2, 0⟩⟩] dart = LegalizeEdges 0 ⟨0, 0⟩ [] dart :=
  LegalizeEdges_without_focus 0 ⟨0, 0⟩ ⟨⟨0, 0⟩, ⟨2, 0⟩⟩ ⟨⟨0, 0⟩, ⟨1, -3⟩, ⟨2, 0⟩⟩
    ⟨⟨0, 0⟩, ⟨2, 0⟩, ⟨1, 3 / 10⟩⟩ [] dart (by decide!) (by decide!) (by decide!)

/-- C16 (the claim fails): in the mesh `dart` the edge from `(0,0)` to `(2,0)` has
the two incident triangles with opposite vertices `K = (1,-3)` and `L = (1,3/10)`,
and `|center(T1) - L|^2 + EPSILON < radius(T1)^2` holds.  With the focus vertex
`(0,0)`, different from `K` and `L`, `LegalizeEdges` returns the mesh unchanged:
the edge is not flipped. -/
theorem LegalizeEdges_dart_not_flipped :
    dart.trianglesOf ⟨⟨0, 0⟩, ⟨2, 0⟩⟩ =
      [⟨⟨0, 0⟩, ⟨1, -3⟩, ⟨2, 0⟩⟩, ⟨⟨0, 0⟩, ⟨2, 0⟩, ⟨1, 3 / 10⟩⟩] ∧
    oppositeVertex ⟨⟨0, 0⟩, ⟨1, -3⟩, ⟨2, 0⟩⟩ ⟨0, 0⟩ ⟨2, 0⟩ = ⟨1, -3⟩ ∧
    oppositeVertex ⟨⟨0, 0⟩, ⟨2, 0⟩, ⟨1, 3 / 10⟩⟩ ⟨0, 0⟩ ⟨2, 0⟩ = ⟨1, 3 / 10⟩ ∧
    inCircumcircle ⟨⟨0, 0⟩, ⟨1, -3⟩, ⟨2, 0⟩⟩ ⟨1, 3 / 10⟩ = true ∧
    LegalizeEdges (legalizeFuel [⟨⟨0, 0⟩, ⟨2, 0⟩⟩] dart) ⟨0, 0⟩ [⟨⟨0, 0⟩, ⟨2, 0⟩⟩] dart =
      (⟨dart, none⟩, []) ∧
    (LegalizeEdges (legalizeFuel [⟨⟨0, 0⟩, ⟨2, 0⟩⟩] dart) ⟨1, 3 / 10⟩ [⟨⟨0, 0⟩, ⟨2, 0⟩⟩]
      dart).1.mesh.hasEdge ⟨0, 0⟩ ⟨2, 0⟩ = false := by
  decide!

/-! ## The three-vertex case of `AddPerimeterPoint` -/

theorem AddPerimeterPoint_three (Distance : Point → Point → ℚ) (p : Point) (mesh : Mesh)
    (a b c : Point) (he : mesh.edges = []) (ht : mesh.triangles = [])
    (hv : (mesh.emplaceVertex p).vertices = [a, b, c])
    (hab : a ≠ b) (hbc : b ≠ c) (hac : a ≠ c) :
    AddPerimeterPoint Distance p mesh =
      if degenerateTriangle a b c then
        ⟨{ vertices := [a, b, c], edges := [⟨a, b⟩, ⟨b, c⟩, ⟨a, c⟩], triangles := [],
           perimeter := mesh.perimeter }, some .Degenerate⟩
      else
        ⟨{ vertices := [a, b, c], edges := [⟨a, b⟩, ⟨b, c⟩, ⟨a, c⟩], triangles := [⟨a, b, c⟩],
           perimeter := mesh.perimeter }, none⟩ := by
  have hm1 : mesh.emplaceVertex p = ⟨[a, b, c], [], [], mesh.perimeter⟩ := by
    have h := emplaceVertex_frame mesh p
    cases hm : mesh.emplaceVertex p with
    | mk vs es ts pe =>
      rw [hm] at h hv
      simp only at h hv
      rw [hv, h.1, h.2.1, h.2.2, he, ht]
  have hp : p ∈ [a, b, c] := by
    have : p ∈ (mesh.emplaceVertex p).vertices := by
      unfold Mesh.emplaceVertex
      split_ifs with h
      · exact h
      · simp
    rw [hv] at this
    exact this
  unfold AddPerimeterPoint
  dsimp only
  rw [hm1]
  have hm3 : (⟨[a, b, c], [], [], mesh.perimeter⟩ : Mesh).emplaceVertex p =
      ⟨[a, b, c], [], [], mesh.perimeter⟩ := by
    unfold Mesh.emplaceVertex
    rw [if_pos hp]
  rw [hm3]
  have hba : b ≠ a := fun h => hab h.symm
  have hcb : c ≠ b := fun h => hbc h.symm
  have hca : c ≠ a := fun h => hac h.symm
  by_cases hd : degenerateTriangle a b c = true
  · simp [Mesh.emplaceEdge, Mesh.emplaceTriangle, Edge.same, hab, hbc, hac, hba, hcb, hca, hd]
  · simp [Mesh.emplaceEdge, Mesh.emplaceTriangle, Edge.same, hab, hbc, hac, hba, hcb, hca, hd]

theorem emplaceVertex_again (m : Mesh) (p : Point) :
    (m.emplaceVertex p).emplaceVertex p = m.emplaceVertex p := by
  have hp : p ∈ (m.emplaceVertex p).vertices := by
    unfold Mesh.emplaceVertex
    split_ifs with h
    · exact h
    · simp
  generalize m.emplaceVertex p = m1 at hp ⊢
  unfold Mesh.emplaceVertex
  rw [if_pos hp]

theorem cross_zero_degenerate {a b c : Point} (h : (⟨a, b, c⟩ : Triangle).cross = 0) :
    degenerateTriangle a b c = true := by
  have hstep : ConvexityOfStep a b c = 0 := by
    unfold Triangle.cross at h
    dsimp only at h
    unfold ConvexityOfStep
    dsimp only
    rw [h]
    have : fabs 0 < EPS := by
      unfold fabs EPS
      norm_num
    rw [if_pos this]
  unfold degenerateTriangle
  simp [hstep]

theorem degenerate_false_distinct {a b c : Point} (h : degenerateTriangle a b c = false) :
    a ≠ b ∧ b ≠ c ∧ a ≠ c := by
  unfold degenerateTriangle at h
  simp only [Bool.or_eq_false_iff, decide_eq_false_iff_not] at h
  exact ⟨h.1.1.1, h.1.1.2, h.1.2⟩

/-- C14 (as amended): on a mesh that holds exactly two vertices `a`, `b` and no
edge or triangle, `AddPerimeterPoint` with a point `p` distinct from both and
collinear with them ends with `Degenerate` and creates no triangle; the call is not
undone: `p` stays in the vertex set and the three edges `ab`, `bp`, `ap`, emplaced
before the triangle, stay in the edge set. -/
theorem AddPerimeterPoint_collinear (Distance : Point → Point → ℚ) (p : Point) (mesh : Mesh)
    (a b : Point) (hv : mesh.vertices = [a, b]) (hab : a ≠ b) (he : mesh.edges = [])
    (ht : mesh.triangles = []) (hpa : p ≠ a) (hpb : p ≠ b)
    (hcol : (⟨a, b, p⟩ : Triangle).cross = 0) :
    AddPerimeterPoint Distance p mesh =
      ⟨{ vertices := [a, b, p], edges := [⟨a, b⟩, ⟨b, p⟩, ⟨a, p⟩], triangles := [],
         perimeter := mesh.perimeter }, some .Degenerate⟩ := by
  have hvs : (mesh.emplaceVertex p).vertices = [a, b, p] := by
    unfold Mesh.emplaceVertex
    have : p ∉ mesh.vertices := by
      rw [hv]
      simp [hpa, hpb]
    rw [if_neg this]
    simp [hv]
  rw [AddPerimeterPoint_three Distance p mesh a b p he ht hvs hab (fun h => hpb h.symm)
    (fun h => hpa h.symm), cross_zero_degenerate hcol]
  simp

/-- Witness for C14 (as amended): the vertices `(0,0)`, `(1,0)` and the point
`(2,0)`. -/
theorem AddPerimeterPoint_collinear_witness :
    AddPerimeterPoint euclidean ⟨2, 0⟩ twoVertices =
      ⟨{ vertices := [⟨0, 0⟩, ⟨1, 0⟩, ⟨2, 0⟩],
         edges := [⟨⟨0, 0⟩, ⟨1, 0⟩⟩, ⟨⟨1, 0⟩, ⟨2, 0⟩⟩, ⟨⟨0, 0⟩, ⟨2, 0⟩⟩], triangles := [],
         perimeter := twoVertices.perimeter }, some .Degenerate⟩ :=
  AddPerimeterPoint_collinear euclidean ⟨2, 0⟩ twoVertices ⟨0, 0⟩ ⟨1, 0⟩ rfl (by decide!) rfl rfl
    (by decide!) (by decide!) (by decide!)

/-- C14 (the claim fails): with the vertices `(0,0)`, `(1,0)` and the point `(2,0)`
the call ends with `Degenerate`, and the vertex set and the edge set are not as
they were before the call: there are 3 vertices instead of 2 and 3 edges instead of
none. -/
theorem AddPerimeterPoint_collinear_not_undone :
    (AddPerimeterPoint euclidean ⟨2, 0⟩ twoVertices).error = some .Degenerate ∧
    (AddPerimeterPoint euclidean ⟨2, 0⟩ twoVertices).mesh.triangles = [] ∧
    twoVertices.vertices.length = 2 ∧
    (AddPerimeterPoint euclidean ⟨2, 0⟩ twoVertices).mesh.vertices.length = 3 ∧
    twoVertices.edges.length = 0 ∧
    (AddPerimeterPoint euclidean ⟨2, 0⟩ twoVertices).mesh.edges.length = 3 := by
  decide!

/-- C15 (as amended): on a mesh with no edge and no triangle, when the vertex set
has fewer than 3 vertices after `p` is inserted, `AddPerimeterPoint` creates no
edge and no triangle; when it has exactly the 3 vertices `a`, `b`, `c` and these
are not collinear (the store accepts the triangle), the call returns with the edge
set `ab`, `bc`, `ac` and the single triangle `(a, b, c)`. -/
theorem AddPerimeterPoint_bootstrap (Distance : Point → Point → ℚ) (p : Point) (mesh : Mesh)
    (he : mesh.edges = []) (ht : mesh.triangles = []) :
    ((mesh.emplaceVertex p).vertices.length < 3 →
      AddPerimeterPoint Distance p mesh = ⟨mesh.emplaceVertex p, none⟩ ∧
      (mesh.emplaceVertex p).edges = [] ∧ (mesh.emplaceVertex p).triangles = []) ∧
    (∀ a b c, (mesh.emplaceVertex p).vertices = [a, b, c] →
      degenerateTriangle a b c = false →
      AddPerimeterPoint Distance p mesh =
        ⟨{ vertices := [a, b, c], edges := [⟨a, b⟩, ⟨b, c⟩, ⟨a, c⟩],
           triangles := [⟨a, b, c⟩], perimeter := mesh.perimeter }, none⟩) := by
  constructor
  · intro hlen
    have hf := emplaceVertex_frame mesh p
    refine ⟨?_, by rw [hf.1, he], by rw [hf.2.1, ht]⟩
    have hm2 : ({ mesh.emplaceVertex p with perimeter := mesh.perimeter } : Mesh) =
        mesh.emplaceVertex p := by
      cases hm : mesh.emplaceVertex p with
      | mk vs es ts pe =>
        rw [hm] at hf
        simp only at hf
        rw [hf.2.2]
    unfold AddPerimeterPoint
    dsimp only
    rw [hm2, emplaceVertex_again, if_pos hlen]
  · intro a b c hv hd
    obtain ⟨hab, hbc, hac⟩ := degenerate_false_distinct hd
    rw [AddPerimeterPoint_three Distance p mesh a b c he ht hv hab hbc hac, hd]
    simp

/-- Witness for C15 (as amended): the empty mesh with `(0,0)`, and the vertices
`(0,0)`, `(1,0)` with the point `(0,1)`. -/
theorem AddPerimeterPoint_bootstrap_witness :
    (AddPerimeterPoint euclidean ⟨0, 0⟩ emptyMesh = ⟨emptyMesh.emplaceVertex ⟨0, 0⟩, none⟩ ∧
      (emptyMesh.emplaceVertex ⟨0, 0⟩).edges = [] ∧
      (emptyMesh.emplaceVertex ⟨0, 0⟩).triangles = []) ∧
    AddPerimeterPoint euclidean ⟨0, 1⟩ twoVertices =
      ⟨{ vertices := [⟨0, 0⟩, ⟨1, 0⟩, ⟨0, 1⟩],
         edges := [⟨⟨0, 0⟩, ⟨1, 0⟩⟩, ⟨⟨1, 0⟩, ⟨0, 1⟩⟩, ⟨⟨0, 0⟩, ⟨0, 1⟩⟩],
         triangles := [⟨⟨0, 0⟩, ⟨1, 0⟩, ⟨0, 1⟩⟩], perimeter := twoVertices.perimeter }, none⟩ :=
  ⟨(AddPerimeterPoint_bootstrap euclidean ⟨0, 0⟩ emptyMesh rfl rfl).1 (by decide),
   (AddPerimeterPoint_bootstrap euclidean ⟨0, 1⟩ twoVertices rfl rfl).2 ⟨0, 0⟩ ⟨1, 0⟩ ⟨0, 1⟩
     (by decide!) (by decide!)⟩

/-- C15 (the claim fails): on the mesh that holds the vertices `(0,0)` and `(0,1)`
and nothing else, `AddPerimeterPoint` with `(0,2)` leaves exactly 3 vertices, and
on return the triangle set is empty: the three vertices are collinear and the call
ends with `Degenerate`. -/
theorem AddPerimeterPoint_three_collinear_no_triangle :
    (AddPerimeterPoint euclidean ⟨0, 2⟩ ⟨[⟨0, 0⟩, ⟨0, 1⟩], [], [], []⟩).mesh.vertices =
      [⟨0, 0⟩, ⟨0, 1⟩, ⟨0, 2⟩] ∧
    (AddPerimeterPoint euclidean ⟨0, 2⟩ ⟨[⟨0, 0⟩, ⟨0, 1⟩], [], [], []⟩).mesh.triangles = [] ∧
    (AddPerimeterPoint euclidean ⟨0, 2⟩ ⟨[⟨0, 0⟩, ⟨0, 1⟩], [], [], []⟩).error =
      some .Degenerate := by
  decide!

/-! ## Identity of edges and triangles -/

theorem edge_same_iff (e f : Edge) :
    e.same f = true ↔ (e.A = f.A ∧ e.B = f.B) ∨ (e.A = f.B ∧ e.B = f.A) := by
  unfold Edge.same
  simp only [Bool.or_eq_true, Bool.and_eq_true, decide_eq_true_eq]

theorem edge_same_refl (e : Edge) : e.same e = true := by
  rw [edge_same_iff]
  exact Or.inl ⟨rfl, rfl⟩

theorem edge_same_symm {e f : Edge} (h : e.same f = true) : f.same e = true := by
  rw [edge_same_iff] at h ⊢
  rcases h with ⟨h1, h2⟩ | ⟨h1, h2⟩
  · exact Or.inl ⟨h1.symm, h2.symm⟩
  · exact Or.inr ⟨h2.symm, h1.symm⟩

theorem edge_same_trans {e f g : Edge} (h1 : e.same f = true) (h2 : f.same g = true) :
    e.same g = true := by
  rw [edge_same_iff] at h1 h2 ⊢
  rcases h1 with ⟨a, b⟩ | ⟨a, b⟩ <;> rcases h2 with ⟨c, d⟩ | ⟨c, d⟩
  · exact Or.inl ⟨a.trans c, b.trans d⟩
  · exact Or.inr ⟨a.trans c, b.trans d⟩
  · exact Or.inr ⟨a.trans d, b.trans c⟩
  · exact Or.inl ⟨a.trans d, b.trans c⟩

theorem Edge.same_congr_left {e f : Edge} (h : e.same f = true) (g : Edge) :
    e.same g = f.same g := by
  cases hg : f.same g with
  | true => exact edge_same_trans h hg
  | false =>
    cases he : e.same g with
    | false => rfl
    | true =>
      rw [edge_same_trans (edge_same_symm h) he] at hg
      exact absurd hg (by simp)

theorem Edge.same_comm (e f : Edge) : e.same f = f.same e := by
  cases h : f.same e with
  | true => exact edge_same_symm h
  | false =>
    cases h2 : e.same f with
    | false => rfl
    | true =>
      rw [edge_same_symm h2] at h
      exact absurd h (by simp)

theorem Triangle.hasEdge_congr (t : Triangle) {e f : Edge} (h : e.same f = true) :
    t.hasEdge e = t.hasEdge f := by
  unfold Triangle.hasEdge
  rw [Edge.same_congr_left h, Edge.same_congr_left h, Edge.same_congr_left h]

theorem trianglesOf_congr (m : Mesh) {e f : Edge} (h : e.same f = true) :
    m.trianglesOf e = m.trianglesOf f := by
  unfold Mesh.trianglesOf
  congr 1
  funext t
  exact Triangle.hasEdge_congr t h

theorem oppositeVertex_comm (t : Triangle) (I J : Point) :
    oppositeVertex t I J = oppositeVertex t J I := by
  unfold oppositeVertex
  simp only [or_comm]

theorem Triangle.hasEdge_iff {t : Triangle} (hd : t.Distinct) (f : Edge) :
    t.hasEdge f = true ↔ f.A ≠ f.B ∧ t.hasVertex f.A = true ∧ t.hasVertex f.B = true := by
  obtain ⟨A, B, C⟩ := t
  obtain ⟨P, Q⟩ := f
  obtain ⟨h1, h2, h3⟩ := hd
  simp only at h1 h2 h3
  unfold Triangle.hasEdge Triangle.hasVertex
  simp only [Bool.or_eq_true, edge_same_iff, decide_eq_true_eq]
  constructor
  · rintro (((⟨rfl, rfl⟩ | ⟨rfl, rfl⟩) | (⟨rfl, rfl⟩ | ⟨rfl, rfl⟩)) | (⟨rfl, rfl⟩ | ⟨rfl, rfl⟩)) <;>
      simp [h1, h2, h3, Ne.symm h1, Ne.symm h2, Ne.symm h3]
  · rintro ⟨hne, (rfl | rfl) | rfl, (rfl | rfl) | rfl⟩ <;>
      simp_all [Ne.symm h1, Ne.symm h2, Ne.symm h3]

theorem oppositeVertex_spec {t : Triangle} (hd : t.Distinct) {e : Edge}
    (he : t.hasEdge e = true) :
    t.hasVertex (oppositeVertex t e.A e.B) = true ∧ oppositeVertex t e.A e.B ≠ e.A ∧
      oppositeVertex t e.A e.B ≠ e.B ∧ e.A ≠ e.B ∧
      ∀ p, t.hasVertex p = true ↔ p = e.A ∨ p = e.B ∨ p = oppositeVertex t e.A e.B := by
  obtain ⟨hne, ha, hb⟩ := (Triangle.hasEdge_iff hd e).mp he
  obtain ⟨A, B, C⟩ := t
  obtain ⟨I, J⟩ := e
  obtain ⟨h1, h2, h3⟩ := hd
  simp only at h1 h2 h3 hne
  unfold Triangle.hasVertex at ha hb ⊢
  unfold oppositeVertex
  simp only [Bool.or_eq_true, decide_eq_true_eq] at ha hb ⊢
  refine ⟨?_, ?_, ?_, hne, ?_⟩ <;>
  rcases ha with (rfl | rfl) | rfl <;> rcases hb with (rfl | rfl) | rfl <;>
    simp_all [Ne.symm h1, Ne.symm h2, Ne.symm h3] <;> intro p <;> constructor <;> intro h <;>
    aesop

/-! ## Soundness of the store -/

theorem sound_storeInvariant : StoreInvariant Mesh.Sound where
  emplaceVertex := fun m p h => by
    unfold Mesh.emplaceVertex
    split_ifs
    · exact h
    · exact h
  emplaceEdge := fun m a b m1 e h heq => by
    unfold Mesh.emplaceEdge at heq
    split_ifs at heq with hab
    split at heq
    · simp only [Except.ok.injEq, Prod.mk.injEq] at heq
      rw [← heq.1]
      exact h
    · rename_i hnone
      simp only [Except.ok.injEq, Prod.mk.injEq] at heq
      rw [← heq.1]
      refine ⟨?_, h.2⟩
      show (m.edges ++ [(⟨a, b⟩ : Edge)]).Pairwise _
      rw [List.pairwise_append]
      refine ⟨h.1, List.pairwise_singleton _ _, ?_⟩
      intro f hf g hg
      rw [List.mem_singleton] at hg
      subst hg
      rw [List.find?_eq_none] at hnone
      simpa using hnone f hf
  emplaceTriangle := fun m a b c m1 h heq => by
    have hnd := emplaceTriangle_not_degenerate heq
    unfold Mesh.emplaceTriangle at heq
    rw [if_neg (by simp [hnd])] at heq
    split_ifs at heq with hany
    · simp only [Except.ok.injEq] at heq
      rw [← heq]
      exact h
    · simp only [Except.ok.injEq] at heq
      rw [← heq]
      refine ⟨h.1, ?_, ?_⟩
      · show (m.triangles ++ [(⟨a, b, c⟩ : Triangle)]).Pairwise _
        rw [List.pairwise_append]
        refine ⟨h.2.1, List.pairwise_singleton _ _, ?_⟩
        intro f hf g hg
        rw [List.mem_singleton] at hg
        subst hg
        simp only [List.any_eq_true, not_exists, not_and, Bool.not_eq_true] at hany
        exact hany f hf
      · intro t ht
        change t ∈ m.triangles ++ [(⟨a, b, c⟩ : Triangle)] at ht
        rw [List.mem_append, List.mem_singleton] at ht
        rcases ht with ht | rfl
        · exact h.2.2 t ht
        · exact degenerate_false_distinct hnd
  eraseTriangle := fun m t h => by
    refine ⟨h.1, ?_, ?_⟩
    · exact h.2.1.filter _
    · intro u hu
      exact h.2.2 u (List.mem_of_mem_filter hu)
  eraseEdge := fun m e h => by
    refine ⟨?_, h.2⟩
    exact h.1.filter _

theorem hasEdge_comm (m : Mesh) (a b : Point) : m.hasEdge a b = m.hasEdge b a := by
  unfold Mesh.hasEdge
  congr 1
  funext e
  rw [Bool.eq_iff_iff, edge_same_iff, edge_same_iff]
  constructor <;> rintro (⟨h1, h2⟩ | ⟨h1, h2⟩)
  · exact Or.inr ⟨h1, h2⟩
  · exact Or.inl ⟨h1, h2⟩
  · exact Or.inr ⟨h1, h2⟩
  · exact Or.inl ⟨h1, h2⟩

theorem stored_edge_iff (m : Mesh) (a b : Point) :
    m.hasEdge a b = true ↔ ∃ e ∈ m.edges, e.same ⟨a, b⟩ = true := by
  unfold Mesh.hasEdge
  rw [List.any_eq_true]

/-- Under adjacency closure two different vertices of a stored triangle are joined
by a stored edge. -/
theorem closure_hasEdge {m : Mesh} (hc : AdjacencyClosure m) {t : Triangle}
    (ht : t ∈ m.triangles) {a b : Point} (ha : t.hasVertex a = true)
    (hb : t.hasVertex b = true) (hab : a ≠ b) : m.hasEdge a b = true := by
  obtain ⟨h1, h2, h3⟩ := hc.2 t ht
  have h1' := h1
  have h2' := h2
  have h3' := h3
  rw [hasEdge_comm] at h1' h2' h3'
  unfold Triangle.hasVertex at ha hb
  simp only [Bool.or_eq_true, decide_eq_true_eq] at ha hb
  rcases ha with (rfl | rfl) | rfl <;> rcases hb with (rfl | rfl) | rfl <;>
    first
    | exact absurd rfl hab
    | assumption

/-- The two triangles listed for an edge are stored, different, have three
different vertices each, and are the only stored triangles on the edge. -/
theorem incident_pair {m : Mesh} (hs : m.Sound) {edge : Edge} {t1 t2 : Triangle}
    (h2 : m.trianglesOf edge = [t1, t2]) :
    t1 ∈ m.triangles ∧ t2 ∈ m.triangles ∧ t1.hasEdge edge = true ∧ t2.hasEdge edge = true ∧
      t1.same t2 = false ∧ t1.Distinct ∧ t2.Distinct ∧
      ∀ u ∈ m.triangles, u.hasEdge edge = true → u = t1 ∨ u = t2 := by
  have hm1 : t1 ∈ m.trianglesOf edge := by rw [h2]; simp
  have hm2 : t2 ∈ m.trianglesOf edge := by rw [h2]; simp
  unfold Mesh.trianglesOf at hm1 hm2 h2
  rw [List.mem_filter] at hm1 hm2
  have hp : (m.triangles.filter (fun t => t.hasEdge edge)).Pairwise
      (fun t u => t.same u = false) := hs.2.1.filter _
  rw [h2] at hp
  refine ⟨hm1.1, hm2.1, hm1.2, hm2.2, ?_, hs.2.2 t1 hm1.1, hs.2.2 t2 hm2.1, ?_⟩
  · simpa using hp
  · intro u hu hue
    have : u ∈ m.triangles.filter (fun t => t.hasEdge edge) := List.mem_filter.mpr ⟨hu, hue⟩
    rw [h2] at this
    simpa using this

/-- The vertices `K` and `L` opposite an edge `(I, J)` with the two incident
triangles `t1` and `t2`: the four points are pairwise different and the triangles
are `{I, J, K}` and `{I, J, L}`. -/
theorem opposite_pair {m : Mesh} (hs : m.Sound) {edge : Edge} {t1 t2 : Triangle}
    (h2 : m.trianglesOf edge = [t1, t2]) {K L : Point}
    (hK : K = oppositeVertex t1 edge.A edge.B) (hL : L = oppositeVertex t2 edge.A edge.B) :
    edge.A ≠ edge.B ∧ K ≠ edge.A ∧ K ≠ edge.B ∧ L ≠ edge.A ∧ L ≠ edge.B ∧ K ≠ L ∧
      (∀ p, t1.hasVertex p = true ↔ p = edge.A ∨ p = edge.B ∨ p = K) ∧
      (∀ p, t2.hasVertex p = true ↔ p = edge.A ∨ p = edge.B ∨ p = L) := by
  obtain ⟨_, _, he1, he2, hne, hd1, hd2, _⟩ := incident_pair hs h2
  obtain ⟨_, a2, a3, a4, a5⟩ := oppositeVertex_spec hd1 he1
  obtain ⟨_, b2, b3, _, b5⟩ := oppositeVertex_spec hd2 he2
  rw [← hK] at a2 a3 a5
  rw [← hL] at b2 b3 b5
  refine ⟨a4, a2, a3, b2, b3, ?_, a5, b5⟩
  intro hKL
  have : t1.same t2 = true := by
    rw [Triangle.same_iff]
    intro p
    rw [a5, b5, hKL]
  rw [this] at hne
  exact Bool.noConfusion hne

/-- Under adjacency closure the four edges that join `I` and `J` to `K` and to `L`
are stored. -/
theorem opposite_edges {m : Mesh} (hs : m.Sound) (hc : AdjacencyClosure m) {edge : Edge}
    {t1 t2 : Triangle} (h2 : m.trianglesOf edge = [t1, t2]) {K L : Point}
    (hK : K = oppositeVertex t1 edge.A edge.B) (hL : L = oppositeVertex t2 edge.A edge.B) :
    m.hasEdge edge.A K = true ∧ m.hasEdge edge.B K = true ∧ m.hasEdge edge.A L = true ∧
      m.hasEdge edge.B L = true ∧ m.hasEdge edge.A edge.B = true := by
  obtain ⟨hm1, hm2, _, _, _, _, _, _⟩ := incident_pair hs h2
  obtain ⟨hIJ, hKI, hKJ, hLI, hLJ, _, hv1, hv2⟩ := opposite_pair hs h2 hK hL
  refine ⟨?_, ?_, ?_, ?_, ?_⟩
  · exact closure_hasEdge hc hm1 ((hv1 _).mpr (Or.inl rfl)) ((hv1 _).mpr (Or.inr (Or.inr rfl)))
      (Ne.symm hKI)
  · exact closure_hasEdge hc hm1 ((hv1 _).mpr (Or.inr (Or.inl rfl)))
      ((hv1 _).mpr (Or.inr (Or.inr rfl))) (Ne.symm hKJ)
  · exact closure_hasEdge hc hm2 ((hv2 _).mpr (Or.inl rfl)) ((hv2 _).mpr (Or.inr (Or.inr rfl)))
      (Ne.symm hLI)
  · exact closure_hasEdge hc hm2 ((hv2 _).mpr (Or.inr (Or.inl rfl)))
      ((hv2 _).mpr (Or.inr (Or.inr rfl))) (Ne.symm hLJ)
  · exact closure_hasEdge hc hm1 ((hv1 _).mpr (Or.inl rfl)) ((hv1 _).mpr (Or.inr (Or.inl rfl)))
      hIJ

theorem scanEdges_queue (m : Mesh) (P Q : Point) (f : Option Edge) (q : List Edge) :
    (scanEdges m P Q f q).2 =
      ((m.edgesOf P).filter (fun e => decide (e.A = Q ∨ e.B = Q))).foldl insertEdge q := by
  unfold scanEdges
  generalize m.edgesOf P = l
  induction l generalizing f q with
  | nil => rfl
  | cons e l ih =>
    rw [List.foldl_cons, List.filter_cons]
    by_cases h : e.A = Q ∨ e.B = Q
    · rw [if_pos h, if_pos (by simpa using h), List.foldl_cons]
      exact ih _ _
    · rw [if_neg h, if_neg (by simpa using h)]
      exact ih _ _

/-- The value of `focusL` when the edges `(I, L)` and `(J, L)` are stored. -/
theorem focusL_stored (v : Point) (t1 : Triangle) (I J K L : Point) (s : FlipState)
    {e1 e2 : Edge} (h1 : s.mesh.emplaceEdge I L = .ok (s.mesh, e1))
    (h2 : s.mesh.emplaceEdge J L = .ok (s.mesh, e2)) :
    focusL v t1 I J K L s =
      (if v = L ∧ inCircumcircle t1 L = true then
        { s with isLegal := false, ik := (scanEdges s.mesh I K s.ik s.edges).1,
                 jk := (scanEdges s.mesh J K s.jk (scanEdges s.mesh I K s.ik s.edges).2).1,
                 edges := (scanEdges s.mesh J K s.jk (scanEdges s.mesh I K s.ik s.edges).2).2,
                 il := some e1, jl := some e2 }
      else s, none) := by
  unfold focusL inCircumcircle
  simp only [decide_eq_true_eq]
  by_cases hv : v = L
  · by_cases hin : (t1.circumcenter.x - L.x) * (t1.circumcenter.x - L.x) +
        (t1.circumcenter.y - L.y) * (t1.circumcenter.y - L.y) + EPSILON < t1.circumradiusSq
    · rw [if_pos hv, if_pos hin, if_pos ⟨hv, hin⟩]
      simp only [h1, h2]
    · rw [if_pos hv, if_neg hin, if_neg (fun h => hin h.2)]
  · rw [if_neg hv, if_neg (fun h => hv h.1)]

/-- The value of `focusK` when the edges `(I, K)` and `(J, K)` are stored. -/
theorem focusK_stored (v : Point) (t2 : Triangle) (I J K L : Point) (s : FlipState)
    {e1 e2 : Edge} (h1 : s.mesh.emplaceEdge I K = .ok (s.mesh, e1))
    (h2 : s.mesh.emplaceEdge J K = .ok (s.mesh, e2)) :
    focusK v t2 I J K L s =
      (if v = K ∧ inCircumcircle t2 K = true then
        { s with isLegal := false, il := (scanEdges s.mesh I L s.il s.edges).1,
                 jl := (scanEdges s.mesh J L s.jl (scanEdges s.mesh I L s.il s.edges).2).1,
                 edges := (scanEdges s.mesh J L s.jl (scanEdges s.mesh I L s.il s.edges).2).2,
                 ik := some e1, jk := some e2 }
      else s, none) := by
  unfold focusK inCircumcircle
  simp only [decide_eq_true_eq]
  by_cases hv : v = K
  · by_cases hin : (t2.circumcenter.x - K.x) * (t2.circumcenter.x - K.x) +
        (t2.circumcenter.y - K.y) * (t2.circumcenter.y - K.y) + EPSILON < t2.circumradiusSq
    · rw [if_pos hv, if_pos hin, if_pos ⟨hv, hin⟩]
      simp only [h1, h2]
    · rw [if_pos hv, if_neg hin, if_neg (fun h => hin h.2)]
  · rw [if_neg hv, if_neg (fun h => hv h.1)]

/-- A flip that completes has emplaced the edge `(K, L)`, erased the two triangles
and the edge, and emplaced the triangles `(I, K, L)` and `(J, K, L)`. -/
theorem flip_ok {edge : Edge} {t1 t2 : Triangle} {I J K L : Point} {s r : FlipState}
    (h : flip edge t1 t2 I J K L s = (r, none)) :
    ∃ m1 kl m3, s.mesh.emplaceEdge K L = .ok (m1, kl) ∧
      (((m1.eraseTriangle t1).eraseTriangle t2).eraseEdge edge).emplaceTriangle I K L = .ok m3 ∧
      m3.emplaceTriangle J K L = .ok r.mesh ∧ r.edges = s.edges ∧ r.isLegal = s.isLegal := by
  unfold flip at h
  split at h
  · simp at h
  · rename_i m1 kl hkl
    refine ⟨m1, kl, ?_⟩
    simp only at h
    split at h
    · split at h
      · simp at h
      · rename_i m3 h3
        split at h
        · split at h
          · simp at h
          · rename_i m4 h4
            simp only [Prod.mk.injEq, and_true] at h
            refine ⟨m3, hkl, h3, ?_, ?_, ?_⟩
            · rw [← h]; exact h4
            · rw [← h]
            · rw [← h]
        · simp at h
    · simp at h

/-- What a pass of `LegalizeEdges` over an edge with two incident triangles does
to a sound mesh that satisfies adjacency closure, when it completes: either the
edge is kept, and neither the mesh nor the queue changes, or the focus vertex is
`K` or `L`, the edges that join `I` and `J` to the other one are queued, and the
flip is made on the mesh as it was. -/
theorem legalizeStep_spec {m : Mesh} (hs : m.Sound) (hc : AdjacencyClosure m) {v : Point}
    {edge : Edge} {t1 t2 : Triangle} {q : List Edge} {s : FlipState}
    (h2 : m.trianglesOf edge = [t1, t2]) {K L : Point}
    (hK : K = oppositeVertex t1 edge.A edge.B) (hL : L = oppositeVertex t2 edge.A edge.B)
    (hr : legalizeStep v edge t1 t2 q m = (s, none)) :
    (s.isLegal = true ∧ s.mesh = m ∧ s.edges = q) ∨
    (s.isLegal = false ∧
      (∃ P, ((v = L ∧ P = K) ∨ (v = K ∧ P = L)) ∧
        s.edges = ((m.edgesOf edge.B).filter (fun e => decide (e.A = P ∨ e.B = P))).foldl
          insertEdge (((m.edgesOf edge.A).filter
            (fun e => decide (e.A = P ∨ e.B = P))).foldl insertEdge q)) ∧
      ∃ m1 kl m3, m.emplaceEdge K L = .ok (m1, kl) ∧
        (((m1.eraseTriangle t1).eraseTriangle t2).eraseEdge edge).emplaceTriangle
          edge.A K L = .ok m3 ∧
        m3.emplaceTriangle edge.B K L = .ok s.mesh) := by
  obtain ⟨hIJ, hKI, hKJ, hLI, hLJ, hKL, _, _⟩ := opposite_pair hs h2 hK hL
  obtain ⟨eIK, eJK, eIL, eJL, _⟩ := opposite_edges hs hc h2 hK hL
  obtain ⟨aIK, hIK⟩ := emplaceEdge_stored (Ne.symm hKI) eIK
  obtain ⟨aJK, hJK⟩ := emplaceEdge_stored (Ne.symm hKJ) eJK
  obtain ⟨aIL, hIL⟩ := emplaceEdge_stored (Ne.symm hLI) eIL
  obtain ⟨aJL, hJL⟩ := emplaceEdge_stored (Ne.symm hLJ) eJL
  unfold legalizeStep at hr
  simp only at hr
  rw [← hK, ← hL] at hr
  rw [focusL_stored v t1 edge.A edge.B K L ⟨m, q, true, none, none, none, none⟩ hIL hJL] at hr
  by_cases c1 : v = L ∧ inCircumcircle t1 L = true
  · rw [if_pos c1] at hr
    simp only at hr
    rw [focusK_stored v t2 edge.A edge.B K L _ hIK hJK] at hr
    have c2 : ¬(v = K ∧ inCircumcircle t2 K = true) := fun h => hKL (h.1.symm.trans c1.1)
    rw [if_neg c2] at hr
    simp only [Bool.not_false, if_true] at hr
    obtain ⟨m1, kl, m3, g1, g2, g3, g4, g5⟩ := flip_ok hr
    right
    refine ⟨g5, ⟨K, Or.inl ⟨c1.1, rfl⟩, ?_⟩, m1, kl, m3, g1, g2, g3⟩
    rw [g4]
    simp only [scanEdges_queue]
  · rw [if_neg c1] at hr
    simp only at hr
    rw [focusK_stored v t2 edge.A edge.B K L _ hIK hJK] at hr
    by_cases c2 : v = K ∧ inCircumcircle t2 K = true
    · rw [if_pos c2] at hr
      simp only [Bool.not_false, if_true] at hr
      obtain ⟨m1, kl, m3, g1, g2, g3, g4, g5⟩ := flip_ok hr
      right
      refine ⟨g5, ⟨L, Or.inr ⟨c2.1, rfl⟩, ?_⟩, m1, kl, m3, g1, g2, g3⟩
      rw [g4]
      simp only [scanEdges_queue]
    · rw [if_neg c2] at hr
      simp only [Bool.not_true, Bool.false_eq_true, if_false, Prod.mk.injEq, and_true] at hr
      left
      rw [← hr]
      exact ⟨rfl, rfl, rfl⟩

/-! ## The effect of a flip -/

theorem emplaceEdge_fresh {m m1 : Mesh} {a b : Point} {e : Edge}
    (hf : m.hasEdge a b = false) (h : m.emplaceEdge a b = .ok (m1, e)) :
    m1 = { m with edges := m.edges ++ [⟨a, b⟩] } := by
  unfold Mesh.emplaceEdge at h
  split_ifs at h
  split at h
  · rename_i f hfind
    have hmem := List.mem_of_find?_eq_some hfind
    have hsame := List.find?_some hfind
    have : m.hasEdge a b = true := (stored_edge_iff m a b).mpr ⟨f, hmem, hsame⟩
    rw [hf] at this
    exact Bool.noConfusion this
  · simp only [Except.ok.injEq, Prod.mk.injEq] at h
    exact h.1.symm

theorem emplaceTriangle_fresh {m m1 : Mesh} {a b c : Point}
    (hf : ∀ u ∈ m.triangles, u.same ⟨a, b, c⟩ = false)
    (h : m.emplaceTriangle a b c = .ok m1) :
    m1 = { m with triangles := m.triangles ++ [⟨a, b, c⟩] } := by
  unfold Mesh.emplaceTriangle at h
  split_ifs at h with h1 h2
  · rw [List.any_eq_true] at h2
    obtain ⟨u, hu, hsame⟩ := h2
    rw [hf u hu] at hsame
    exact Bool.noConfusion hsame
  · simp only [Except.ok.injEq] at h
    exact h.symm

/-- Removing from a list without repetition the one element identified with `x`
shortens it by one. -/
theorem length_filter_same {α : Type} (r : α → α → Bool) (x : α)
    (hx : ∀ a b, r a x = true → r b x = true → r a b = true) :
    ∀ l : List α, l.Pairwise (fun a b => r a b = false) → (∃ a ∈ l, r a x = true) →
      (l.filter (fun a => !r a x)).length + 1 = l.length := by
  intro l
  induction l with
  | nil => rintro _ ⟨a, ha, _⟩; simp at ha
  | cons a l ih =>
    intro hp hex
    rw [List.pairwise_cons] at hp
    by_cases hax : r a x = true
    · have hall : ∀ b ∈ l, (!r b x) = true := by
        intro b hb
        cases hbx : r b x with
        | false => rfl
        | true =>
          have := hx a b hax hbx
          rw [hp.1 b hb] at this
          exact Bool.noConfusion this
      rw [List.filter_cons, hax]
      simp only [Bool.not_true, Bool.false_eq_true, if_false, List.length_cons]
      rw [List.filter_eq_self.mpr hall]
    · obtain ⟨b, hb, hbx⟩ := hex
      rw [List.mem_cons] at hb
      rcases hb with rfl | hb
      · exact absurd hbx hax
      · have := ih hp.2 ⟨b, hb, hbx⟩
        rw [List.filter_cons]
        simp only [Bool.not_eq_true] at hax
        rw [hax]
        simp only [Bool.not_false, if_true, List.length_cons]
        omega

theorem Triangle.same_symm {t u : Triangle} (h : t.same u = true) : u.same t = true :=
  (Triangle.same_iff u t).mpr (fun p => ((Triangle.same_iff t u).mp h p).symm)

theorem Triangle.hasVertex_iff (a b c p : Point) :
    (⟨a, b, c⟩ : Triangle).hasVertex p = true ↔ p = a ∨ p = b ∨ p = c := by
  unfold Triangle.hasVertex
  simp only [Bool.or_eq_true, decide_eq_true_eq]
  constructor
  · rintro ((h | h) | h)
    · exact Or.inl h.symm
    · exact Or.inr (Or.inl h.symm)
    · exact Or.inr (Or.inr h.symm)
  · rintro (h | h | h)
    · exact Or.inl (Or.inl h.symm)
    · exact Or.inl (Or.inr h.symm)
    · exact Or.inr h.symm

theorem closure_no_triangle {m : Mesh} (hc : AdjacencyClosure m) {K L : Point} (hKL : K ≠ L)
    (hf : m.hasEdge K L = false) (a : Point) :
    ∀ u ∈ m.triangles, u.same ⟨a, K, L⟩ = false := by
  intro u hu
  cases hsame : u.same ⟨a, K, L⟩ with
  | false => rfl
  | true =>
    rw [Triangle.same_iff] at hsame
    have hk : u.hasVertex K = true :=
      (hsame K).mpr ((Triangle.hasVertex_iff a K L K).mpr (Or.inr (Or.inl rfl)))
    have hl : u.hasVertex L = true :=
      (hsame L).mpr ((Triangle.hasVertex_iff a K L L).mpr (Or.inr (Or.inr rfl)))
    have := closure_hasEdge hc hu hk hl hKL
    rw [hf] at this
    exact Bool.noConfusion this

/-- The mesh that a completed flip leaves when the edge `(K, L)` was not stored. -/
theorem fresh_flip {m : Mesh} (hs : m.Sound) (hc : AdjacencyClosure m) {edge : Edge}
    {t1 t2 : Triangle} (h2 : m.trianglesOf edge = [t1, t2]) {K L : Point}
    (hK : K = oppositeVertex t1 edge.A edge.B) (hL : L = oppositeVertex t2 edge.A edge.B)
    (hf : m.hasEdge K L = false) {m1 m3 m4 : Mesh} {kl : Edge}
    (g1 : m.emplaceEdge K L = .ok (m1, kl))
    (g2 : (((m1.eraseTriangle t1).eraseTriangle t2).eraseEdge edge).emplaceTriangle
      edge.A K L = .ok m3)
    (g3 : m3.emplaceTriangle edge.B K L = .ok m4) :
    m4 = { m with
      edges := m.edges.filter (fun f => !f.same edge) ++ [⟨K, L⟩]
      triangles := (m.triangles.filter (fun u => !u.same t1)).filter (fun u => !u.same t2) ++
        [⟨edge.A, K, L⟩, ⟨edge.B, K, L⟩] } := by
  obtain ⟨hIJ, hKI, hKJ, hLI, hLJ, hKL, _, _⟩ := opposite_pair hs h2 hK hL
  have e1 := emplaceEdge_fresh hf g1
  subst e1
  have hkl : (⟨K, L⟩ : Edge).same edge = false := by
    cases h : (⟨K, L⟩ : Edge).same edge with
    | false => rfl
    | true =>
      rw [edge_same_iff] at h
      rcases h with ⟨h, _⟩ | ⟨h, _⟩
      · exact absurd h hKI
      · exact absurd h hKJ
  have hno := closure_no_triangle hc hKL hf
  have hsub : ∀ u ∈ (m.triangles.filter (fun u => !u.same t1)).filter (fun u => !u.same t2),
      u ∈ m.triangles := fun u hu => List.mem_of_mem_filter (List.mem_of_mem_filter hu)
  have e3 := emplaceTriangle_fresh
    (fun u hu => hno edge.A u (hsub u hu)) g2
  subst e3
  have hno4 : ∀ u ∈ (m.triangles.filter (fun u => !u.same t1)).filter (fun u => !u.same t2) ++
      [(⟨edge.A, K, L⟩ : Triangle)], u.same ⟨edge.B, K, L⟩ = false := by
    intro u hu
    rw [List.mem_append, List.mem_singleton] at hu
    rcases hu with hu | rfl
    · exact hno edge.B u (hsub u hu)
    · cases h : (⟨edge.A, K, L⟩ : Triangle).same ⟨edge.B, K, L⟩ with
      | false => rfl
      | true =>
        rw [Triangle.same_iff] at h
        have := (h edge.A).mp ((Triangle.hasVertex_iff _ _ _ _).mpr (Or.inl rfl))
        rw [Triangle.hasVertex_iff] at this
        rcases this with h | h | h
        · exact absurd h hIJ
        · exact absurd h.symm hKI
        · exact absurd h.symm hLI
  have e4 := emplaceTriangle_fresh hno4 g3
  rw [e4]
  simp only [Mesh.eraseTriangle, Mesh.eraseEdge, List.filter_append, List.filter_cons,
    List.filter_nil, hkl, Bool.not_false, if_true, List.append_assoc, List.singleton_append]

/-- The numbers of edges and triangles that the erasures of a flip leave. -/
theorem flip_erase_counts {m : Mesh} (hs : m.Sound) (hc : AdjacencyClosure m) {edge : Edge}
    {t1 t2 : Triangle} (h2 : m.trianglesOf edge = [t1, t2]) :
    (m.edges.filter (fun f => !f.same edge)).length + 1 = m.edges.length ∧
      ((m.triangles.filter (fun u => !u.same t1)).filter (fun u => !u.same t2)).length + 2 =
        m.triangles.length := by
  obtain ⟨hm1, hm2, _, _, hne, _, _, _⟩ := incident_pair hs h2
  obtain ⟨_, _, _, _, hIJ⟩ := opposite_edges hs hc h2 rfl rfl
  constructor
  · refine length_filter_same Edge.same edge ?_ m.edges hs.1 ?_
    · intro a b ha hb
      exact edge_same_trans ha (edge_same_symm hb)
    · exact (stored_edge_iff m edge.A edge.B).mp hIJ
  · have l1 := length_filter_same Triangle.same t1
      (fun a b ha hb => Triangle.same_trans ha (Triangle.same_symm hb)) m.triangles hs.2.1
      ⟨t1, hm1, Triangle.same_refl t1⟩
    have l2 := length_filter_same Triangle.same t2
      (fun a b ha hb => Triangle.same_trans ha (Triangle.same_symm hb))
      (m.triangles.filter (fun u => !u.same t1)) (hs.2.1.filter _)
      ⟨t2, List.mem_filter.mpr ⟨hm2, by
        cases h : t2.same t1 with
        | false => rfl
        | true =>
          rw [Triangle.same_symm h] at hne
          exact Bool.noConfusion hne⟩, Triangle.same_refl t2⟩
    omega

/-- C17 (as amended): let the mesh be sound and satisfy adjacency closure, let the
dequeued edge `e = (I, J)` have the two incident triangles `t1` (opposite vertex
`K`) and `t2` (opposite vertex `L`), and let the pass of `LegalizeEdges` over `e`
complete without an error and judge `e` illegal.  If the edge `(K, L)` was not
stored before the pass, then the vertex set and the perimeter are unchanged, the
edge set is the former one without `e` and with `(K, L)`, the triangle set is the
former one without `t1` and `t2` and with `(I, K, L)` and `(J, K, L)`, and the
numbers of vertices, edges and triangles are the same as before. -/
theorem legalizeStep_flip_effect (v : Point) (edge : Edge) (t1 t2 : Triangle)
    (q : List Edge) (m : Mesh) (s : FlipState) (hs : m.Sound) (hc : AdjacencyClosure m)
    (h2 : m.trianglesOf edge = [t1, t2])
    (hr : legalizeStep v edge t1 t2 q m = (s, none)) (hl : s.isLegal = false)
    (hf : m.hasEdge (oppositeVertex t1 edge.A edge.B) (oppositeVertex t2 edge.A edge.B) =
      false) :
    s.mesh.vertices = m.vertices ∧ s.mesh.perimeter = m.perimeter ∧
    s.mesh.edges = m.edges.filter (fun f => !f.same edge) ++
      [⟨oppositeVertex t1 edge.A edge.B, oppositeVertex t2 edge.A edge.B⟩] ∧
    s.mesh.triangles =
      (m.triangles.filter (fun u => !u.same t1)).filter (fun u => !u.same t2) ++
        [⟨edge.A, oppositeVertex t1 edge.A edge.B, oppositeVertex t2 edge.A edge.B⟩,
         ⟨edge.B, oppositeVertex t1 edge.A edge.B, oppositeVertex t2 edge.A edge.B⟩] ∧
    s.mesh.vertices.length = m.vertices.length ∧ s.mesh.edges.length = m.edges.length ∧
    s.mesh.triangles.length = m.triangles.length := by
  rcases legalizeStep_spec hs hc h2 rfl rfl hr with ⟨h, _⟩ | ⟨_, _, m1, kl, m3, g1, g2, g3⟩
  · rw [h] at hl
    exact Bool.noConfusion hl
  · have e := fresh_flip hs hc h2 rfl rfl hf g1 g2 g3
    obtain ⟨c1, c2⟩ := flip_erase_counts hs hc h2
    rw [e]
    refine ⟨rfl, rfl, rfl, rfl, rfl, ?_, ?_⟩
    · simp only [List.length_append, List.length_singleton]
      exact c1
    · simp only [List.length_append, List.length_cons, List.length_nil]
      exact c2

/-- Witness for C17 (as amended): the mesh `dart`, its edge from `(0,0)` to `(2,0)`
and the focus vertex `(1,3/10)`; the edge is flipped to the edge from `(1,-3)` to
`(1,3/10)`. -/
theorem legalizeStep_flip_effect_witness :
    (legalizeStep ⟨1, 3 / 10⟩ ⟨⟨0, 0⟩, ⟨2, 0⟩⟩ ⟨⟨0, 0⟩, ⟨1, -3⟩, ⟨2, 0⟩⟩
      ⟨⟨0, 0⟩, ⟨2, 0⟩, ⟨1, 3 / 10⟩⟩ [] dart).1.mesh.edges =
      [⟨⟨2, 0⟩, ⟨1, 3 / 10⟩⟩, ⟨⟨1, 3 / 10⟩, ⟨0, 0⟩⟩, ⟨⟨0, 0⟩, ⟨1, -3⟩⟩, ⟨⟨1, -3⟩, ⟨2, 0⟩⟩,
       ⟨⟨1, -3⟩, ⟨1, 3 / 10⟩⟩] ∧
    (legalizeStep ⟨1, 3 / 10⟩ ⟨⟨0, 0⟩, ⟨2, 0⟩⟩ ⟨⟨0, 0⟩, ⟨1, -3⟩, ⟨2, 0⟩⟩
      ⟨⟨0, 0⟩, ⟨2, 0⟩, ⟨1, 3 / 10⟩⟩ [] dart).1.mesh.triangles =
      [⟨⟨0, 0⟩, ⟨1, -3⟩, ⟨1, 3 / 10⟩⟩, ⟨⟨2, 0⟩, ⟨1, -3⟩, ⟨1, 3 / 10⟩⟩] :=
  have h := legalizeStep_flip_effect ⟨1, 3 / 10⟩ ⟨⟨0, 0⟩, ⟨2, 0⟩⟩ ⟨⟨0, 0⟩, ⟨1, -3⟩, ⟨2, 0⟩⟩
    ⟨⟨0, 0⟩, ⟨2, 0⟩, ⟨1, 3 / 10⟩⟩ [] dart
    (legalizeStep ⟨1, 3 / 10⟩ ⟨⟨0, 0⟩, ⟨2, 0⟩⟩ ⟨⟨0, 0⟩, ⟨1, -3⟩, ⟨2, 0⟩⟩
      ⟨⟨0, 0⟩, ⟨2, 0⟩, ⟨1, 3 / 10⟩⟩ [] dart).1
    (by decide!) (by decide!) (by decide!) (by decide!) (by decide!) (by decide!)
  ⟨h.2.2.1.trans (by decide!), h.2.2.2.1.trans (by decide!)⟩

/-- C17 (the claim fails): the mesh `dartWithFin` satisfies adjacency closure, its
edge from `(0,0)` to `(2,0)` has the two incident triangles with the opposite
vertices `K = (1,-3)` and `L = (1,3/10)`, and the edge `(K, L)` is stored.  With the
focus vertex `L` the pass of `LegalizeEdges` over the edge completes and flips it;
the mesh had 8 edges before and has 7 after, while the numbers of vertices and
triangles are unchanged. -/
theorem legalizeStep_stored_diagonal_loses_edge :
    AdjacencyClosure dartWithFin ∧
    dartWithFin.trianglesOf ⟨⟨0, 0⟩, ⟨2, 0⟩⟩ =
      [⟨⟨0, 0⟩, ⟨1, -3⟩, ⟨2, 0⟩⟩, ⟨⟨0, 0⟩, ⟨2, 0⟩, ⟨1, 3 / 10⟩⟩] ∧
    dartWithFin.hasEdge ⟨1, -3⟩ ⟨1, 3 / 10⟩ = true ∧
    (legalizeStep ⟨1, 3 / 10⟩ ⟨⟨0, 0⟩, ⟨2, 0⟩⟩ ⟨⟨0, 0⟩, ⟨1, -3⟩, ⟨2, 0⟩⟩
      ⟨⟨0, 0⟩, ⟨2, 0⟩, ⟨1, 3 / 10⟩⟩ [] dartWithFin).2 = none ∧
    (legalizeStep ⟨1, 3 / 10⟩ ⟨⟨0, 0⟩, ⟨2, 0⟩⟩ ⟨⟨0, 0⟩, ⟨1, -3⟩, ⟨2, 0⟩⟩
      ⟨⟨0, 0⟩, ⟨2, 0⟩, ⟨1, 3 / 10⟩⟩ [] dartWithFin).1.isLegal = false ∧
    dartWithFin.edges.length = 8 ∧
    (legalizeStep ⟨1, 3 / 10⟩ ⟨⟨0, 0⟩, ⟨2, 0⟩⟩ ⟨⟨0, 0⟩, ⟨1, -3⟩, ⟨2, 0⟩⟩
      ⟨⟨0, 0⟩, ⟨2, 0⟩, ⟨1, 3 / 10⟩⟩ [] dartWithFin).1.mesh.edges.length = 7 ∧
    (LegalizeEdges (legalizeFuel [⟨⟨0, 0⟩, ⟨2, 0⟩⟩] dartWithFin) ⟨1, 3 / 10⟩
      [⟨⟨0, 0⟩, ⟨2, 0⟩⟩] dartWithFin).1.error = none ∧
    (LegalizeEdges (legalizeFuel [⟨⟨0, 0⟩, ⟨2, 0⟩⟩] dartWithFin) ⟨1, 3 / 10⟩
      [⟨⟨0, 0⟩, ⟨2, 0⟩⟩] dartWithFin).1.mesh.edges.length = 7 := by
  decide!

/-! ## Adjacency closure and the measure of `LegalizeEdges` -/

theorem emplaceEdge_cases {m m1 : Mesh} {a b : Point} {e : Edge}
    (h : m.emplaceEdge a b = .ok (m1, e)) :
    (m1 = m ∨ m1 = { m with edges := m.edges ++ [⟨a, b⟩] }) ∧ m1.hasEdge a b = true := by
  unfold Mesh.emplaceEdge at h
  split_ifs at h
  split at h
  · rename_i f hfind
    simp only [Except.ok.injEq, Prod.mk.injEq] at h
    rw [← h.1]
    have hsame := List.find?_some hfind
    exact ⟨Or.inl rfl, (stored_edge_iff m a b).mpr ⟨f, List.mem_of_find?_eq_some hfind, hsame⟩⟩
  · simp only [Except.ok.injEq, Prod.mk.injEq] at h
    rw [← h.1]
    refine ⟨Or.inr rfl, (stored_edge_iff _ a b).mpr ⟨⟨a, b⟩, ?_, edge_same_refl _⟩⟩
    exact List.mem_append_right _ (List.mem_singleton.mpr rfl)

theorem emplaceTriangle_cases {m m1 : Mesh} {a b c : Point}
    (h : m.emplaceTriangle a b c = .ok m1) :
    m1 = m ∨ m1 = { m with triangles := m.triangles ++ [⟨a, b, c⟩] } := by
  unfold Mesh.emplaceTriangle at h
  split_ifs at h
  · simp only [Except.ok.injEq] at h
    exact Or.inl h.symm
  · simp only [Except.ok.injEq] at h
    exact Or.inr h.symm

/-- What a completed flip leaves, whether or not the edge `(K, L)` was stored. -/
theorem flip_general {m m1 m3 m4 : Mesh} {edge kl : Edge} {t1 t2 : Triangle} {I J K L : Point}
    (g1 : m.emplaceEdge K L = .ok (m1, kl))
    (g2 : (((m1.eraseTriangle t1).eraseTriangle t2).eraseEdge edge).emplaceTriangle
      I K L = .ok m3)
    (g3 : m3.emplaceTriangle J K L = .ok m4) :
    m4.vertices = m.vertices ∧ m4.perimeter = m.perimeter ∧
      m4.edges = m1.edges.filter (fun f => !f.same edge) ∧
      (m1.edges = m.edges ∨ m1.edges = m.edges ++ [⟨K, L⟩]) ∧ m1.hasEdge K L = true ∧
      ∀ t ∈ m4.triangles, (t ∈ m.triangles ∧ t.same t1 = false ∧ t.same t2 = false) ∨
        t = ⟨I, K, L⟩ ∨ t = ⟨J, K, L⟩ := by
  obtain ⟨c1, hkl⟩ := emplaceEdge_cases g1
  obtain ⟨f1, f2, f3⟩ := emplaceEdge_frame g1
  obtain ⟨a1, a2, a3⟩ := emplaceTriangle_frame g2
  obtain ⟨b1, b2, b3⟩ := emplaceTriangle_frame g3
  refine ⟨?_, ?_, ?_, ?_, hkl, ?_⟩
  · rw [b1, a1]
    exact f1
  · rw [b3, a3]
    exact f3
  · rw [b2, a2]
    rfl
  · rcases c1 with c1 | c1
    · exact Or.inl (by rw [c1])
    · exact Or.inr (by rw [c1])
  · have hold : ∀ t ∈ (((m1.eraseTriangle t1).eraseTriangle t2).eraseEdge edge).triangles,
        t ∈ m.triangles ∧ t.same t1 = false ∧ t.same t2 = false := by
      intro t ht
      change t ∈ (m1.triangles.filter (fun u => !u.same t1)).filter (fun u => !u.same t2) at ht
      rw [List.mem_filter, List.mem_filter, f2] at ht
      obtain ⟨⟨h1, h2⟩, h3⟩ := ht
      simp only [Bool.not_eq_true'] at h2 h3
      exact ⟨h1, h2, h3⟩
    have h3 : ∀ t ∈ m3.triangles, (t ∈ m.triangles ∧ t.same t1 = false ∧ t.same t2 = false) ∨
        t = ⟨I, K, L⟩ := by
      intro t ht
      rcases emplaceTriangle_cases g2 with c | c
      · rw [c] at ht
        exact Or.inl (hold t ht)
      · rw [c] at ht
        change t ∈ _ ++ [(⟨I, K, L⟩ : Triangle)] at ht
        rw [List.mem_append, List.mem_singleton] at ht
        rcases ht with ht | ht
        · exact Or.inl (hold t ht)
        · exact Or.inr ht
    intro t ht
    rcases emplaceTriangle_cases g3 with c | c
    · rw [c] at ht
      rcases h3 t ht with h | h
      · exact Or.inl h
      · exact Or.inr (Or.inl h)
    · rw [c] at ht
      change t ∈ _ ++ [(⟨J, K, L⟩ : Triangle)] at ht
      rw [List.mem_append, List.mem_singleton] at ht
      rcases ht with ht | ht
      · rcases h3 t ht with h | h
        · exact Or.inl h
        · exact Or.inr (Or.inl h)
      · exact Or.inr (Or.inr ht)

theorem closure_vertex {m : Mesh} (hc : AdjacencyClosure m) {a b : Point}
    (h : m.hasEdge a b = true) : a ∈ m.vertices ∧ b ∈ m.vertices := by
  obtain ⟨e, he, hs⟩ := (stored_edge_iff m a b).mp h
  obtain ⟨hA, hB⟩ := hc.1 e he
  rw [edge_same_iff] at hs
  rcases hs with ⟨h1, h2⟩ | ⟨h1, h2⟩
  · simp only at h1 h2
    rw [← h1, ← h2]
    exact ⟨hA, hB⟩
  · simp only at h1 h2
    rw [← h1, ← h2]
    exact ⟨hB, hA⟩

theorem not_same_of_ne {edge : Edge} {p : Point} (h1 : p ≠ edge.A) (h2 : p ≠ edge.B)
    (a : Point) : (⟨a, p⟩ : Edge).same edge = false ∧ (⟨p, a⟩ : Edge).same edge = false := by
  constructor
  · cases h : (⟨a, p⟩ : Edge).same edge with
    | false => rfl
    | true =>
      rw [edge_same_iff] at h
      rcases h with ⟨_, h⟩ | ⟨_, h⟩
      · exact absurd h h2
      · exact absurd h h1
  · cases h : (⟨p, a⟩ : Edge).same edge with
    | false => rfl
    | true =>
      rw [edge_same_iff] at h
      rcases h with ⟨h, _⟩ | ⟨h, _⟩
      · exact absurd h h1
      · exact absurd h h2

theorem hasEdge_eraseEdge {m : Mesh} {edge : Edge} {a b : Point} (h : m.hasEdge a b = true)
    (hn : (⟨a, b⟩ : Edge).same edge = false) :
    ∃ e ∈ m.edges.filter (fun f => !f.same edge), e.same ⟨a, b⟩ = true := by
  obtain ⟨e, he, hs⟩ := (stored_edge_iff m a b).mp h
  refine ⟨e, List.mem_filter.mpr ⟨he, ?_⟩, hs⟩
  cases h' : e.same edge with
  | false => rfl
  | true =>
    rw [edge_same_trans (edge_same_symm hs) h'] at hn
    exact Bool.noConfusion hn

/-- A completed flip maintains adjacency closure. -/
theorem flip_closure {m : Mesh} (hs : m.Sound) (hc : AdjacencyClosure m) {edge : Edge}
    {t1 t2 : Triangle} (h2 : m.trianglesOf edge = [t1, t2]) {K L : Point}
    (hK : K = oppositeVertex t1 edge.A edge.B) (hL : L = oppositeVertex t2 edge.A edge.B)
    {m1 m3 m4 : Mesh} {kl : Edge} (g1 : m.emplaceEdge K L = .ok (m1, kl))
    (g2 : (((m1.eraseTriangle t1).eraseTriangle t2).eraseEdge edge).emplaceTriangle
      edge.A K L = .ok m3)
    (g3 : m3.emplaceTriangle edge.B K L = .ok m4) : AdjacencyClosure m4 := by
  obtain ⟨hIJ, hKI, hKJ, hLI, hLJ, hKL, _, _⟩ := opposite_pair hs h2 hK hL
  obtain ⟨eIK, eJK, eIL, eJL, _⟩ := opposite_edges hs hc h2 hK hL
  obtain ⟨_, _, _, _, _, _, _, honly⟩ := incident_pair hs h2
  obtain ⟨v4, _, e4, c1, hkl, t4⟩ := flip_general g1 g2 g3
  have mono := emplaceEdge_mono g1
  have lift : ∀ a b, m.hasEdge a b = true → m1.hasEdge a b = true := by
    intro a b h
    obtain ⟨e, he, hsame⟩ := (stored_edge_iff m a b).mp h
    exact (stored_edge_iff m1 a b).mpr ⟨e, mono e he, hsame⟩
  have survive : ∀ a b, m1.hasEdge a b = true → (⟨a, b⟩ : Edge).same edge = false →
      m4.hasEdge a b = true := by
    intro a b h hn
    rw [stored_edge_iff, e4]
    exact hasEdge_eraseEdge h hn
  constructor
  · intro e he
    rw [e4] at he
    have he1 := List.mem_of_mem_filter he
    rw [v4]
    rcases c1 with c1 | c1
    · rw [c1] at he1
      exact hc.1 e he1
    · rw [c1, List.mem_append, List.mem_singleton] at he1
      rcases he1 with he1 | rfl
      · exact hc.1 e he1
      · exact ⟨(closure_vertex hc eIK).2, (closure_vertex hc eIL).2⟩
  · intro t ht
    rcases t4 t ht with ⟨htm, n1, n2⟩ | rfl | rfl
    · have hne : t.hasEdge edge = false := by
        cases h : t.hasEdge edge with
        | false => rfl
        | true =>
          rcases honly t htm h with rfl | rfl
          · rw [Triangle.same_refl] at n1
            exact Bool.noConfusion n1
          · rw [Triangle.same_refl] at n2
            exact Bool.noConfusion n2
      unfold Triangle.hasEdge at hne
      simp only [Bool.or_eq_false_iff] at hne
      obtain ⟨⟨x1, x2⟩, x3⟩ := hne
      rw [Edge.same_comm] at x1 x2 x3
      obtain ⟨y1, y2, y3⟩ := hc.2 t htm
      exact ⟨survive _ _ (lift _ _ y1) x1, survive _ _ (lift _ _ y2) x2,
        survive _ _ (lift _ _ y3) x3⟩
    · exact ⟨survive _ _ (lift _ _ eIK) (not_same_of_ne hKI hKJ _).1,
        survive _ _ hkl (not_same_of_ne hKI hKJ _).2,
        survive _ _ (lift _ _ eIL) (not_same_of_ne hLI hLJ _).1⟩
    · exact ⟨survive _ _ (lift _ _ eJK) (not_same_of_ne hKI hKJ _).1,
        survive _ _ hkl (not_same_of_ne hKI hKJ _).2,
        survive _ _ (lift _ _ eJL) (not_same_of_ne hLI hLJ _).1⟩

/-- A completed pass of `LegalizeEdges` over an edge with two incident triangles
maintains adjacency closure. -/
theorem legalizeStep_closure {m : Mesh} (hs : m.Sound) (hc : AdjacencyClosure m) {v : Point}
    {edge : Edge} {t1 t2 : Triangle} {q : List Edge} {s : FlipState}
    (h2 : m.trianglesOf edge = [t1, t2])
    (hr : legalizeStep v edge t1 t2 q m = (s, none)) : AdjacencyClosure s.mesh := by
  rcases legalizeStep_spec hs hc h2 rfl rfl hr with ⟨_, h, _⟩ | ⟨_, _, m1, kl, m3, g1, g2, g3⟩
  · rw [h]
    exact hc
  · exact flip_closure hs hc h2 rfl rfl g1 g2 g3

theorem length_le_one {α : Type} (r : α → α → Bool) :
    ∀ l : List α, l.Pairwise (fun a b => r a b = false) →
      (∀ a ∈ l, ∀ b ∈ l, r a b = true) → l.length ≤ 1 := by
  intro l hp hall
  match l, hp, hall with
  | [], _, _ => simp
  | [_], _, _ => simp
  | a :: b :: l, hp, hall =>
    rw [List.pairwise_cons] at hp
    have h1 := hp.1 b (by simp)
    have h2 := hall a (by simp) b (by simp)
    rw [h1] at h2
    exact Bool.noConfusion h2

/-- A sound mesh stores at most one edge of `I` that ends at `P`. -/
theorem scan_length {m : Mesh} (hs : m.Sound) {I P : Point} (hIP : I ≠ P) :
    ((m.edgesOf I).filter (fun e => decide (e.A = P ∨ e.B = P))).length ≤ 1 := by
  refine length_le_one Edge.same _ ?_ ?_
  · unfold Mesh.edgesOf
    exact (hs.1.filter _).filter _
  · have key : ∀ a ∈ (m.edgesOf I).filter (fun e => decide (e.A = P ∨ e.B = P)),
        a.same ⟨I, P⟩ = true := by
      intro a ha
      unfold Mesh.edgesOf at ha
      rw [List.mem_filter, List.mem_filter] at ha
      obtain ⟨⟨_, h1⟩, h2⟩ := ha
      unfold Edge.hasVertex at h1
      simp only [Bool.or_eq_true, decide_eq_true_eq] at h1 h2
      rw [edge_same_iff]
      rcases h1 with h1 | h1 <;> rcases h2 with h2 | h2
      · exact absurd (h1.symm.trans h2) hIP
      · exact Or.inl ⟨h1, h2⟩
      · exact Or.inr ⟨h2, h1⟩
      · exact absurd (h1.symm.trans h2) hIP
    intro a ha b hb
    exact edge_same_trans (key a ha) (edge_same_symm (key b hb))

theorem foldl_insertEdge_length (l q : List Edge) :
    (l.foldl insertEdge q).length ≤ q.length + l.length := by
  induction l generalizing q with
  | nil => simp
  | cons e l ih =>
    rw [List.foldl_cons]
    have h1 := ih (insertEdge q e)
    have h2 : (insertEdge q e).length ≤ q.length + 1 := by
      unfold insertEdge
      split_ifs
      · omega
      · simp
    simp only [List.length_cons]
    omega

/-- A completed flip removes one edge that does not end at the focus vertex. -/
theorem flip_offFocus {m : Mesh} (hs : m.Sound) (hc : AdjacencyClosure m) {edge : Edge}
    {t1 t2 : Triangle} (h2 : m.trianglesOf edge = [t1, t2]) {K L : Point}
    (hK : K = oppositeVertex t1 edge.A edge.B) (hL : L = oppositeVertex t2 edge.A edge.B)
    {v : Point} (hv : v = K ∨ v = L)
    {m1 m3 m4 : Mesh} {kl : Edge} (g1 : m.emplaceEdge K L = .ok (m1, kl))
    (g2 : (((m1.eraseTriangle t1).eraseTriangle t2).eraseEdge edge).emplaceTriangle
      edge.A K L = .ok m3)
    (g3 : m3.emplaceTriangle edge.B K L = .ok m4) :
    offFocus m4 v + 1 = offFocus m v := by
  obtain ⟨hIJ, hKI, hKJ, hLI, hLJ, hKL, _, _⟩ := opposite_pair hs h2 hK hL
  obtain ⟨_, _, _, _, eIJ⟩ := opposite_edges hs hc h2 hK hL
  obtain ⟨_, _, e4, c1, _, _⟩ := flip_general g1 g2 g3
  have hvI : v ≠ edge.A := by
    rcases hv with rfl | rfl
    · exact hKI
    · exact hLI
  have hvJ : v ≠ edge.B := by
    rcases hv with rfl | rfl
    · exact hKJ
    · exact hLJ
  have hkl : (⟨K, L⟩ : Edge).hasVertex v = true := by
    unfold Edge.hasVertex
    simp only [Bool.or_eq_true, decide_eq_true_eq]
    rcases hv with rfl | rfl
    · exact Or.inl rfl
    · exact Or.inr rfl
  have h1 : m1.edges.filter (fun e => !e.hasVertex v) = m.edges.filter (fun e => !e.hasVertex v) := by
    rcases c1 with c1 | c1
    · rw [c1]
    · rw [c1, List.filter_append, List.filter_cons, hkl]
      simp
  unfold offFocus
  rw [e4, List.filter_filter]
  have hcomm : (fun a : Edge => (!a.hasVertex v) && !a.same edge) =
      (fun a : Edge => (!a.same edge) && !a.hasVertex v) := by
    funext a
    exact Bool.and_comm _ _
  rw [hcomm, ← List.filter_filter, h1]
  refine length_filter_same Edge.same edge ?_ _ (hs.1.filter _) ?_
  · intro a b ha hb
    exact edge_same_trans ha (edge_same_symm hb)
  · obtain ⟨e0, he0, hsame⟩ := (stored_edge_iff m edge.A edge.B).mp eIJ
    refine ⟨e0, List.mem_filter.mpr ⟨he0, ?_⟩, hsame⟩
    rw [edge_same_iff] at hsame
    unfold Edge.hasVertex
    simp only [Bool.not_eq_true', Bool.or_eq_false_iff, decide_eq_false_iff_not]
    rcases hsame with ⟨a, b⟩ | ⟨a, b⟩
    · simp only at a b
      rw [a, b]
      exact ⟨Ne.symm hvI, Ne.symm hvJ⟩
    · simp only at a b
      rw [a, b]
      exact ⟨Ne.symm hvJ, Ne.symm hvI⟩

/-- A completed pass of `LegalizeEdges` over an edge with two incident triangles
does not increase twice the number of edges off the focus vertex plus the length of
the queue that is left. -/
theorem legalizeStep_measure {m : Mesh} (hs : m.Sound) (hc : AdjacencyClosure m) {v : Point}
    {edge : Edge} {t1 t2 : Triangle} {q : List Edge} {s : FlipState}
    (h2 : m.trianglesOf edge = [t1, t2])
    (hr : legalizeStep v edge t1 t2 q m = (s, none)) :
    2 * offFocus s.mesh v + s.edges.length ≤ 2 * offFocus m v + q.length := by
  obtain ⟨hIJ, hKI, hKJ, hLI, hLJ, hKL, _, _⟩ := opposite_pair hs h2 rfl rfl
  rcases legalizeStep_spec hs hc h2 rfl rfl hr with
    ⟨_, h, hq⟩ | ⟨_, ⟨P, hP, hq⟩, m1, kl, m3, g1, g2, g3⟩
  · rw [h, hq]
  · have hv : v = oppositeVertex t1 edge.A edge.B ∨ v = oppositeVertex t2 edge.A edge.B := by
      rcases hP with ⟨h, _⟩ | ⟨h, _⟩
      · exact Or.inr h
      · exact Or.inl h
    have hoff := flip_offFocus hs hc h2 rfl rfl hv g1 g2 g3
    have hPI : edge.A ≠ P := by
      rcases hP with ⟨_, rfl⟩ | ⟨_, rfl⟩
      · exact Ne.symm hKI
      · exact Ne.symm hLI
    have hPJ : edge.B ≠ P := by
      rcases hP with ⟨_, rfl⟩ | ⟨_, rfl⟩
      · exact Ne.symm hKJ
      · exact Ne.symm hLJ
    have l1 := scan_length hs hPI
    have l2 := scan_length hs hPJ
    have f1 := foldl_insertEdge_length
      ((m.edgesOf edge.A).filter (fun e => decide (e.A = P ∨ e.B = P))) q
    have f2 := foldl_insertEdge_length
      ((m.edgesOf edge.B).filter (fun e => decide (e.A = P ∨ e.B = P)))
      (((m.edgesOf edge.A).filter (fun e => decide (e.A = P ∨ e.B = P))).foldl insertEdge q)
    rw [hq]
    omega

/-! ## The errors of a pass of `LegalizeEdges` -/

theorem focusL_raises (v : Point) (t1 : Triangle) (I J K L : Point) (s : FlipState) :
    (focusL v t1 I J K L s).2 = none ∨ (focusL v t1 I J K L s).2 = some .Degenerate := by
  unfold focusL
  dsimp only
  split_ifs
  · split
    · rename_i e heq
      rw [emplaceEdge_error heq]
      simp
    · split
      · rename_i e heq
        rw [emplaceEdge_error heq]
        simp
      · simp
  · simp
  · simp

theorem focusK_raises (v : Point) (t2 : Triangle) (I J K L : Point) (s : FlipState) :
    (focusK v t2 I J K L s).2 = none ∨ (focusK v t2 I J K L s).2 = some .Degenerate := by
  unfold focusK
  dsimp only
  split_ifs
  · split
    · rename_i e heq
      rw [emplaceEdge_error heq]
      simp
    · split
      · rename_i e heq
        rw [emplaceEdge_error heq]
        simp
      · simp
  · simp
  · simp

theorem flip_raises (edge : Edge) (t1 t2 : Triangle) (I J K L : Point) (s : FlipState) :
    (flip edge t1 t2 I J K L s).2 = none ∨ (flip edge t1 t2 I J K L s).2 = some .Degenerate ∨
      (flip edge t1 t2 I J K L s).2 = some .Undefined := by
  unfold flip
  split
  · rename_i e heq
    rw [emplaceEdge_error heq]
    simp
  · dsimp only
    split
    · split
      · rename_i e heq
        rw [emplaceTriangle_error heq]
        simp
      · split
        · split
          · rename_i e heq
            rw [emplaceTriangle_error heq]
            simp
          · simp
        · simp
    · simp

/-- A pass of `LegalizeEdges` over an edge with two incident triangles ends
normally, with `Degenerate` (raised by the store) or with `Undefined` (a null edge
pointer is dereferenced). -/
theorem legalizeStep_raises (v : Point) (edge : Edge) (t1 t2 : Triangle) (edges : List Edge)
    (mesh : Mesh) :
    (legalizeStep v edge t1 t2 edges mesh).2 = none ∨
      (legalizeStep v edge t1 t2 edges mesh).2 = some .Degenerate ∨
      (legalizeStep v edge t1 t2 edges mesh).2 = some .Undefined := by
  unfold legalizeStep
  dsimp only
  split
  · rename_i s1 e heq
    have h := focusL_raises v t1 edge.A edge.B (oppositeVertex t1 edge.A edge.B)
      (oppositeVertex t2 edge.A edge.B) ⟨mesh, edges, true, none, none, none, none⟩
    rw [heq] at h
    rcases h with h | h
    · exact Or.inl h
    · exact Or.inr (Or.inl h)
  · split
    · rename_i _ s1 _ _ s2 e heq
      have h := focusK_raises v t2 edge.A edge.B (oppositeVertex t1 edge.A edge.B)
        (oppositeVertex t2 edge.A edge.B) s1
      rw [heq] at h
      rcases h with h | h
      · exact Or.inl h
      · exact Or.inr (Or.inl h)
    · split_ifs
      · exact flip_raises _ _ _ _ _ _ _ _
      · simp

theorem LegalizeEdges_queue (fuel : Nat) (v : Point) (q : List Edge) (m : Mesh)
    (h : (LegalizeEdges fuel v q m).1.error = none) : (LegalizeEdges fuel v q m).2 = [] := by
  induction fuel generalizing q m with
  | zero =>
    cases q with
    | nil => simp [LegalizeEdges]
    | cons e es => simp [LegalizeEdges] at h
  | succ n ih =>
    cases q with
    | nil => simp [LegalizeEdges]
    | cons e es =>
      rw [LegalizeEdges] at h ⊢
      split
      · rename_i heq
        rw [heq] at h
        simp at h
      · rename_i heq
        rw [heq] at h
        exact ih es m h
      · rename_i t1 t2 heq
        rw [heq] at h
        dsimp only at h
        split
        · rename_i s err hs
          rw [hs] at h
          simp at h
        · rename_i s hs
          rw [hs] at h
          exact ih s.edges s.mesh h
      · rename_i heq
        rw [heq] at h
        simp at h

/-! ## Termination of `LegalizeEdges` -/

theorem LegalizeEdges_nil (fuel : Nat) (v : Point) (m : Mesh) :
    LegalizeEdges fuel v [] m = (⟨m, none⟩, []) := by
  cases fuel <;> rfl

/-- With more passes than twice the number of edges off the focus vertex plus the
length of the queue, `LegalizeEdges` does not run out of passes, and further passes
do not change what it returns. -/
theorem LegalizeEdges_enough (fuel : Nat) (v : Point) (q : List Edge) (m : Mesh)
    (hs : m.Sound) (hc : AdjacencyClosure m) (hf : 2 * offFocus m v + q.length < fuel) :
    (LegalizeEdges fuel v q m).1.error ≠ some .Diverges ∧
      ∀ fuel', fuel ≤ fuel' → LegalizeEdges fuel' v q m = LegalizeEdges fuel v q m := by
  induction fuel generalizing q m with
  | zero => omega
  | succ n ih =>
    cases q with
    | nil =>
      refine ⟨?_, ?_⟩
      · rw [LegalizeEdges_nil]
        simp
      · intro fuel' _
        rw [LegalizeEdges_nil, LegalizeEdges_nil]
    | cons e es =>
      simp only [List.length_cons] at hf
      rcases hto : m.trianglesOf e with _ | ⟨t1, _ | ⟨t2, _ | ⟨t3, l⟩⟩⟩
      · refine ⟨?_, ?_⟩
        · simp [LegalizeEdges, hto]
        · intro fuel' hle
          obtain ⟨k, rfl⟩ : ∃ k, fuel' = k + 1 := ⟨fuel' - 1, by omega⟩
          simp only [LegalizeEdges, hto]
      · obtain ⟨i1, i2⟩ := ih es m hs hc (by omega)
        refine ⟨?_, ?_⟩
        · simp only [LegalizeEdges, hto]
          exact i1
        · intro fuel' hle
          obtain ⟨k, rfl⟩ : ∃ k, fuel' = k + 1 := ⟨fuel' - 1, by omega⟩
          simp only [LegalizeEdges, hto]
          rw [i2 k (by omega)]
      · rcases hst : legalizeStep v e t1 t2 es m with ⟨s, _ | err⟩
        · have hs1 := legalizeStep_invariant sound_storeInvariant v e t1 t2 es m hs
          rw [hst] at hs1
          have hc1 := legalizeStep_closure hs hc hto hst
          have hm1 := legalizeStep_measure hs hc hto hst
          obtain ⟨i1, i2⟩ := ih s.edges s.mesh hs1 hc1 (by omega)
          refine ⟨?_, ?_⟩
          · simp only [LegalizeEdges, hto, hst]
            exact i1
          · intro fuel' hle
            obtain ⟨k, rfl⟩ : ∃ k, fuel' = k + 1 := ⟨fuel' - 1, by omega⟩
            simp only [LegalizeEdges, hto, hst]
            rw [i2 k (by omega)]
        · have hr := legalizeStep_raises v e t1 t2 es m
          rw [hst] at hr
          refine ⟨?_, ?_⟩
          · simp only [LegalizeEdges, hto, hst]
            rcases hr with hr | hr | hr
            · simp at hr
            · simp only [Option.some.injEq] at hr
              rw [hr]
              simp
            · simp only [Option.some.injEq] at hr
              rw [hr]
              simp
          · intro fuel' hle
            obtain ⟨k, rfl⟩ : ∃ k, fuel' = k + 1 := ⟨fuel' - 1, by omega⟩
            simp only [LegalizeEdges, hto, hst]
      · refine ⟨?_, ?_⟩
        · simp [LegalizeEdges, hto]
        · intro fuel' hle
          obtain ⟨k, rfl⟩ : ∃ k, fuel' = k + 1 := ⟨fuel' - 1, by omega⟩
          simp only [LegalizeEdges, hto]

theorem offFocus_le (m : Mesh) (v : Point) : offFocus m v ≤ m.edges.length := by
  unfold offFocus
  exact List.length_filter_le _ _

/-- C13 (as amended): for every sound mesh that satisfies adjacency closure, every
focus vertex `v` and every queue `q`, `LegalizeEdges(v, q, mesh)` terminates: with
the `legalizeFuel q mesh` passes that its callers grant it does not run out of
passes, any larger number of passes gives the same result (twice the number of
edges that do not end at `v` plus the length of the queue decreases with every
pass), and when it returns normally the queue is empty.  It may instead end with
an error raised by the store or by one of its assertions, and then the queue need
not be empty. -/
theorem LegalizeEdges_terminates (v : Point) (q : List Edge) (m : Mesh) (hs : m.Sound)
    (hc : AdjacencyClosure m) :
    (LegalizeEdges (legalizeFuel q m) v q m).1.error ≠ some .Diverges ∧
    (∀ fuel, legalizeFuel q m ≤ fuel →
      LegalizeEdges fuel v q m = LegalizeEdges (legalizeFuel q m) v q m) ∧
    ((LegalizeEdges (legalizeFuel q m) v q m).1.error = none →
      (LegalizeEdges (legalizeFuel q m) v q m).2 = []) := by
  have hle := offFocus_le m v
  obtain ⟨h1, h2⟩ := LegalizeEdges_enough (legalizeFuel q m) v q m hs hc (by
    unfold legalizeFuel
    omega)
  exact ⟨h1, h2, LegalizeEdges_queue _ v q m⟩

/-- Witness for C13 (as amended): the mesh `dart`, the focus vertex `(1,3/10)` and
the queue that holds the edge from `(0,0)` to `(2,0)`, which is flipped. -/
theorem LegalizeEdges_terminates_witness :
    (LegalizeEdges (legalizeFuel [⟨⟨0, 0⟩, ⟨2, 0⟩⟩] dart) ⟨1, 3 / 10⟩ [⟨⟨0, 0⟩, ⟨2, 0⟩⟩]
      dart).1.error ≠ some .Diverges ∧
    LegalizeEdges (legalizeFuel [⟨⟨0, 0⟩, ⟨2, 0⟩⟩] dart + 1) ⟨1, 3 / 10⟩ [⟨⟨0, 0⟩, ⟨2, 0⟩⟩]
      dart =
      LegalizeEdges (legalizeFuel [⟨⟨0, 0⟩, ⟨2, 0⟩⟩] dart) ⟨1, 3 / 10⟩ [⟨⟨0, 0⟩, ⟨2, 0⟩⟩]
        dart ∧
    (LegalizeEdges (legalizeFuel [⟨⟨0, 0⟩, ⟨2, 0⟩⟩] dart) ⟨1, 3 / 10⟩ [⟨⟨0, 0⟩, ⟨2, 0⟩⟩]
      dart).2 = [] :=
  have h := LegalizeEdges_terminates ⟨1, 3 / 10⟩ [⟨⟨0, 0⟩, ⟨2, 0⟩⟩] dart (by decide!)
    (by decide!)
  ⟨h.1, h.2.1 _ (Nat.le_succ _), h.2.2 (by decide!)⟩

/-! ## The cascade when every flip creates a new edge -/

/-- The numbers of vertices, edges and triangles after a completed pass that keeps
the edge or flips it to an edge that was not stored. -/
theorem legalizeStep_counts {m : Mesh} (hs : m.Sound) (hc : AdjacencyClosure m) {v : Point}
    {edge : Edge} {t1 t2 : Triangle} {q : List Edge} {s : FlipState}
    (h2 : m.trianglesOf edge = [t1, t2])
    (hr : legalizeStep v edge t1 t2 q m = (s, none))
    (hf : (s.isLegal ||
      !m.hasEdge (oppositeVertex t1 edge.A edge.B) (oppositeVertex t2 edge.A edge.B)) = true) :
    s.mesh.vertices.length = m.vertices.length ∧ s.mesh.edges.length = m.edges.length ∧
      s.mesh.triangles.length = m.triangles.length := by
  rcases legalizeStep_spec hs hc h2 rfl rfl hr with
    ⟨_, h, _⟩ | ⟨hl, _, m1, kl, m3, g1, g2, g3⟩
  · rw [h]
    exact ⟨rfl, rfl, rfl⟩
  · rw [hl] at hf
    simp only [Bool.false_or, Bool.not_eq_true'] at hf
    have e := fresh_flip hs hc h2 rfl rfl hf g1 g2 g3
    obtain ⟨c1, c2⟩ := flip_erase_counts hs hc h2
    rw [e]
    refine ⟨rfl, ?_, ?_⟩
    · simp only [List.length_append, List.length_singleton]
      exact c1
    · simp only [List.length_append, List.length_cons, List.length_nil]
      exact c2

/-- When `LegalizeEdges` returns normally and every flip created a new edge, the
numbers of vertices, edges and triangles are those of the mesh it was given. -/
theorem LegalizeEdges_counts (fuel : Nat) (v : Point) (q : List Edge) (m : Mesh)
    (hs : m.Sound) (hc : AdjacencyClosure m) (hfresh : freshFlips fuel v q m = true)
    (hok : (LegalizeEdges fuel v q m).1.error = none) :
    (LegalizeEdges fuel v q m).1.mesh.vertices.length = m.vertices.length ∧
      (LegalizeEdges fuel v q m).1.mesh.edges.length = m.edges.length ∧
      (LegalizeEdges fuel v q m).1.mesh.triangles.length = m.triangles.length := by
  induction fuel generalizing q m with
  | zero =>
    cases q with
    | nil => simp [LegalizeEdges]
    | cons e es => simp [LegalizeEdges] at hok
  | succ n ih =>
    cases q with
    | nil => simp [LegalizeEdges]
    | cons e es =>
      rcases hto : m.trianglesOf e with _ | ⟨t1, _ | ⟨t2, _ | ⟨t3, l⟩⟩⟩
      · simp [LegalizeEdges, hto] at hok
      · simp only [LegalizeEdges, freshFlips, hto] at hok hfresh ⊢
        exact ih es m hs hc hfresh hok
      · rcases hst : legalizeStep v e t1 t2 es m with ⟨s, _ | err⟩
        · simp only [LegalizeEdges, freshFlips, hto, hst, Bool.and_eq_true] at hok hfresh ⊢
          have hs1 := legalizeStep_invariant sound_storeInvariant v e t1 t2 es m hs
          rw [hst] at hs1
          have hc1 := legalizeStep_closure hs hc hto hst
          obtain ⟨a1, a2, a3⟩ := legalizeStep_counts hs hc hto hst hfresh.1
          obtain ⟨b1, b2, b3⟩ := ih s.edges s.mesh hs1 hc1 hfresh.2 hok
          exact ⟨b1.trans a1, b2.trans a2, b3.trans a3⟩
        · simp [LegalizeEdges, hto, hst] at hok
      · simp [LegalizeEdges, hto] at hok

theorem SplitTriangle_ok {t : Triangle} {v : Point} {mesh m7 : Mesh}
    (h : splitStore t v mesh = .ok m7) :
    SplitTriangle t v mesh =
      (LegalizeEdges (legalizeFuel (splitQueue t mesh) m7) v (splitQueue t mesh) m7).1 := by
  unfold splitStore at h
  unfold SplitTriangle splitQueue
  dsimp only
  split at h
  · simp at h
  · rename_i m1 _ h1
    split at h
    · simp at h
    · rename_i m2 _ h2
      split at h
      · simp at h
      · rename_i m3 _ h3
        split at h
        · simp at h
        · rename_i m4 h4
          split at h
          · simp at h
          · rename_i m5 h5
            split at h
            · simp at h
            · rename_i m6 h6
              simp only [Except.ok.injEq] at h
              rw [← h]

theorem SplitTriangle_raises {t : Triangle} {v : Point} {mesh : Mesh} {e : Error}
    (h : splitStore t v mesh = .error e) : (SplitTriangle t v mesh).error = some e := by
  unfold splitStore at h
  unfold SplitTriangle
  dsimp only
  split at h
  · rename_i e1 h1
    simp only [Except.error.injEq] at h
    rw [h]
  · rename_i m1 _ h1
    split at h
    · rename_i e2 h2
      simp only [Except.error.injEq] at h
      rw [h]
    · rename_i m2 _ h2
      split at h
      · rename_i e3 h3
        simp only [Except.error.injEq] at h
        rw [h]
      · rename_i m3 _ h3
        split at h
        · rename_i e4 h4
          simp only [Except.error.injEq] at h
          rw [h]
        · rename_i m4 h4
          split at h
          · rename_i e5 h5
            simp only [Except.error.injEq] at h
            rw [h]
          · rename_i m5 h5
            split at h
            · rename_i e6 h6
              simp only [Except.error.injEq] at h
              rw [h]
            · simp at h

/-! ## The split of a triangle by a new vertex -/

theorem splitStore_chain {t : Triangle} {v : Point} {mesh m7 : Mesh}
    (h : splitStore t v mesh = .ok m7) :
    ∃ m1 e1 m2 e2 m3 e3 m4 m5 m6, mesh.emplaceEdge t.A v = .ok (m1, e1) ∧
      m1.emplaceEdge t.B v = .ok (m2, e2) ∧ m2.emplaceEdge t.C v = .ok (m3, e3) ∧
      m3.emplaceTriangle t.A t.B v = .ok m4 ∧ m4.emplaceTriangle t.A t.C v = .ok m5 ∧
      m5.emplaceTriangle t.B t.C v = .ok m6 ∧ m7 = m6.eraseTriangle t := by
  unfold splitStore at h
  split at h
  · simp at h
  · rename_i m1 e1 h1
    split at h
    · simp at h
    · rename_i m2 e2 h2
      split at h
      · simp at h
      · rename_i m3 e3 h3
        split at h
        · simp at h
        · rename_i m4 h4
          split at h
          · simp at h
          · rename_i m5 h5
            split at h
            · simp at h
            · rename_i m6 h6
              simp only [Except.ok.injEq] at h
              exact ⟨m1, e1, m2, e2, m3, e3, m4, m5, m6, h1, h2, h3, h4, h5, h6, h.symm⟩

theorem splitStore_invariant {P : Mesh → Prop} (hP : StoreInvariant P) {t : Triangle}
    {v : Point} {mesh m7 : Mesh} (hm : P mesh) (h : splitStore t v mesh = .ok m7) : P m7 := by
  obtain ⟨m1, e1, m2, e2, m3, e3, m4, m5, m6, h1, h2, h3, h4, h5, h6, h7⟩ := splitStore_chain h
  rw [h7]
  exact hP.eraseTriangle _ _ (hP.emplaceTriangle _ _ _ _ _ (hP.emplaceTriangle _ _ _ _ _
    (hP.emplaceTriangle _ _ _ _ _ (hP.emplaceEdge _ _ _ _ _ (hP.emplaceEdge _ _ _ _ _
      (hP.emplaceEdge _ _ _ _ _ hm h1) h2) h3) h4) h5) h6)

/-- Under adjacency closure the vertices of a stored triangle are stored vertices. -/
theorem closure_triangle_vertex {m : Mesh} (hc : AdjacencyClosure m) {u : Triangle}
    (hu : u ∈ m.triangles) {x : Point} (hx : u.hasVertex x = true) : x ∈ m.vertices := by
  obtain ⟨h1, h2, _⟩ := hc.2 u hu
  unfold Triangle.hasVertex at hx
  simp only [Bool.or_eq_true, decide_eq_true_eq] at hx
  rcases hx with (rfl | rfl) | rfl
  · exact (closure_vertex hc h1).1
  · exact (closure_vertex hc h1).2
  · exact (closure_vertex hc h2).2

theorem no_triangle_at {m : Mesh} (hc : AdjacencyClosure m) {p : Point} (hp : p ∉ m.vertices)
    (a b : Point) : ∀ u ∈ m.triangles, u.same ⟨a, b, p⟩ = false := by
  intro u hu
  cases h : u.same ⟨a, b, p⟩ with
  | false => rfl
  | true =>
    rw [Triangle.same_iff] at h
    have := (h p).mpr ((Triangle.hasVertex_iff a b p p).mpr (Or.inr (Or.inr rfl)))
    exact absurd (closure_triangle_vertex hc hu this) hp

theorem no_edge_at {m : Mesh} (hc : AdjacencyClosure m) {p : Point} (hp : p ∉ m.vertices)
    (a : Point) : ∀ e ∈ m.edges, e.same ⟨a, p⟩ = false := by
  intro e he
  obtain ⟨hA, hB⟩ := hc.1 e he
  cases h : e.same ⟨a, p⟩ with
  | false => rfl
  | true =>
    rw [edge_same_iff] at h
    rcases h with ⟨_, h⟩ | ⟨h, _⟩
    · simp only at h
      rw [h] at hB
      exact absurd hB hp
    · simp only at h
      rw [h] at hA
      exact absurd hA hp

theorem spoke_not_same {a b p : Point} (hab : a ≠ b) (hap : a ≠ p) :
    (⟨a, p⟩ : Edge).same ⟨b, p⟩ = false := by
  cases h : (⟨a, p⟩ : Edge).same ⟨b, p⟩ with
  | false => rfl
  | true =>
    rw [edge_same_iff] at h
    rcases h with ⟨h, _⟩ | ⟨h, _⟩
    · exact absurd h hab
    · exact absurd h hap

theorem wedge_not_same {a b c d p : Point} (h1 : a ≠ c) (h2 : a ≠ d) (h3 : a ≠ p) :
    (⟨a, b, p⟩ : Triangle).same ⟨c, d, p⟩ = false ∧
      (⟨b, a, p⟩ : Triangle).same ⟨c, d, p⟩ = false := by
  constructor
  · cases h : (⟨a, b, p⟩ : Triangle).same ⟨c, d, p⟩ with
    | false => rfl
    | true =>
      rw [Triangle.same_iff] at h
      have := (h a).mp ((Triangle.hasVertex_iff _ _ _ _).mpr (Or.inl rfl))
      rw [Triangle.hasVertex_iff] at this
      rcases this with h | h | h
      · exact absurd h h1
      · exact absurd h h2
      · exact absurd h h3
  · cases h : (⟨b, a, p⟩ : Triangle).same ⟨c, d, p⟩ with
    | false => rfl
    | true =>
      rw [Triangle.same_iff] at h
      have := (h a).mp ((Triangle.hasVertex_iff _ _ _ _).mpr (Or.inr (Or.inl rfl)))
      rw [Triangle.hasVertex_iff] at this
      rcases this with h | h | h
      · exact absurd h h1
      · exact absurd h h2
      · exact absurd h h3

/-- The mesh that `SplitTriangle` hands to `LegalizeEdges` when the vertex is new:
one vertex and the three edges to the corners are added, and the triangle is
replaced by three. -/
theorem splitStore_exact {mesh : Mesh} (hs : mesh.Sound) (hc : AdjacencyClosure mesh)
    {p : Point} (hp : p ∉ mesh.vertices) {t : Triangle} (ht : t ∈ mesh.triangles) {m7 : Mesh}
    (h : splitStore t p (mesh.emplaceVertex p) = .ok m7) :
    m7 = { vertices := mesh.vertices ++ [p]
           edges := mesh.edges ++ [⟨t.A, p⟩, ⟨t.B, p⟩, ⟨t.C, p⟩]
           triangles := mesh.triangles.filter (fun u => !u.same t) ++
             [⟨t.A, t.B, p⟩, ⟨t.A, t.C, p⟩, ⟨t.B, t.C, p⟩]
           perimeter := mesh.perimeter } := by
  obtain ⟨hAB, hBC, hAC⟩ := hs.2.2 t ht
  have hv : ∀ x, t.hasVertex x = true → x ≠ p := by
    intro x hx hxp
    rw [hxp] at hx
    exact hp (closure_triangle_vertex hc ht hx)
  have hA : t.A ≠ p := hv _ (by simp [Triangle.hasVertex])
  have hB : t.B ≠ p := hv _ (by simp [Triangle.hasVertex])
  have hC : t.C ≠ p := hv _ (by simp [Triangle.hasVertex])
  have hm1 : mesh.emplaceVertex p = { mesh with vertices := mesh.vertices ++ [p] } := by
    unfold Mesh.emplaceVertex
    rw [if_neg hp]
  rw [hm1] at h
  obtain ⟨m1, e1, m2, e2, m3, e3, m4, m5, m6, g1, g2, g3, g4, g5, g6, g7⟩ := splitStore_chain h
  have x1 := emplaceEdge_fresh (by
    unfold Mesh.hasEdge
    rw [List.any_eq_false]
    intro e he
    simpa using no_edge_at hc hp t.A e he) g1
  subst x1
  dsimp only at g2
  have x2 := emplaceEdge_fresh (by
    unfold Mesh.hasEdge
    rw [List.any_eq_false]
    intro e he
    simp only [List.mem_append, List.mem_singleton] at he
    rcases he with he | rfl
    · simpa using no_edge_at hc hp t.B e he
    · simpa using spoke_not_same hAB hA) g2
  subst x2
  dsimp only at g3
  have x3 := emplaceEdge_fresh (by
    unfold Mesh.hasEdge
    rw [List.any_eq_false]
    intro e he
    simp only [List.mem_append, List.mem_singleton] at he
    rcases he with (he | rfl) | rfl
    · simpa using no_edge_at hc hp t.C e he
    · simpa using spoke_not_same hAC hA
    · simpa using spoke_not_same hBC hB) g3
  subst x3
  dsimp only at g4
  have x4 := emplaceTriangle_fresh (by
    intro u hu
    exact no_triangle_at hc hp t.A t.B u hu) g4
  subst x4
  dsimp only at g5
  have x5 := emplaceTriangle_fresh (by
    intro u hu
    simp only [List.mem_append, List.mem_singleton] at hu
    rcases hu with hu | rfl
    · exact no_triangle_at hc hp t.A t.C u hu
    · exact (wedge_not_same (Ne.symm hAB) hBC hB).2) g5
  subst x5
  dsimp only at g6
  have x6 := emplaceTriangle_fresh (by
    intro u hu
    simp only [List.mem_append, List.mem_singleton] at hu
    rcases hu with (hu | rfl) | rfl
    · exact no_triangle_at hc hp t.B t.C u hu
    · exact (wedge_not_same hAB hAC hA).1
    · exact (wedge_not_same hAB hAC hA).1) g6
  subst x6
  dsimp only at g7
  have k : ∀ a b, (⟨a, b, p⟩ : Triangle).same t = false := by
    intro a b
    cases h : (⟨a, b, p⟩ : Triangle).same t with
    | false => rfl
    | true =>
      rw [Triangle.same_iff] at h
      have := (h p).mp ((Triangle.hasVertex_iff _ _ _ _).mpr (Or.inr (Or.inr rfl)))
      exact absurd rfl (hv p this)
  rw [g7]
  simp only [Mesh.eraseTriangle, List.filter_append, List.filter_cons, List.filter_nil, k,
    Bool.not_false, if_true, List.append_assoc, List.singleton_append, List.cons_append,
    List.nil_append]

theorem hasEdge_mono {m n : Mesh} (h : ∀ e ∈ m.edges, e ∈ n.edges) {a b : Point}
    (hab : m.hasEdge a b = true) : n.hasEdge a b = true := by
  obtain ⟨e, he, hsame⟩ := (stored_edge_iff m a b).mp hab
  exact (stored_edge_iff n a b).mpr ⟨e, h e he, hsame⟩

theorem hasEdge_mem {m : Mesh} {a b : Point} (h : (⟨a, b⟩ : Edge) ∈ m.edges) :
    m.hasEdge a b = true :=
  (stored_edge_iff m a b).mpr ⟨⟨a, b⟩, h, edge_same_refl _⟩

/-- The mesh that `SplitTriangle` hands to `LegalizeEdges` satisfies adjacency
closure. -/
theorem splitStore_closure {mesh : Mesh} (hs : mesh.Sound) (hc : AdjacencyClosure mesh)
    {p : Point} (hp : p ∉ mesh.vertices) {t : Triangle} (ht : t ∈ mesh.triangles) {m7 : Mesh}
    (h : splitStore t p (mesh.emplaceVertex p) = .ok m7) : AdjacencyClosure m7 := by
  have e := splitStore_exact hs hc hp ht h
  have hv : ∀ x, t.hasVertex x = true → x ∈ m7.vertices := by
    intro x hx
    rw [e]
    exact List.mem_append_left _ (closure_triangle_vertex hc ht hx)
  have hpm : p ∈ m7.vertices := by
    rw [e]
    exact List.mem_append_right _ (List.mem_singleton.mpr rfl)
  have mono : ∀ f ∈ mesh.edges, f ∈ m7.edges := by
    intro f hf
    rw [e]
    exact List.mem_append_left _ hf
  have sA : m7.hasEdge t.A p = true := hasEdge_mem (by rw [e]; simp)
  have sB : m7.hasEdge t.B p = true := hasEdge_mem (by rw [e]; simp)
  have sC : m7.hasEdge t.C p = true := hasEdge_mem (by rw [e]; simp)
  obtain ⟨o1, o2, o3⟩ := hc.2 t ht
  constructor
  · intro f hf
    rw [e] at hf
    simp only [List.mem_append, List.mem_cons, List.mem_singleton, List.not_mem_nil,
      or_false] at hf
    rcases hf with hf | rfl | rfl | rfl
    · rw [e]
      exact ⟨List.mem_append_left _ (hc.1 f hf).1, List.mem_append_left _ (hc.1 f hf).2⟩
    · exact ⟨hv _ (by simp [Triangle.hasVertex]), hpm⟩
    · exact ⟨hv _ (by simp [Triangle.hasVertex]), hpm⟩
    · exact ⟨hv _ (by simp [Triangle.hasVertex]), hpm⟩
  · intro u hu
    rw [e] at hu
    simp only [List.mem_append, List.mem_cons, List.mem_singleton, List.not_mem_nil,
      or_false, List.mem_filter] at hu
    rcases hu with ⟨hu, _⟩ | rfl | rfl | rfl
    · obtain ⟨u1, u2, u3⟩ := hc.2 u hu
      exact ⟨hasEdge_mono mono u1, hasEdge_mono mono u2, hasEdge_mono mono u3⟩
    · exact ⟨hasEdge_mono mono o1, sB, sA⟩
    · exact ⟨hasEdge_mono mono o3, sC, sA⟩
    · exact ⟨hasEdge_mono mono o2, sC, sB⟩

theorem strictlyInside_contains {t : Triangle} {p : Point} (h : StrictlyInside t p) :
    Contains t p = true := by
  unfold Contains
  rcases h with ⟨h1, h2, h3⟩ | ⟨h1, h2, h3⟩
  · simp [h1, h2, h3]
  · simp [h1, h2, h3]

/-- On a populated mesh `AddInteriorPoint` emplaces the vertex and splits the
triangle that `FindContainingTriangle` returns. -/
theorem AddInteriorPoint_populated (polygonDiscretizer : Mesh → Outcome) (p : Point)
    (mesh : Mesh) (hpop : mesh.triangles ≠ []) :
    AddInteriorPoint polygonDiscretizer p mesh =
      match FindContainingTriangle p (mesh.emplaceVertex p) with
      | some t => SplitTriangle t p (mesh.emplaceVertex p)
      | none => ⟨mesh.emplaceVertex p, none⟩ := by
  unfold AddInteriorPoint
  have : mesh.triangles.length ≠ 0 := by
    rw [Ne, List.length_eq_zero]
    exact hpop
  simp only [if_neg this]

/-- In a mesh with a triangle that contains `p`, `FindContainingTriangle` returns a
stored triangle. -/
theorem FindContainingTriangle_some {mesh : Mesh} {p : Point} {t : Triangle}
    (ht : t ∈ mesh.triangles) (hin : Contains t p = true) :
    ∃ u, u ∈ mesh.triangles ∧ FindContainingTriangle p (mesh.emplaceVertex p) = some u := by
  unfold FindContainingTriangle
  rw [(emplaceVertex_frame mesh p).2.1]
  cases hf : mesh.triangles.find? (fun t => Contains t p) with
  | some u => exact ⟨u, List.mem_of_find?_eq_some hf, rfl⟩
  | none =>
    rw [List.find?_eq_none] at hf
    exact absurd hin (hf t ht)

/-! ## The Euler relation -/

/-- C11 (as amended): let the mesh be populated, sound and satisfy adjacency
closure, and let `p` be a point that is not a stored vertex and lies strictly
inside a stored triangle.  If `AddInteriorPoint(p, mesh)` returns normally and every
flip of its cascade creates an edge that was not stored before that flip, then the
mesh has one vertex, three edges and two triangles more than before, so that
`V - E + F` is the same as before the call (the split adds one vertex, three edges
and two triangles, and each such flip leaves the three numbers unchanged). -/
theorem AddInteriorPoint_euler (polygonDiscretizer : Mesh → Outcome) (p : Point)
    (mesh : Mesh) (t : Triangle) (hs : mesh.Sound) (hc : AdjacencyClosure mesh)
    (hp : p ∉ mesh.vertices) (ht : t ∈ mesh.triangles) (hin : StrictlyInside t p)
    (hok : (AddInteriorPoint polygonDiscretizer p mesh).error = none)
    (hfresh : freshInterior p mesh = true) :
    (AddInteriorPoint polygonDiscretizer p mesh).mesh.vertices.length =
      mesh.vertices.length + 1 ∧
    (AddInteriorPoint polygonDiscretizer p mesh).mesh.edges.length = mesh.edges.length + 3 ∧
    (AddInteriorPoint polygonDiscretizer p mesh).mesh.triangles.length =
      mesh.triangles.length + 2 ∧
    ((AddInteriorPoint polygonDiscretizer p mesh).mesh.vertices.length : Int) -
        (AddInteriorPoint polygonDiscretizer p mesh).mesh.edges.length +
        (AddInteriorPoint polygonDiscretizer p mesh).mesh.triangles.length =
      (mesh.vertices.length : Int) - mesh.edges.length + mesh.triangles.length := by
  have hpop : mesh.triangles ≠ [] := List.ne_nil_of_mem ht
  obtain ⟨u, hu, hfind⟩ := @FindContainingTriangle_some mesh p t ht (strictlyInside_contains hin)
  rw [AddInteriorPoint_populated polygonDiscretizer p mesh hpop, hfind] at hok ⊢
  dsimp only at hok ⊢
  unfold freshInterior at hfresh
  simp only [hfind] at hfresh
  cases hsplit : splitStore u p (mesh.emplaceVertex p) with
  | error e =>
    rw [SplitTriangle_raises hsplit] at hok
    exact Option.noConfusion hok
  | ok m7 =>
    simp only [hsplit] at hfresh
    rw [SplitTriangle_ok hsplit] at hok ⊢
    have e := splitStore_exact hs hc hp hu hsplit
    have hs7 : m7.Sound :=
      splitStore_invariant sound_storeInvariant (sound_storeInvariant.emplaceVertex _ p hs) hsplit
    have hc7 := splitStore_closure hs hc hp hu hsplit
    obtain ⟨c1, c2, c3⟩ := LegalizeEdges_counts _ p _ m7 hs7 hc7 hfresh hok
    have l3 := length_filter_same Triangle.same u
      (fun a b ha hb => Triangle.same_trans ha (Triangle.same_symm hb)) mesh.triangles hs.2.1
      ⟨u, hu, Triangle.same_refl u⟩
    have v7 : m7.vertices.length = mesh.vertices.length + 1 := by
      rw [e]
      simp
    have e7 : m7.edges.length = mesh.edges.length + 3 := by
      rw [e]
      simp
    have t7 : m7.triangles.length = mesh.triangles.length + 2 := by
      rw [e]
      simp only [List.length_append, List.length_cons, List.length_nil]
      omega
    rw [c1, c2, c3, v7, e7, t7]
    refine ⟨rfl, rfl, rfl, ?_⟩
    push_cast
    ring

/-- Witness for C11 (as amended): the mesh `kite` and the point `(1,1/5)`, strictly
inside the upper triangle; the edge from `(0,0)` to `(2,0)` is flipped. -/
theorem AddInteriorPoint_euler_witness :
    (AddInteriorPoint idlePolygonDiscretizer ⟨1, 1 / 5⟩ kite).mesh.vertices.length = 5 ∧
    (AddInteriorPoint idlePolygonDiscretizer ⟨1, 1 / 5⟩ kite).mesh.edges.length = 8 ∧
    (AddInteriorPoint idlePolygonDiscretizer ⟨1, 1 / 5⟩ kite).mesh.triangles.length = 4 ∧
    (AddInteriorPoint idlePolygonDiscretizer ⟨1, 1 / 5⟩ kite).mesh.hasEdge ⟨0, 0⟩ ⟨2, 0⟩ =
      false :=
  have h := AddInteriorPoint_euler idlePolygonDiscretizer ⟨1, 1 / 5⟩ kite
    ⟨⟨0, 0⟩, ⟨2, 0⟩, ⟨1, 3⟩⟩ (by decide!) (by decide!) (by decide!) (by decide!) (by decide!)
    (by decide!) (by decide!)
  ⟨h.1, h.2.1, h.2.2.1, by decide!⟩

/-- A flip that finds its new edge stored changes the number of edges.  In the mesh
`overlap` every edge has one or two incident triangles, adjacency closure holds and
`V - E + F = 6 - 9 + 4 = 1`, but the boundary edges do not form a simple polygon
(four of the six meet at `(5,5)`); the point `(1,3/2)` is not a vertex, lies
strictly inside its first triangle and in no other.  `AddInteriorPoint` returns
normally with 7 vertices, 11 edges and 6 triangles: the third flip, of the edge
from `(0,0)` to `(2,-1)`, finds the edge from `(5,5)` to the new vertex already
stored. -/
theorem AddInteriorPoint_overlap_euler :
    AdjacencyClosure overlap ∧ BoundaryCount overlap ∧
    ((overlap.vertices.length : Int) - overlap.edges.length + overlap.triangles.length = 1) ∧
    overlapPoint ∉ overlap.vertices ∧
    StrictlyInside ⟨⟨0, 0⟩, ⟨4, 0⟩, ⟨0, 4⟩⟩ overlapPoint ∧
    overlap.triangles.filter (fun t => Contains t overlapPoint) =
      [⟨⟨0, 0⟩, ⟨4, 0⟩, ⟨0, 4⟩⟩] ∧
    (AddInteriorPoint idlePolygonDiscretizer overlapPoint overlap).error = none ∧
    (AddInteriorPoint idlePolygonDiscretizer overlapPoint overlap).mesh.vertices.length = 7 ∧
    (AddInteriorPoint idlePolygonDiscretizer overlapPoint overlap).mesh.edges.length = 11 ∧
    (AddInteriorPoint idlePolygonDiscretizer overlapPoint overlap).mesh.triangles.length = 6 ∧
    freshInterior overlapPoint overlap = false := by
  decide!

/-! ## The number of triangles on an edge -/

/-- Removing from a list without repetition the element `x` lowers a count by one
when `x` is counted and leaves it otherwise. -/
theorem countP_filter_same {α : Type} (r : α → α → Bool) (hrefl : ∀ a, r a a = true)
    (hsymm : ∀ a b, r a b = true → r b a = true) (p : α → Bool) (x : α) :
    ∀ l : List α, l.Pairwise (fun a b => r a b = false) → x ∈ l →
      (l.filter (fun a => !r a x)).countP p + (if p x = true then 1 else 0) = l.countP p := by
  intro l
  induction l with
  | nil => intro _ hx; simp at hx
  | cons a l ih =>
    intro hp hx
    rw [List.pairwise_cons] at hp
    by_cases hax : a = x
    · subst hax
      have hall : ∀ b ∈ l, (!r b a) = true := by
        intro b hb
        cases hba : r b a with
        | false => rfl
        | true =>
          have := hsymm b a hba
          rw [hp.1 b hb] at this
          exact Bool.noConfusion this
      rw [List.filter_cons, hrefl a]
      simp only [Bool.not_true, Bool.false_eq_true, if_false]
      rw [List.filter_eq_self.mpr hall, List.countP_cons]
    · rw [List.mem_cons] at hx
      rcases hx with hx | hx
      · exact absurd hx.symm hax
      · have h1 := hp.1 x hx
        have := ih hp.2 hx
        rw [List.filter_cons, h1]
        simp only [Bool.not_false, if_true, List.countP_cons]
        omega

theorem trianglesOf_length (m : Mesh) (f : Edge) :
    (m.trianglesOf f).length = m.triangles.countP (fun t => t.hasEdge f) := by
  unfold Mesh.trianglesOf
  rw [List.countP_eq_length_filter]

/-- Two triangles with three different vertices each and the same vertices have the
same edges. -/
theorem hasEdge_of_vertices {t u : Triangle} (ht : t.Distinct) (hu : u.Distinct)
    (h : ∀ p, t.hasVertex p = true ↔ u.hasVertex p = true) (f : Edge) :
    t.hasEdge f = u.hasEdge f := by
  rw [Bool.eq_iff_iff, Triangle.hasEdge_iff ht, Triangle.hasEdge_iff hu, h, h]

/-- An edge is identified with at most one of two edges that are not identified
with each other. -/
theorem same_exclusive {e1 e2 : Edge} (h : e1.same e2 = false) (f : Edge)
    (h1 : f.same e1 = true) : f.same e2 = false := by
  cases h2 : f.same e2 with
  | false => rfl
  | true =>
    rw [edge_same_trans (edge_same_symm h1) h2] at h
    exact Bool.noConfusion h

theorem count_exclusive (a b c d : Bool) (h1 : a = true → b = false) (h2 : a = true → c = false)
    (h3 : a = true → d = false) (h4 : b = true → c = false) (h5 : b = true → d = false)
    (h6 : c = true → d = false) :
    (if (false || b || a) = true then 1 else 0) + (if (false || d || c) = true then 1 else 0) =
      (if (a || false || c) = true then 1 else 0) +
        (if (b || false || d) = true then (1 : Nat) else 0) := by
  cases a <;> cases b <;> cases c <;> cases d <;> simp_all

theorem count_exclusive_three (a b c : Bool) (h1 : a = true → b = false)
    (h2 : a = true → c = false) (h3 : b = true → c = false) :
    (if (a || false || false) = true then 1 else 0) +
        (if (c || false || false) = true then 1 else 0) +
        (if (b || false || false) = true then 1 else 0) =
      (if (a || b || c) = true then (1 : Nat) else 0) := by
  cases a <;> cases b <;> cases c <;> simp_all

theorem not_same_mk {a b c d : Point} (h1 : a ≠ c ∨ b ≠ d) (h2 : a ≠ d ∨ b ≠ c) :
    (⟨a, b⟩ : Edge).same ⟨c, d⟩ = false := by
  cases h : (⟨a, b⟩ : Edge).same ⟨c, d⟩ with
  | false => rfl
  | true =>
    rw [edge_same_iff] at h
    rcases h with ⟨x, y⟩ | ⟨x, y⟩
    · rcases h1 with h1 | h1
      · exact absurd x h1
      · exact absurd y h1
    · rcases h2 with h2 | h2
      · exact absurd x h2
      · exact absurd y h2

/-- A completed flip that creates a new edge maintains the boundary-count
invariant. -/
theorem fresh_flip_boundary {m : Mesh} (hs : m.Sound) (hc : AdjacencyClosure m)
    (hb : BoundaryCount m) {edge : Edge} {t1 t2 : Triangle}
    (h2 : m.trianglesOf edge = [t1, t2]) {K L : Point}
    (hK : K = oppositeVertex t1 edge.A edge.B) (hL : L = oppositeVertex t2 edge.A edge.B)
    (hf : m.hasEdge K L = false) {m1 m3 m4 : Mesh} {kl : Edge}
    (g1 : m.emplaceEdge K L = .ok (m1, kl))
    (g2 : (((m1.eraseTriangle t1).eraseTriangle t2).eraseEdge edge).emplaceTriangle
      edge.A K L = .ok m3)
    (g3 : m3.emplaceTriangle edge.B K L = .ok m4) : BoundaryCount m4 := by
  obtain ⟨hIJ, hKI, hKJ, hLI, hLJ, hKL, hv1, hv2⟩ := opposite_pair hs h2 hK hL
  obtain ⟨hm1, hm2, _, _, hne, hd1, hd2, _⟩ := incident_pair hs h2
  have e := fresh_flip hs hc h2 hK hL hf g1 g2 g3
  intro f hf4
  rw [trianglesOf_length]
  have c4 : m4.triangles.countP (fun t => t.hasEdge f) =
      ((m.triangles.filter (fun u => !u.same t1)).filter (fun u => !u.same t2)).countP
        (fun t => t.hasEdge f) +
      (if (⟨edge.A, K, L⟩ : Triangle).hasEdge f = true then 1 else 0) +
      (if (⟨edge.B, K, L⟩ : Triangle).hasEdge f = true then 1 else 0) := by
    rw [e]
    simp only [List.countP_append, List.countP_cons, List.countP_nil]
    omega
  have r1 := countP_filter_same Triangle.same Triangle.same_refl
    (fun a b h => Triangle.same_symm h) (fun t => t.hasEdge f) t1 m.triangles hs.2.1 hm1
  have r2 := countP_filter_same Triangle.same Triangle.same_refl
    (fun a b h => Triangle.same_symm h) (fun t => t.hasEdge f) t2
    (m.triangles.filter (fun u => !u.same t1)) (hs.2.1.filter _)
    (List.mem_filter.mpr ⟨hm2, by
      cases h : t2.same t1 with
      | false => rfl
      | true =>
        rw [Triangle.same_symm h] at hne
        exact Bool.noConfusion hne⟩)
  dsimp only at r1 r2
  rw [e] at hf4
  simp only [List.mem_append, List.mem_singleton, List.mem_filter, Bool.not_eq_true'] at hf4
  rcases hf4 with ⟨hfm, hfe⟩ | rfl
  · have hold := hb f hfm
    rw [trianglesOf_length] at hold
    have sKL : f.same ⟨K, L⟩ = false := by
      cases h : f.same ⟨K, L⟩ with
      | false => rfl
      | true =>
        rw [(stored_edge_iff m K L).mpr ⟨f, hfm, h⟩] at hf
        exact Bool.noConfusion hf
    have sIJ : f.same ⟨edge.A, edge.B⟩ = false := hfe
    have h1 : t1.hasEdge f = (⟨edge.A, edge.B, K⟩ : Triangle).hasEdge f :=
      hasEdge_of_vertices hd1 ⟨hIJ, Ne.symm hKJ, Ne.symm hKI⟩
        (fun p => (hv1 p).trans (Triangle.hasVertex_iff _ _ _ p).symm) f
    have h2' : t2.hasEdge f = (⟨edge.A, edge.B, L⟩ : Triangle).hasEdge f :=
      hasEdge_of_vertices hd2 ⟨hIJ, Ne.symm hLJ, Ne.symm hLI⟩
        (fun p => (hv2 p).trans (Triangle.hasVertex_iff _ _ _ p).symm) f
    have key := count_exclusive (f.same ⟨edge.A, K⟩) (f.same ⟨edge.B, K⟩) (f.same ⟨edge.A, L⟩)
      (f.same ⟨edge.B, L⟩)
      (same_exclusive (not_same_mk (Or.inl hIJ) (Or.inl (Ne.symm hKI))) f)
      (same_exclusive (not_same_mk (Or.inr hKL) (Or.inr hKI)) f)
      (same_exclusive (not_same_mk (Or.inl hIJ) (Or.inr hKJ)) f)
      (same_exclusive (not_same_mk (Or.inl (Ne.symm hIJ)) (Or.inr hKI)) f)
      (same_exclusive (not_same_mk (Or.inr hKL) (Or.inr hKJ)) f)
      (same_exclusive (not_same_mk (Or.inl hIJ) (Or.inl (Ne.symm hLI))) f)
    have q1 : (⟨edge.A, edge.B, K⟩ : Triangle).hasEdge f =
        (false || f.same ⟨edge.B, K⟩ || f.same ⟨edge.A, K⟩) := by
      simp only [Triangle.hasEdge, sIJ]
    have q2 : (⟨edge.A, edge.B, L⟩ : Triangle).hasEdge f =
        (false || f.same ⟨edge.B, L⟩ || f.same ⟨edge.A, L⟩) := by
      simp only [Triangle.hasEdge, sIJ]
    have q3 : (⟨edge.A, K, L⟩ : Triangle).hasEdge f =
        (f.same ⟨edge.A, K⟩ || false || f.same ⟨edge.A, L⟩) := by
      simp only [Triangle.hasEdge, sKL]
    have q4 : (⟨edge.B, K, L⟩ : Triangle).hasEdge f =
        (f.same ⟨edge.B, K⟩ || false || f.same ⟨edge.B, L⟩) := by
      simp only [Triangle.hasEdge, sKL]
    rw [h1, q1] at r1
    rw [h2', q2] at r2
    rw [q3, q4] at c4
    rw [c4]
    omega
  · have zero : ((m.triangles.filter (fun u => !u.same t1)).filter
        (fun u => !u.same t2)).countP (fun t => t.hasEdge ⟨K, L⟩) = 0 := by
      rw [List.countP_eq_zero]
      intro u hu
      have hum : u ∈ m.triangles := List.mem_of_mem_filter (List.mem_of_mem_filter hu)
      intro hue
      obtain ⟨_, a, b⟩ := (Triangle.hasEdge_iff (hs.2.2 u hum) ⟨K, L⟩).mp hue
      rw [closure_hasEdge hc hum a b hKL] at hf
      exact Bool.noConfusion hf
    rw [c4, zero]
    right
    simp [Triangle.hasEdge, edge_same_refl]

/-! ## The queue of `LegalizeEdges` -/

theorem insertEdge_pairwise {q : List Edge} (hq : q.Pairwise (fun e f => e.same f = false))
    (e : Edge) : (insertEdge q e).Pairwise (fun e f => e.same f = false) := by
  unfold insertEdge
  split_ifs with h
  · exact hq
  · rw [List.pairwise_append]
    refine ⟨hq, List.pairwise_singleton _ _, ?_⟩
    intro f hf g hg
    rw [List.mem_singleton] at hg
    subst hg
    simp only [List.any_eq_true, not_exists, not_and, Bool.not_eq_true] at h
    exact h f hf

theorem foldl_insertEdge_pairwise (l : List Edge) {q : List Edge}
    (hq : q.Pairwise (fun e f => e.same f = false)) :
    (l.foldl insertEdge q).Pairwise (fun e f => e.same f = false) := by
  induction l generalizing q with
  | nil => exact hq
  | cons e l ih =>
    rw [List.foldl_cons]
    exact ih (insertEdge_pairwise hq e)

theorem insertEdge_mem {q : List Edge} {e f : Edge} (h : f ∈ insertEdge q e) :
    f ∈ q ∨ f = e := by
  unfold insertEdge at h
  split_ifs at h
  · exact Or.inl h
  · rw [List.mem_append, List.mem_singleton] at h
    exact h

theorem foldl_insertEdge_mem (l : List Edge) {q : List Edge} {f : Edge}
    (h : f ∈ l.foldl insertEdge q) : f ∈ q ∨ f ∈ l := by
  induction l generalizing q with
  | nil => exact Or.inl h
  | cons e l ih =>
    rw [List.foldl_cons] at h
    rcases ih h with h1 | h1
    · rcases insertEdge_mem h1 with h2 | h2
      · exact Or.inl h2
      · exact Or.inr (by rw [h2]; exact List.mem_cons_self _ _)
    · exact Or.inr (List.mem_cons_of_mem _ h1)

/-- The edges that a scan of `I` for `P` finds are stored and join `I` and `P`. -/
theorem scan_mem {m : Mesh} {I P : Point} (hIP : I ≠ P) {f : Edge}
    (hf : f ∈ (m.edgesOf I).filter (fun e => decide (e.A = P ∨ e.B = P))) :
    f ∈ m.edges ∧ f.same ⟨I, P⟩ = true := by
  unfold Mesh.edgesOf at hf
  rw [List.mem_filter, List.mem_filter] at hf
  obtain ⟨⟨hm, h1⟩, h2⟩ := hf
  refine ⟨hm, ?_⟩
  unfold Edge.hasVertex at h1
  simp only [Bool.or_eq_true, decide_eq_true_eq] at h1 h2
  rw [edge_same_iff]
  rcases h1 with h1 | h1 <;> rcases h2 with h2 | h2
  · exact absurd (h1.symm.trans h2) hIP
  · exact Or.inl ⟨h1, h2⟩
  · exact Or.inr ⟨h2, h1⟩
  · exact absurd (h1.symm.trans h2) hIP

theorem hasEdge_self {m : Mesh} {f : Edge} (h : f ∈ m.edges) : m.hasEdge f.A f.B = true :=
  (stored_edge_iff m f.A f.B).mpr ⟨f, h, (edge_same_iff _ _).mpr (Or.inl ⟨rfl, rfl⟩)⟩

/-- A completed pass of `LegalizeEdges` over an edge with two incident triangles
leaves a queue of stored edges without repetition. -/
theorem legalizeStep_queued {m : Mesh} (hs : m.Sound) (hc : AdjacencyClosure m) {v : Point}
    {edge : Edge} {t1 t2 : Triangle} {q : List Edge} {s : FlipState}
    (h2 : m.trianglesOf edge = [t1, t2])
    (hr : legalizeStep v edge t1 t2 q m = (s, none)) (hq : Queued (edge :: q) m) :
    Queued s.edges s.mesh := by
  obtain ⟨hIJ, hKI, hKJ, hLI, hLJ, hKL, _, _⟩ := opposite_pair hs h2 rfl rfl
  obtain ⟨hq1, hq2⟩ := hq
  rw [List.pairwise_cons] at hq2
  rcases legalizeStep_spec hs hc h2 rfl rfl hr with
    ⟨_, h, hqe⟩ | ⟨_, ⟨P, hP, hqe⟩, m1, kl, m3, g1, g2, g3⟩
  · rw [h, hqe]
    exact ⟨fun f hf => hq1 f (List.mem_cons_of_mem _ hf), hq2.2⟩
  · obtain ⟨_, _, e4, _, _, _⟩ := flip_general g1 g2 g3
    have mono := emplaceEdge_mono g1
    have survive : ∀ f : Edge, m.hasEdge f.A f.B = true → f.same edge = false →
        s.mesh.hasEdge f.A f.B = true := by
      intro f hf hn
      rw [stored_edge_iff, e4]
      exact hasEdge_eraseEdge (hasEdge_mono mono hf) hn
    have hPI : edge.A ≠ P ∧ edge.B ≠ P ∧ P ≠ edge.A ∧ P ≠ edge.B := by
      rcases hP with ⟨_, rfl⟩ | ⟨_, rfl⟩
      · exact ⟨Ne.symm hKI, Ne.symm hKJ, hKI, hKJ⟩
      · exact ⟨Ne.symm hLI, Ne.symm hLJ, hLI, hLJ⟩
    constructor
    · intro f hf
      rw [hqe] at hf
      rcases foldl_insertEdge_mem _ hf with hf | hf
      · rcases foldl_insertEdge_mem _ hf with hf | hf
        · refine survive f (hq1 f (List.mem_cons_of_mem _ hf)) ?_
          rw [Edge.same_comm]
          exact hq2.1 f hf
        · obtain ⟨hm, hsame⟩ := scan_mem hPI.1 hf
          exact survive f (hasEdge_self hm)
            (same_exclusive (not_same_of_ne hPI.2.2.1 hPI.2.2.2 _).1 f hsame)
      · obtain ⟨hm, hsame⟩ := scan_mem hPI.2.1 hf
        exact survive f (hasEdge_self hm)
          (same_exclusive (not_same_of_ne hPI.2.2.1 hPI.2.2.2 _).1 f hsame)
    · rw [hqe]
      exact foldl_insertEdge_pairwise _ (foldl_insertEdge_pairwise _ hq2.2)

/-- A completed pass that keeps the edge or flips it to a new edge maintains the
boundary-count invariant. -/
theorem legalizeStep_boundary {m : Mesh} (hs : m.Sound) (hc : AdjacencyClosure m)
    (hb : BoundaryCount m) {v : Point} {edge : Edge} {t1 t2 : Triangle} {q : List Edge}
    {s : FlipState} (h2 : m.trianglesOf edge = [t1, t2])
    (hr : legalizeStep v edge t1 t2 q m = (s, none))
    (hf : (s.isLegal ||
      !m.hasEdge (oppositeVertex t1 edge.A edge.B) (oppositeVertex t2 edge.A edge.B)) = true) :
    BoundaryCount s.mesh := by
  rcases legalizeStep_spec hs hc h2 rfl rfl hr with
    ⟨_, h, _⟩ | ⟨hl, _, m1, kl, m3, g1, g2, g3⟩
  · rw [h]
    exact hb
  · rw [hl] at hf
    simp only [Bool.false_or, Bool.not_eq_true'] at hf
    exact fresh_flip_boundary hs hc hb h2 rfl rfl hf g1 g2 g3

/-- A queued edge of a mesh with the boundary-count invariant has one or two
incident triangles. -/
theorem queued_count {m : Mesh} (hb : BoundaryCount m) {e : Edge}
    (he : m.hasEdge e.A e.B = true) :
    (m.trianglesOf e).length = 1 ∨ (m.trianglesOf e).length = 2 := by
  obtain ⟨e0, hm, hsame⟩ := (stored_edge_iff m e.A e.B).mp he
  have h := hb e0 hm
  rw [trianglesOf_congr m hsame] at h
  exact h

/-- When every flip creates a new edge, neither assertion of `LegalizeEdges` fails,
and on normal return the boundary-count invariant holds. -/
theorem LegalizeEdges_boundary (fuel : Nat) (v : Point) (q : List Edge) (m : Mesh)
    (hs : m.Sound) (hc : AdjacencyClosure m) (hb : BoundaryCount m) (hq : Queued q m)
    (hfresh : freshFlips fuel v q m = true) :
    (LegalizeEdges fuel v q m).1.error ≠ some .Inconsistent ∧
      ((LegalizeEdges fuel v q m).1.error = none →
        BoundaryCount (LegalizeEdges fuel v q m).1.mesh) := by
  induction fuel generalizing q m with
  | zero =>
    cases q with
    | nil => simpa [LegalizeEdges] using hb
    | cons e es => simp [LegalizeEdges]
  | succ n ih =>
    cases q with
    | nil => simpa [LegalizeEdges] using hb
    | cons e es =>
      have h12 := queued_count hb (hq.1 e (List.mem_cons_self _ _))
      have hq' : Queued es m :=
        ⟨fun f hf => hq.1 f (List.mem_cons_of_mem _ hf), (List.pairwise_cons.mp hq.2).2⟩
      rcases hto : m.trianglesOf e with _ | ⟨t1, _ | ⟨t2, _ | ⟨t3, l⟩⟩⟩
      · rw [hto] at h12
        simp at h12
      · simp only [LegalizeEdges, freshFlips, hto] at hfresh ⊢
        exact ih es m hs hc hb hq' hfresh
      · rcases hst : legalizeStep v e t1 t2 es m with ⟨s, _ | err⟩
        · simp only [LegalizeEdges, freshFlips, hto, hst, Bool.and_eq_true] at hfresh ⊢
          have hs1 := legalizeStep_invariant sound_storeInvariant v e t1 t2 es m hs
          rw [hst] at hs1
          exact ih s.edges s.mesh hs1 (legalizeStep_closure hs hc hto hst)
            (legalizeStep_boundary hs hc hb hto hst hfresh.1)
            (legalizeStep_queued hs hc hto hst hq) hfresh.2
        · have hr := legalizeStep_raises v e t1 t2 es m
          rw [hst] at hr
          simp only [LegalizeEdges, hto, hst]
          rcases hr with hr | hr | hr
          · simp at hr
          · simp only [Option.some.injEq] at hr
            rw [hr]
            simp
          · simp only [Option.some.injEq] at hr
            rw [hr]
            simp
      · rw [hto] at h12
        simp at h12

theorem edgeRef_mem {m : Mesh} {a b : Point} (h : m.hasEdge a b = true) :
    m.edgeRef a b ∈ m.edges := by
  obtain ⟨e, he⟩ := find_stored_edge h
  unfold Mesh.edgeRef
  rw [he]
  exact List.mem_of_find?_eq_some he

/-- The queue that `SplitTriangle` hands to `LegalizeEdges` holds stored edges and
none twice. -/
theorem splitQueue_queued {mesh : Mesh} (hs : mesh.Sound) (hc : AdjacencyClosure mesh)
    {p : Point} (hp : p ∉ mesh.vertices) {t : Triangle} (ht : t ∈ mesh.triangles) {m7 : Mesh}
    (h : splitStore t p (mesh.emplaceVertex p) = .ok m7) :
    Queued (splitQueue t (mesh.emplaceVertex p)) m7 := by
  have e := splitStore_exact hs hc hp ht h
  have mono : ∀ f ∈ mesh.edges, f ∈ m7.edges := by
    intro f hf
    rw [e]
    exact List.mem_append_left _ hf
  have hm1 : mesh.emplaceVertex p = { mesh with vertices := mesh.vertices ++ [p] } := by
    unfold Mesh.emplaceVertex
    rw [if_neg hp]
  obtain ⟨o1, o2, o3⟩ := hc.2 t ht
  have r1 : (mesh.emplaceVertex p).edgeRef t.A t.B ∈ mesh.edges := by
    rw [hm1]
    exact @edgeRef_mem mesh _ _ o1
  have r2 : (mesh.emplaceVertex p).edgeRef t.B t.C ∈ mesh.edges := by
    rw [hm1]
    exact @edgeRef_mem mesh _ _ o2
  have r3 : (mesh.emplaceVertex p).edgeRef t.A t.C ∈ mesh.edges := by
    rw [hm1]
    exact @edgeRef_mem mesh _ _ o3
  unfold splitQueue
  constructor
  · intro f hf
    rcases insertEdge_mem hf with hf | rfl
    · rcases insertEdge_mem hf with hf | rfl
      · rcases insertEdge_mem hf with hf | rfl
        · simp at hf
        · exact hasEdge_self (mono _ r1)
      · exact hasEdge_self (mono _ r2)
    · exact hasEdge_self (mono _ r3)
  · exact insertEdge_pairwise (insertEdge_pairwise (insertEdge_pairwise List.Pairwise.nil _) _) _

/-- The mesh that `SplitTriangle` hands to `LegalizeEdges` satisfies the
boundary-count invariant. -/
theorem splitStore_boundary {mesh : Mesh} (hs : mesh.Sound) (hc : AdjacencyClosure mesh)
    (hb : BoundaryCount mesh) {p : Point} (hp : p ∉ mesh.vertices) {t : Triangle}
    (ht : t ∈ mesh.triangles) {m7 : Mesh}
    (h : splitStore t p (mesh.emplaceVertex p) = .ok m7) : BoundaryCount m7 := by
  obtain ⟨hAB, hBC, hAC⟩ := hs.2.2 t ht
  have hv : ∀ x, t.hasVertex x = true → x ≠ p := by
    intro x hx hxp
    rw [hxp] at hx
    exact hp (closure_triangle_vertex hc ht hx)
  have hA : t.A ≠ p := hv _ (by simp [Triangle.hasVertex])
  have hB : t.B ≠ p := hv _ (by simp [Triangle.hasVertex])
  have hC : t.C ≠ p := hv _ (by simp [Triangle.hasVertex])
  have e := splitStore_exact hs hc hp ht h
  intro f hf7
  rw [trianglesOf_length]
  have c7 : m7.triangles.countP (fun u => u.hasEdge f) =
      (mesh.triangles.filter (fun u => !u.same t)).countP (fun u => u.hasEdge f) +
      (if (⟨t.A, t.B, p⟩ : Triangle).hasEdge f = true then 1 else 0) +
      (if (⟨t.A, t.C, p⟩ : Triangle).hasEdge f = true then 1 else 0) +
      (if (⟨t.B, t.C, p⟩ : Triangle).hasEdge f = true then 1 else 0) := by
    rw [e]
    simp only [List.countP_append, List.countP_cons, List.countP_nil]
    omega
  have zero : ∀ x, (mesh.triangles.filter (fun u => !u.same t)).countP
      (fun u => u.hasEdge ⟨x, p⟩) = 0 := by
    intro x
    rw [List.countP_eq_zero]
    intro u hu hue
    have hum : u ∈ mesh.triangles := List.mem_of_mem_filter hu
    obtain ⟨_, _, b⟩ := (Triangle.hasEdge_iff (hs.2.2 u hum) ⟨x, p⟩).mp hue
    exact hp (closure_triangle_vertex hc hum b)
  rw [e] at hf7
  simp only [List.mem_append, List.mem_cons, List.mem_singleton, List.not_mem_nil,
    or_false] at hf7
  rcases hf7 with hfm | rfl | rfl | rfl
  · have hold := hb f hfm
    rw [trianglesOf_length] at hold
    have r1 := countP_filter_same Triangle.same Triangle.same_refl
      (fun a b h => Triangle.same_symm h) (fun u => u.hasEdge f) t mesh.triangles hs.2.1 ht
    dsimp only at r1
    have np := no_edge_at hc hp
    have q0 : t.hasEdge f = (f.same ⟨t.A, t.B⟩ || f.same ⟨t.B, t.C⟩ || f.same ⟨t.A, t.C⟩) := rfl
    have q1 : (⟨t.A, t.B, p⟩ : Triangle).hasEdge f = (f.same ⟨t.A, t.B⟩ || false || false) := by
      simp only [Triangle.hasEdge, np _ f hfm]
    have q2 : (⟨t.A, t.C, p⟩ : Triangle).hasEdge f = (f.same ⟨t.A, t.C⟩ || false || false) := by
      simp only [Triangle.hasEdge, np _ f hfm]
    have q3 : (⟨t.B, t.C, p⟩ : Triangle).hasEdge f = (f.same ⟨t.B, t.C⟩ || false || false) := by
      simp only [Triangle.hasEdge, np _ f hfm]
    have key := count_exclusive_three (f.same ⟨t.A, t.B⟩) (f.same ⟨t.B, t.C⟩)
      (f.same ⟨t.A, t.C⟩)
      (same_exclusive (not_same_mk (Or.inl hAB) (Or.inl hAC)) f)
      (same_exclusive (not_same_mk (Or.inr hBC) (Or.inl hAC)) f)
      (same_exclusive (not_same_mk (Or.inl (Ne.symm hAB)) (Or.inl hBC)) f)
    rw [q0] at r1
    rw [q1, q2, q3] at c7
    rw [c7]
    omega
  · rw [c7, zero]
    right
    simp [Triangle.hasEdge, Edge.same, hAB, hAC, hA]
  · rw [c7, zero]
    right
    simp [Triangle.hasEdge, Edge.same, hAB, Ne.symm hAB, hBC, hB]
  · rw [c7, zero]
    right
    simp [Triangle.hasEdge, Edge.same, Ne.symm hAC, Ne.symm hBC, hC]

theorem splitStore_error {t : Triangle} {v : Point} {mesh : Mesh} {e : Error}
    (h : splitStore t v mesh = .error e) : e = .Degenerate := by
  unfold splitStore at h
  split at h
  · rename_i e1 h1
    simp only [Except.error.injEq] at h
    rw [← h]
    exact emplaceEdge_error h1
  · split at h
    · rename_i e2 h2
      simp only [Except.error.injEq] at h
      rw [← h]
      exact emplaceEdge_error h2
    · split at h
      · rename_i e3 h3
        simp only [Except.error.injEq] at h
        rw [← h]
        exact emplaceEdge_error h3
      · split at h
        · rename_i e4 h4
          simp only [Except.error.injEq] at h
          rw [← h]
          exact emplaceTriangle_error h4
        · split at h
          · rename_i e5 h5
            simp only [Except.error.injEq] at h
            rw [← h]
            exact emplaceTriangle_error h5
          · split at h
            · rename_i e6 h6
              simp only [Except.error.injEq] at h
              rw [← h]
              exact emplaceTriangle_error h6
            · simp at h

/-! ## The boundary-count invariant -/

/-- C19 (as amended): let the mesh be populated, sound, satisfy adjacency closure
and have one or two incident triangles on every edge, and let `p` be a point that
is not a stored vertex.  If every flip that the cascade of `AddInteriorPoint(p,
mesh)` completes creates an edge that was not stored before that flip, then
neither assertion of `LegalizeEdges` fails (every dequeued edge has one or two
incident triangles), and when the call returns normally every edge of the mesh has
one or two incident triangles. -/
theorem AddInteriorPoint_boundaryCount (polygonDiscretizer : Mesh → Outcome) (p : Point)
    (mesh : Mesh) (hs : mesh.Sound) (hc : AdjacencyClosure mesh) (hb : BoundaryCount mesh)
    (hpop : mesh.triangles ≠ []) (hp : p ∉ mesh.vertices)
    (hfresh : freshInterior p mesh = true) :
    (AddInteriorPoint polygonDiscretizer p mesh).error ≠ some .Inconsistent ∧
    ((AddInteriorPoint polygonDiscretizer p mesh).error = none →
      BoundaryCount (AddInteriorPoint polygonDiscretizer p mesh).mesh) := by
  have hm1 : mesh.emplaceVertex p = { mesh with vertices := mesh.vertices ++ [p] } := by
    unfold Mesh.emplaceVertex
    rw [if_neg hp]
  rw [AddInteriorPoint_populated polygonDiscretizer p mesh hpop]
  unfold freshInterior at hfresh
  cases hfind : FindContainingTriangle p (mesh.emplaceVertex p) with
  | none =>
    dsimp only
    refine ⟨by simp, fun _ => ?_⟩
    rw [hm1]
    exact hb
  | some u =>
    dsimp only
    simp only [hfind] at hfresh
    have hu : u ∈ mesh.triangles := by
      unfold FindContainingTriangle at hfind
      rw [(emplaceVertex_frame mesh p).2.1] at hfind
      exact List.mem_of_find?_eq_some hfind
    cases hsplit : splitStore u p (mesh.emplaceVertex p) with
    | error e =>
      rw [SplitTriangle_raises hsplit, splitStore_error hsplit]
      simp
    | ok m7 =>
      simp only [hsplit] at hfresh
      rw [SplitTriangle_ok hsplit]
      exact LegalizeEdges_boundary _ p _ m7
        (splitStore_invariant sound_storeInvariant (sound_storeInvariant.emplaceVertex _ p hs)
          hsplit)
        (splitStore_closure hs hc hp hu hsplit) (splitStore_boundary hs hc hb hp hu hsplit)
        (splitQueue_queued hs hc hp hu hsplit) hfresh

/-- Witness for C19 (as amended): the mesh `kite` and the point `(1,1/5)`; the edge
from `(0,0)` to `(2,0)` is flipped to a new edge. -/
theorem AddInteriorPoint_boundaryCount_witness :
    (AddInteriorPoint idlePolygonDiscretizer ⟨1, 1 / 5⟩ kite).error = none ∧
    BoundaryCount (AddInteriorPoint idlePolygonDiscretizer ⟨1, 1 / 5⟩ kite).mesh :=
  have h := AddInteriorPoint_boundaryCount idlePolygonDiscretizer ⟨1, 1 / 5⟩ kite
    (by decide!) (by decide!) (by decide!) (by decide!) (by decide!) (by decide!)
  have hnone : (AddInteriorPoint idlePolygonDiscretizer ⟨1, 1 / 5⟩ kite).error = none := by
    decide!
  ⟨hnone, h.2 hnone⟩

/-- C19 (the claim fails): the mesh `overlap` satisfies adjacency closure, every
edge of it has one or two incident triangles, and the point `(1,3/2)` is not a
vertex and lies strictly inside its first triangle.  `AddInteriorPoint` returns
normally and leaves the edge from `(5,5)` to the new vertex with four incident
triangles. -/
theorem AddInteriorPoint_overlap_four_triangles :
    AdjacencyClosure overlap ∧ BoundaryCount overlap ∧ overlapPoint ∉ overlap.vertices ∧
    StrictlyInside ⟨⟨0, 0⟩, ⟨4, 0⟩, ⟨0, 4⟩⟩ overlapPoint ∧
    (AddInteriorPoint idlePolygonDiscretizer overlapPoint overlap).error = none ∧
    (⟨⟨5, 5⟩, overlapPoint⟩ : Edge) ∈
      (AddInteriorPoint idlePolygonDiscretizer overlapPoint overlap).mesh.edges ∧
    ((AddInteriorPoint idlePolygonDiscretizer overlapPoint overlap).mesh.trianglesOf
      ⟨⟨5, 5⟩, overlapPoint⟩).length = 4 ∧
    ¬BoundaryCount (AddInteriorPoint idlePolygonDiscretizer overlapPoint overlap).mesh := by
  decide!

/-! ## The boundary ring -/

theorem Ring.shift_mul {m : Mesh} {n : Nat} {c : ℤ → Point} (h : Ring m n c) (i z : ℤ) :
    c (i + z * n) = c i := by
  induction z using Int.induction_on with
  | hz => simp
  | hp k ih =>
    have := h.periodic (i + k * n)
    rw [← ih, ← this]
    congr 1
    ring
  | hn k ih =>
    have := h.periodic (i + (-(k : ℤ) - 1) * n)
    rw [← ih, ← this]
    congr 1
    ring

theorem Ring.congr {m : Mesh} {n : Nat} {c : ℤ → Point} (h : Ring m n c) {i j : ℤ}
    (hd : (n : ℤ) ∣ i - j) : c i = c j := by
  obtain ⟨z, hz⟩ := hd
  have := h.shift_mul j z
  rw [← this]
  congr 1
  linarith [hz, mul_comm (n : ℤ) z]

theorem Ring.ne_of_lt {m : Mesh} {n : Nat} {c : ℤ → Point} (h : Ring m n c) {i j : ℤ}
    (h1 : i ≠ j) (h2 : |i - j| < n) : c i ≠ c j := by
  intro heq
  have := Int.eq_zero_of_abs_lt_dvd (h.simple i j heq) h2
  exact h1 (by linarith)

theorem Ring.ne_succ {m : Mesh} {n : Nat} {c : ℤ → Point} (h : Ring m n c) (i : ℤ) :
    c i ≠ c (i + 1) ∧ c (i - 1) ≠ c i ∧ c (i - 1) ≠ c (i + 1) := by
  have h3 : (3 : ℤ) ≤ n := by exact_mod_cast h.three
  refine ⟨h.ne_of_lt (by omega) ?_, h.ne_of_lt (by omega) ?_, h.ne_of_lt (by omega) ?_⟩
  · rw [abs_lt]
    constructor <;> omega
  · rw [abs_lt]
    constructor <;> omega
  · rw [abs_lt]
    constructor <;> omega

theorem same_swap (e : Edge) (a b : Point) : e.same ⟨a, b⟩ = e.same ⟨b, a⟩ := by
  rw [Bool.eq_iff_iff, edge_same_iff, edge_same_iff]
  constructor <;> rintro (⟨h1, h2⟩ | ⟨h1, h2⟩)
  · exact Or.inr ⟨h1, h2⟩
  · exact Or.inl ⟨h1, h2⟩
  · exact Or.inr ⟨h1, h2⟩
  · exact Or.inl ⟨h1, h2⟩

/-- The ring listed in the opposite direction. -/
theorem Ring.reverse {m : Mesh} {n : Nat} {c : ℤ → Point} (h : Ring m n c) :
    Ring m n (fun i => c (-i)) where
  three := h.three
  periodic := fun i => by
    have := h.periodic (-(i + n))
    rw [← this]
    congr 1
    ring
  simple := fun i j hij => by
    have := h.simple (-i) (-j) hij
    have e : i - j = -(-i - -j) := by ring
    rw [e]
    exact (Int.dvd_neg).mpr this
  stored := fun i => by
    have := h.stored (-(i + 1))
    rw [hasEdge_comm] at this
    have e : -(i + 1) + 1 = -i := by ring
    rw [e] at this
    exact this
  boundary := fun e he => by
    rw [h.boundary e he]
    constructor
    · rintro ⟨i, hi⟩
      refine ⟨-(i + 1), ?_⟩
      dsimp only
      rw [same_swap]
      have e1 : -(-(i + 1) + 1) = i := by ring
      have e2 : -(-(i + 1)) = i + 1 := by ring
      rw [e1, e2]
      exact hi
    · rintro ⟨i, hi⟩
      refine ⟨-(i + 1), ?_⟩
      rw [same_swap]
      have e1 : -(i + 1) + 1 = -i := by ring
      rw [e1]
      exact hi

/-- The ring listed from another vertex. -/
theorem Ring.shift {m : Mesh} {n : Nat} {c : ℤ → Point} (h : Ring m n c) (k : ℤ) :
    Ring m n (fun i => c (i + k)) where
  three := h.three
  periodic := fun i => by
    have := h.periodic (i + k)
    rw [← this]
    congr 1
    ring
  simple := fun i j hij => by
    have := h.simple (i + k) (j + k) hij
    have e : i - j = i + k - (j + k) := by ring
    rw [e]
    exact this
  stored := fun i => by
    have := h.stored (i + k)
    have e : i + 1 + k = i + k + 1 := by ring
    rw [e]
    exact this
  boundary := fun e he => by
    rw [h.boundary e he]
    constructor
    · rintro ⟨i, hi⟩
      refine ⟨i - k, ?_⟩
      dsimp only
      have e1 : i - k + k = i := by ring
      have e2 : i - k + 1 + k = i + 1 := by ring
      rw [e1, e2]
      exact hi
    · rintro ⟨i, hi⟩
      refine ⟨i + k, ?_⟩
      have e1 : i + 1 + k = i + k + 1 := by ring
      rw [e1] at hi
      exact hi

/-- A boundary edge at the vertex `c k` of the ring is one of the two sides of the
polygon that meet there. -/
theorem Ring.neighbors {m : Mesh} {n : Nat} {c : ℤ → Point} (h : Ring m n c) {e : Edge}
    (he : e ∈ m.edges) (hb : (m.trianglesOf e).length = 1) (k : ℤ)
    (hv : e.hasVertex (c k) = true) :
    e.same ⟨c (k - 1), c k⟩ = true ∨ e.same ⟨c k, c (k + 1)⟩ = true := by
  obtain ⟨i, hi⟩ := (h.boundary e he).mp hb
  have hck : c k = c i ∨ c k = c (i + 1) := by
    rw [edge_same_iff] at hi
    unfold Edge.hasVertex at hv
    simp only [Bool.or_eq_true, decide_eq_true_eq] at hv
    simp only at hi
    rcases hi with ⟨a, b⟩ | ⟨a, b⟩ <;> rcases hv with hv | hv
    · exact Or.inl (hv.symm.trans a)
    · exact Or.inr (hv.symm.trans b)
    · exact Or.inr (hv.symm.trans a)
    · exact Or.inl (hv.symm.trans b)
  rcases hck with hck | hck
  · right
    have hd := h.simple k i hck
    have : c (k + 1) = c (i + 1) := h.congr (by
      have e : k + 1 - (i + 1) = k - i := by ring
      rw [e]
      exact hd)
    rw [hck, this]
    exact hi
  · left
    have hd := h.simple k (i + 1) hck
    have : c (k - 1) = c i := h.congr (by
      have e : k - 1 - i = k - (i + 1) := by ring
      rw [e]
      exact hd)
    rw [hck, this]
    exact hi

theorem stored_unique {m : Mesh} (hs : m.Sound) {e f : Edge} (he : e ∈ m.edges)
    (hf : f ∈ m.edges) (h : e.same f = true) : e = f := by
  by_contra hne
  have hsym : Symmetric (fun e f : Edge => e.same f = false) := by
    intro a b hab
    rw [Edge.same_comm]
    exact hab
  have := hs.1.forall hsym he hf hne
  rw [h] at this
  exact Bool.noConfusion this

theorem edgeRef_spec {m : Mesh} {a b : Point} (h : m.hasEdge a b = true) :
    m.edgeRef a b ∈ m.edges ∧ (m.edgeRef a b).same ⟨a, b⟩ = true := by
  obtain ⟨e, he⟩ := find_stored_edge h
  have hsame := List.find?_some he
  unfold Mesh.edgeRef
  rw [he]
  exact ⟨List.mem_of_find?_eq_some he, hsame⟩

/-- The edge that the search finds at the vertex `c k` of the ring when the walk
comes from `c (k - 1)`: the stored side from `c k` to `c (k + 1)`. -/
theorem Ring.next {m : Mesh} {n : Nat} {c : ℤ → Point} (h : Ring m n c) (hs : m.Sound)
    (k : ℤ) :
    nextBoundaryEdge m (some (c (k - 1))) (c k) = some (m.edgeRef (c k) (c (k + 1))) := by
  obtain ⟨hne1, hne2, hne3⟩ := h.ne_succ k
  obtain ⟨hm, hsame⟩ := edgeRef_spec (h.stored k)
  have hbd : (m.trianglesOf (m.edgeRef (c k) (c (k + 1)))).length = 1 :=
    (h.boundary _ hm).mpr ⟨k, hsame⟩
  have hends := (edge_same_iff _ _).mp hsame
  simp only at hends
  unfold nextBoundaryEdge
  cases hf : (m.edgesOf (c k)).find? (fun edge =>
      !(decide ((m.trianglesOf edge).length ≠ 1) || decide (some (c (k - 1)) = some edge.A) ||
        decide (some (c (k - 1)) = some edge.B))) with
  | none =>
    rw [List.find?_eq_none] at hf
    have hmem : m.edgeRef (c k) (c (k + 1)) ∈ m.edgesOf (c k) := by
      unfold Mesh.edgesOf
      rw [List.mem_filter]
      refine ⟨hm, ?_⟩
      unfold Edge.hasVertex
      simp only [Bool.or_eq_true, decide_eq_true_eq]
      rcases hends with ⟨a, _⟩ | ⟨_, b⟩
      · exact Or.inl a
      · exact Or.inr b
    have := hf _ hmem
    simp only [hbd, ne_eq, not_true_eq_false, decide_False, Option.some.injEq, Bool.false_or,
      Bool.not_or, Bool.and_eq_true, Bool.not_eq_true', decide_eq_false_iff_not, not_and,
      not_not] at this
    rcases hends with ⟨a, b⟩ | ⟨a, b⟩
    · rw [a, b] at this
      exact absurd (this hne2) hne3
    · rw [a, b] at this
      exact absurd (this hne3) hne2
  | some e =>
    have hp := List.find?_some hf
    have hmem := List.mem_of_find?_eq_some hf
    unfold Mesh.edgesOf at hmem
    rw [List.mem_filter] at hmem
    simp only [ne_eq, Option.some.injEq, Bool.not_or, Bool.and_eq_true, Bool.not_eq_true',
      decide_eq_false_iff_not, not_not] at hp
    obtain ⟨⟨hb, hA⟩, hB⟩ := hp
    congr 1
    refine stored_unique hs hmem.1 hm ?_
    rcases h.neighbors hmem.1 hb k hmem.2 with hprev | hnext
    · rw [edge_same_iff] at hprev
      simp only at hprev
      rcases hprev with ⟨a, _⟩ | ⟨_, b⟩
      · exact absurd a.symm hA
      · exact absurd b.symm hB
    · exact edge_same_trans hnext (edge_same_symm hsame)

/-- The edge that the search finds at the vertex `c k` of the ring at the start of
the walk: one of the two stored sides that meet at `c k`. -/
theorem Ring.first {m : Mesh} {n : Nat} {c : ℤ → Point} (h : Ring m n c) (hs : m.Sound)
    (k : ℤ) :
    nextBoundaryEdge m none (c k) = some (m.edgeRef (c k) (c (k + 1))) ∨
      nextBoundaryEdge m none (c k) = some (m.edgeRef (c (k - 1)) (c k)) := by
  obtain ⟨hm, hsame⟩ := edgeRef_spec (h.stored k)
  have hst := h.stored (k - 1)
  have e1 : k - 1 + 1 = k := by ring
  rw [e1] at hst
  obtain ⟨hm', hsame'⟩ := edgeRef_spec hst
  have hbd : (m.trianglesOf (m.edgeRef (c k) (c (k + 1)))).length = 1 :=
    (h.boundary _ hm).mpr ⟨k, hsame⟩
  have hends := (edge_same_iff _ _).mp hsame
  simp only at hends
  unfold nextBoundaryEdge
  cases hf : (m.edgesOf (c k)).find? (fun edge =>
      !(decide ((m.trianglesOf edge).length ≠ 1) || decide (none = some edge.A) ||
        decide (none = some edge.B))) with
  | none =>
    rw [List.find?_eq_none] at hf
    have hmem : m.edgeRef (c k) (c (k + 1)) ∈ m.edgesOf (c k) := by
      unfold Mesh.edgesOf
      rw [List.mem_filter]
      refine ⟨hm, ?_⟩
      unfold Edge.hasVertex
      simp only [Bool.or_eq_true, decide_eq_true_eq]
      rcases hends with ⟨a, _⟩ | ⟨_, b⟩
      · exact Or.inl a
      · exact Or.inr b
    have := hf _ hmem
    simp [hbd] at this
  | some e =>
    have hp := List.find?_some hf
    have hmem := List.mem_of_find?_eq_some hf
    unfold Mesh.edgesOf at hmem
    rw [List.mem_filter] at hmem
    simp only [ne_eq, Bool.not_or, Bool.and_eq_true, Bool.not_eq_true',
      decide_eq_false_iff_not, not_not] at hp
    obtain ⟨⟨hb, _⟩, _⟩ := hp
    rcases h.neighbors hmem.1 hb k hmem.2 with hprev | hnext
    · right
      congr 1
      exact stored_unique hs hmem.1 hm' (edge_same_trans hprev (edge_same_symm hsame'))
    · left
      congr 1
      exact stored_unique hs hmem.1 hm (edge_same_trans hnext (edge_same_symm hsame))

/-- A pass of the walk that finds a boundary edge goes to the other end of it. -/
theorem walkStep_ok (Distance : Point → Point → ℚ) (v : Point) (m : Mesh) (s : WalkState)
    {e : Edge} (hn : nextBoundaryEdge m s.vlast s.vi = some e)
    (hb : (m.trianglesOf e).length = 1) :
    ∃ s1, walkStep Distance v m s = .ok s1 ∧ s1.vlast = some s.vi ∧
      s1.vi = (if s.vi = e.A then e.B else e.A) := by
  unfold walkStep
  rw [hn]
  dsimp only
  cases ht : m.trianglesOf e with
  | nil =>
    rw [ht] at hb
    simp at hb
  | cons t rest => exact ⟨_, rfl, rfl, rfl⟩

theorem other_end {e : Edge} {a b : Point} (h : e.same ⟨a, b⟩ = true) (hab : a ≠ b) :
    (if a = e.A then e.B else e.A) = b := by
  rw [edge_same_iff] at h
  simp only at h
  rcases h with ⟨h1, h2⟩ | ⟨h1, h2⟩
  · rw [if_pos h1.symm, h2]
  · rw [if_neg (fun h => hab (h.trans h1)), h1]

/-- From the vertex `c k` of the ring, reached from `c (k - 1)`, the walk goes on
along the sides of the polygon until it is back at `c 0`. -/
theorem Ring.run {m : Mesh} {n : Nat} {c : ℤ → Point} (h : Ring m n c) (hs : m.Sound)
    (Distance : Point → Point → ℚ) (v : Point) :
    ∀ (j k fuel : Nat) (s : WalkState), 1 ≤ k → k + j = n → 1 ≤ j → j ≤ fuel →
      s.vlast = some (c ((k : ℤ) - 1)) → s.vi = c k →
      ∃ s', boundaryWalk Distance v m (c 0) fuel s = .ok s' ∧ s'.vi = c 0 ∧
        walkTrace Distance v m (c 0) fuel s =
          (List.range' k j).map (fun i : Nat => m.edgeRef (c i) (c ((i : ℤ) + 1))) := by
  intro j
  induction j with
  | zero => intro k fuel s _ _ hj; omega
  | succ j ih =>
    intro k fuel s hk hkn _ hfuel hvl hvi
    obtain ⟨f, rfl⟩ : ∃ f, fuel = f + 1 := ⟨fuel - 1, by omega⟩
    have hnext : nextBoundaryEdge m s.vlast s.vi =
        some (m.edgeRef (c k) (c ((k : ℤ) + 1))) := by
      rw [hvl, hvi]
      exact h.next hs k
    obtain ⟨hm, hsame⟩ := edgeRef_spec (h.stored k)
    have hbd : (m.trianglesOf (m.edgeRef (c k) (c ((k : ℤ) + 1)))).length = 1 :=
      (h.boundary _ hm).mpr ⟨k, hsame⟩
    obtain ⟨s1, hstep, hl1, hi1⟩ := walkStep_ok Distance v m s hnext hbd
    rw [hvi, other_end hsame (h.ne_succ k).1] at hi1
    rw [hvi] at hl1
    rw [boundaryWalk, walkTrace, hnext, hstep]
    dsimp only
    rw [List.range'_succ, List.map_cons]
    by_cases hj0 : j = 0
    · subst hj0
      have hback : s1.vi = c 0 := by
        rw [hi1]
        have := h.periodic 0
        rw [← this]
        congr 1
        omega
      rw [if_neg (not_not.mpr hback), if_neg (not_not.mpr hback)]
      exact ⟨s1, rfl, hback, by simp⟩
    · have hne : s1.vi ≠ c 0 := by
        rw [hi1]
        refine h.ne_of_lt (by omega) ?_
        rw [abs_lt]
        constructor <;> omega
      rw [if_pos hne, if_pos hne]
      obtain ⟨s', hw, hv', htr⟩ := ih (k + 1) f s1 (by omega) (by omega) (by omega) (by omega)
        (by rw [hl1]; congr 2; push_cast; ring) (by rw [hi1]; congr 1)
      exact ⟨s', hw, hv', by rw [htr]⟩

/-- The walk from the vertex `c 0` of the ring, when the first edge found leads to
`c 1`: it comes back to `c 0` after having found the sides of the polygon one after
the other. -/
theorem Ring.walk {m : Mesh} {n : Nat} {c : ℤ → Point} (h : Ring m n c) (hs : m.Sound)
    (Distance : Point → Point → ℚ) (v : Point) (fuel : Nat) (hfuel : n ≤ fuel)
    (hfirst : nextBoundaryEdge m none (c 0) = some (m.edgeRef (c 0) (c 1))) :
    ∃ s, boundaryWalk Distance v m (c 0) fuel ⟨DBL_MAX, none, none, c 0⟩ = .ok s ∧
      s.vi = c 0 ∧
      walkTrace Distance v m (c 0) fuel ⟨DBL_MAX, none, none, c 0⟩ =
        (List.range' 0 n).map (fun i : Nat => m.edgeRef (c i) (c ((i : ℤ) + 1))) := by
  have h3 := h.three
  obtain ⟨f, rfl⟩ : ∃ f, fuel = f + 1 := ⟨fuel - 1, by omega⟩
  obtain ⟨k, rfl⟩ : ∃ k, n = k + 1 := ⟨n - 1, by omega⟩
  have hst := h.stored 0
  rw [zero_add] at hst
  obtain ⟨hm, hsame⟩ := edgeRef_spec hst
  have hbd : (m.trianglesOf (m.edgeRef (c 0) (c 1))).length = 1 :=
    (h.boundary _ hm).mpr ⟨0, by rw [zero_add]; exact hsame⟩
  have hne := (h.ne_succ 0).1
  rw [zero_add] at hne
  obtain ⟨s1, hstep, hl1, hi1⟩ :=
    walkStep_ok Distance v m ⟨DBL_MAX, none, none, c 0⟩ hfirst hbd
  dsimp only at hl1 hi1
  rw [other_end hsame hne] at hi1
  rw [boundaryWalk, walkTrace, hstep]
  dsimp only
  rw [hfirst]
  dsimp only
  have hne1 : s1.vi ≠ c 0 := by
    rw [hi1]
    exact Ne.symm hne
  rw [if_pos hne1, if_pos hne1, List.range'_succ, List.map_cons]
  obtain ⟨s', hw, hv', htr⟩ := h.run hs Distance v k 1 f s1 (le_refl 1) (by omega) (by omega)
    (by omega) (by rw [hl1]; congr 2) (by rw [hi1]; congr 1)
  refine ⟨s', hw, hv', ?_⟩
  rw [htr]
  simp

theorem cyclic_mod (l : List Point) (i : ℤ) (hl : 0 < l.length) :
    ∃ r : Nat, r < l.length ∧ cyclic l r = cyclic l i ∧
      cyclic l ((r : ℤ) + 1) = cyclic l (i + 1) := by
  have hn : (0 : ℤ) < l.length := by exact_mod_cast hl
  have h0 := Int.emod_nonneg i (ne_of_gt hn)
  have h1 := Int.emod_lt_of_pos i hn
  refine ⟨(i % l.length).toNat, ?_, ?_, ?_⟩
  · have := Int.toNat_of_nonneg h0
    omega
  · unfold cyclic
    rw [Int.toNat_of_nonneg h0, Int.emod_emod_of_dvd _ (dvd_refl _)]
  · unfold cyclic
    rw [Int.toNat_of_nonneg h0, Int.emod_add_emod]

/-- A mesh whose boundary edges form the polygon `l` has the ring `cyclic l`. -/
theorem BoundaryPolygon.ring {m : Mesh} {l : List Point} (hp : BoundaryPolygon m l) :
    Ring m l.length (cyclic l) where
  three := hp.1
  periodic := fun i => by
    unfold cyclic
    rw [Int.add_emod_self]
  simple := fun i j hij => by
    have hl : 0 < l.length := by
      have := hp.1
      omega
    have hn : (0 : ℤ) < l.length := by exact_mod_cast hl
    have hi0 := Int.emod_nonneg i (ne_of_gt hn)
    have hi1 := Int.emod_lt_of_pos i hn
    have hj0 := Int.emod_nonneg j (ne_of_gt hn)
    have hj1 := Int.emod_lt_of_pos j hn
    have ha : (i % l.length).toNat < l.length := by
      have := Int.toNat_of_nonneg hi0
      omega
    have hb : (j % l.length).toNat < l.length := by
      have := Int.toNat_of_nonneg hj0
      omega
    unfold cyclic at hij
    rw [List.getD_eq_getElem _ _ ha, List.getD_eq_getElem _ _ hb] at hij
    have hab := (List.Nodup.getElem_inj_iff hp.2.1).mp hij
    have : i % l.length = j % l.length := by
      have e1 := Int.toNat_of_nonneg hi0
      have e2 := Int.toNat_of_nonneg hj0
      omega
    exact Int.dvd_of_emod_eq_zero ((Int.emod_eq_emod_iff_emod_sub_eq_zero).mp this)
  stored := fun i => by
    have hl : 0 < l.length := by
      have := hp.1
      omega
    obtain ⟨r, hr, e1, e2⟩ := cyclic_mod l i hl
    rw [← e1, ← e2]
    exact hp.2.2.1 r hr
  boundary := fun e he => by
    have hl : 0 < l.length := by
      have := hp.1
      omega
    rw [hp.2.2.2 e he]
    constructor
    · rintro ⟨i, _, hi⟩
      exact ⟨i, hi⟩
    · rintro ⟨i, hi⟩
      obtain ⟨r, hr, e1, e2⟩ := cyclic_mod l i hl
      refine ⟨r, hr, ?_⟩
      rw [e1, e2]
      exact hi

/-- The stored sides of the ring, listed once around: no side twice, they are the
boundary edges of the mesh, and there are `n` of them. -/
theorem Ring.sides {m : Mesh} {n : Nat} {c : ℤ → Point} (h : Ring m n c) (hs : m.Sound) :
    ((List.range' 0 n).map (fun i : Nat => m.edgeRef (c i) (c ((i : ℤ) + 1)))).Nodup ∧
    (∀ e, e ∈ (List.range' 0 n).map (fun i : Nat => m.edgeRef (c i) (c ((i : ℤ) + 1))) ↔
      e ∈ m.edges ∧ (m.trianglesOf e).length = 1) ∧
    n ≤ m.edges.length := by
  have h3 : (3 : ℤ) ≤ n := by exact_mod_cast h.three
  have hmem : ∀ e, e ∈ (List.range' 0 n).map (fun i : Nat => m.edgeRef (c i) (c ((i : ℤ) + 1))) →
      e ∈ m.edges ∧ (m.trianglesOf e).length = 1 := by
    intro e he
    rw [List.mem_map] at he
    obtain ⟨i, _, rfl⟩ := he
    obtain ⟨hm, hsame⟩ := edgeRef_spec (h.stored i)
    exact ⟨hm, (h.boundary _ hm).mpr ⟨i, hsame⟩⟩
  have hnd : ((List.range' 0 n).map
      (fun i : Nat => m.edgeRef (c i) (c ((i : ℤ) + 1)))).Nodup := by
    refine List.Nodup.map_on ?_ (List.nodup_range' 0 n)
    intro x hx y hy hxy
    rw [List.mem_range'_1] at hx hy
    obtain ⟨_, sx⟩ := edgeRef_spec (h.stored x)
    obtain ⟨_, sy⟩ := edgeRef_spec (h.stored y)
    rw [hxy] at sx
    have hpair := edge_same_trans (edge_same_symm sx) sy
    rw [edge_same_iff] at hpair
    simp only at hpair
    rcases hpair with ⟨a, _⟩ | ⟨a, b⟩
    · have := Int.eq_zero_of_abs_lt_dvd (h.simple x y a) (by
        rw [abs_lt]
        constructor <;> omega)
      omega
    · have d1 := h.simple x (y + 1) a
      have d2 := h.simple (x + 1) y b
      have d3 : (n : ℤ) ∣ 2 := by
        have := Int.dvd_sub d2 d1
        have e : (x : ℤ) + 1 - y - (x - (y + 1)) = 2 := by ring
        rw [e] at this
        exact this
      have := Int.eq_zero_of_abs_lt_dvd d3 (by
        rw [abs_lt]
        constructor <;> omega)
      omega
  refine ⟨hnd, fun e => ⟨hmem e, ?_⟩, ?_⟩
  · rintro ⟨he, hb⟩
    obtain ⟨i, hi⟩ := (h.boundary e he).mp hb
    have hn : (0 : ℤ) < n := by omega
    have h0 := Int.emod_nonneg i (ne_of_gt hn)
    have h1 := Int.emod_lt_of_pos i hn
    have hr := Int.toNat_of_nonneg h0
    have hdiv : (n : ℤ) ∣ i % n - i := by
      refine ⟨-(i / n), ?_⟩
      have := Int.emod_add_ediv i n
      linarith
    have c1 : c ((i % n).toNat : ℤ) = c i := by
      rw [hr]
      exact h.congr hdiv
    have c2 : c (((i % n).toNat : ℤ) + 1) = c (i + 1) := by
      rw [hr]
      refine h.congr ?_
      have e : i % n + 1 - (i + 1) = i % n - i := by ring
      rw [e]
      exact hdiv
    rw [List.mem_map]
    refine ⟨(i % n).toNat, ?_, ?_⟩
    · rw [List.mem_range'_1]
      omega
    · obtain ⟨hm, hsame⟩ := edgeRef_spec (h.stored ((i % n).toNat : ℤ))
      refine (stored_unique hs he hm ?_).symm
      rw [← c1, ← c2] at hi
      exact edge_same_trans hi (edge_same_symm hsame)
  · have hsub : (List.range' 0 n).map (fun i : Nat => m.edgeRef (c i) (c ((i : ℤ) + 1))) ⊆
        m.edges := fun e he => (hmem e he).1
    have := (List.Nodup.subperm hnd hsub).length_le
    simpa using this

theorem edgeRef_comm {m : Mesh} {a b : Point} (h : m.hasEdge a b = true) :
    m.edgeRef a b = m.edgeRef b a := by
  obtain ⟨e, he⟩ := find_stored_edge h
  have hfun : (fun e : Edge => e.same ⟨b, a⟩) = (fun e : Edge => e.same ⟨a, b⟩) := by
    funext e
    exact same_swap e b a
  unfold Mesh.edgeRef
  rw [hfun, he]
  rfl

/-- A ring can be listed, from the same vertex, in the direction of the first edge
that the search finds there. -/
theorem Ring.oriented {m : Mesh} {n : Nat} {c : ℤ → Point} (h : Ring m n c) (hs : m.Sound) :
    ∃ c', Ring m n c' ∧ c' 0 = c 0 ∧
      nextBoundaryEdge m none (c' 0) = some (m.edgeRef (c' 0) (c' 1)) := by
  rcases h.first hs 0 with hf | hf
  · refine ⟨c, h, rfl, ?_⟩
    rw [zero_add] at hf
    exact hf
  · refine ⟨fun i => c (-i), h.reverse, ?_, ?_⟩
    · dsimp only
      rw [neg_zero]
    · dsimp only
      rw [neg_zero, hf]
      have hst := h.stored (0 - 1)
      have e : (0 : ℤ) - 1 + 1 = 0 := by ring
      rw [e] at hst
      rw [edgeRef_comm hst]
      rfl

/-- C18 (as amended): let the mesh be sound and let its boundary edges, the stored
edges with exactly one incident triangle, form the simple closed polygon with the
vertices `c`.  If the vertex at which `ExtendMesh` starts its walk, the first
vertex of the vertex set that is not `v`, is a vertex of the polygon, then the walk
is well defined and finite: every search finds a boundary edge that does not lead
back (no pass ends with `Undefined`, and the `2 * E + 2` passes granted are not
exhausted), the walk stops when it is back at the starting vertex, and the edges it
visits are the boundary edges of the mesh, each of them once. -/
theorem boundaryWalk_polygon (Distance : Point → Point → ℚ) (v : Point) (mesh : Mesh)
    (c : List Point) (vfirst : Point) (hs : mesh.Sound) (hpoly : BoundaryPolygon mesh c)
    (hfirst : firstVertex v mesh = some vfirst) (hon : vfirst ∈ c) :
    ∃ s, boundaryWalk Distance v mesh vfirst (walkFuel mesh) ⟨DBL_MAX, none, none, vfirst⟩ =
        .ok s ∧
      s.vi = vfirst ∧ selectEdge Distance v mesh = .ok s.minEdge ∧
      (walkTrace Distance v mesh vfirst (walkFuel mesh) ⟨DBL_MAX, none, none, vfirst⟩).Nodup ∧
      (walkTrace Distance v mesh vfirst (walkFuel mesh)
        ⟨DBL_MAX, none, none, vfirst⟩).length = c.length ∧
      ∀ e, e ∈ walkTrace Distance v mesh vfirst (walkFuel mesh) ⟨DBL_MAX, none, none, vfirst⟩ ↔
        e ∈ mesh.edges ∧ (mesh.trianglesOf e).length = 1 := by
  have R := hpoly.ring
  obtain ⟨k, hk, hkv⟩ : ∃ k : Nat, k < c.length ∧ cyclic c k = vfirst := by
    obtain ⟨i, hi, hget⟩ := List.mem_iff_getElem.mp hon
    refine ⟨i, hi, ?_⟩
    unfold cyclic
    have : ((i : ℤ) % (c.length : ℤ)).toNat = i := by
      rw [Int.emod_eq_of_lt (by omega) (by exact_mod_cast hi)]
      simp
    rw [this, List.getD_eq_getElem _ _ hi]
    exact hget
  obtain ⟨c', R', h0, hf⟩ := (R.shift k).oriented hs
  rw [zero_add, hkv] at h0
  obtain ⟨hnd, hmem, hle⟩ := R'.sides hs
  obtain ⟨s, hw, hv, htr⟩ := R'.walk hs Distance v (walkFuel mesh) (by
    unfold walkFuel
    omega) hf
  rw [h0] at hw hv htr
  refine ⟨s, hw, hv, ?_, ?_, ?_, ?_⟩
  · unfold selectEdge
    rw [hfirst]
    dsimp only
    rw [hw]
  · rw [htr]
    exact hnd
  · rw [htr]
    simp
  · rw [htr]
    exact hmem

/-- Witness for C18 (as amended): the mesh `kite`, whose boundary is the polygon
`(0,0), (1,-3), (2,0), (1,3)`, and the vertex `(9,9)`; the walk starts at `(0,0)`
and goes round in the direction of `(1,3)`. -/
theorem boundaryWalk_polygon_witness :
    ∃ s, boundaryWalk euclidean ⟨9, 9⟩ kite ⟨0, 0⟩ (walkFuel kite)
        ⟨DBL_MAX, none, none, ⟨0, 0⟩⟩ = .ok s ∧
      s.vi = ⟨0, 0⟩ ∧ selectEdge euclidean ⟨9, 9⟩ kite = .ok s.minEdge ∧
      (walkTrace euclidean ⟨9, 9⟩ kite ⟨0, 0⟩ (walkFuel kite)
        ⟨DBL_MAX, none, none, ⟨0, 0⟩⟩).Nodup ∧
      (walkTrace euclidean ⟨9, 9⟩ kite ⟨0, 0⟩ (walkFuel kite)
        ⟨DBL_MAX, none, none, ⟨0, 0⟩⟩).length = 4 ∧
      ∀ e, e ∈ walkTrace euclidean ⟨9, 9⟩ kite ⟨0, 0⟩ (walkFuel kite)
          ⟨DBL_MAX, none, none, ⟨0, 0⟩⟩ ↔
        e ∈ kite.edges ∧ (kite.trianglesOf e).length = 1 :=
  boundaryWalk_polygon euclidean ⟨9, 9⟩ kite [⟨0, 0⟩, ⟨1, -3⟩, ⟨2, 0⟩, ⟨1, 3⟩] ⟨0, 0⟩
    (by decide!) (by decide!) (by decide!) (by decide!)

/-- C18 (the claim fails): the mesh `looseVertexFirst` is populated, satisfies
adjacency closure, and its boundary edges form the triangle `(0,0), (4,0), (0,4)`;
the vertex `(5,5)` has no incident edge.  The walk of `ExtendMesh` starts at the
first vertex of the vertex set, `(-1,-1)`, which has no edge: the search runs past
the end of its empty incident-edge set. -/
theorem ExtendMesh_walk_from_loose_vertex :
    looseVertexFirst.triangles ≠ [] ∧ AdjacencyClosure looseVertexFirst ∧
    BoundaryPolygon looseVertexFirst [⟨0, 0⟩, ⟨4, 0⟩, ⟨0, 4⟩] ∧
    (looseVertexFirst.emplaceVertex ⟨5, 5⟩).edgesOf ⟨5, 5⟩ = [] ∧
    firstVertex ⟨5, 5⟩ (looseVertexFirst.emplaceVertex ⟨5, 5⟩) = some ⟨-1, -1⟩ ∧
    nextBoundaryEdge (looseVertexFirst.emplaceVertex ⟨5, 5⟩) none ⟨-1, -1⟩ = none ∧
    selectEdge euclidean ⟨5, 5⟩ (looseVertexFirst.emplaceVertex ⟨5, 5⟩) = .error .Undefined ∧
    (ExtendMesh euclidean ⟨5, 5⟩ (looseVertexFirst.emplaceVertex ⟨5, 5⟩)).error =
      some .Undefined ∧
    (AddPerimeterPoint euclidean ⟨5, 5⟩ looseVertexFirst).error = some .Undefined := by
  decide!

/-! ## The Delaunay test on a mesh with at most two triangles on an edge -/

/-- C8 (as amended): for every sound mesh in which every edge has at most two
incident triangles, `TestDelaunayCondition` called with an empty offending set
returns `true` if and only if there is no edge `(I, J)` with two incident triangles
`T1` (opposite vertex `K`) and `T2` (opposite vertex `L`) such that
`|center(T1) - L|^2 + EPSILON < radius(T1)^2` or
`|center(T2) - K|^2 + EPSILON < radius(T2)^2`; and on return the offending set
consists, up to the identity of triangles, of the triangles incident to such an
edge. -/
theorem TestDelaunayCondition_two_triangles (mesh : Mesh) (hs : mesh.Sound)
    (hb : ∀ e ∈ mesh.edges, (mesh.trianglesOf e).length ≤ 2) :
    ((TestDelaunayCondition [] mesh).1 = true ↔
      ¬ ∃ e t1 t2, IncidentViolation mesh e t1 t2) ∧
    (∀ t, (∃ u ∈ (TestDelaunayCondition [] mesh).2, u.same t = true) ↔
      ∃ e t1 t2, IncidentViolation mesh e t1 t2 ∧ (t1.same t = true ∨ t2.same t = true)) := by
  have toListed : ∀ e t1 t2, IncidentViolation mesh e t1 t2 →
      ViolatingEdge mesh e t1 t2 ∨ ViolatingEdge mesh e t2 t1 := by
    rintro e t1 t2 ⟨he, h1, h2, hne, hv⟩
    have hlen := hb e he
    rcases hto : mesh.trianglesOf e with _ | ⟨a, _ | ⟨b, _ | ⟨c, l⟩⟩⟩
    · rw [hto] at h1
      simp at h1
    · rw [hto] at h1 h2
      simp only [List.mem_singleton] at h1 h2
      exact absurd (h1.trans h2.symm) hne
    · rw [hto] at h1 h2
      simp only [List.mem_cons, List.mem_singleton, List.not_mem_nil, or_false] at h1 h2
      rcases h1 with rfl | rfl <;> rcases h2 with rfl | rfl
      · exact absurd rfl hne
      · exact Or.inl ⟨he, ⟨[], hto⟩, hv⟩
      · exact Or.inr ⟨he, ⟨[], hto⟩, hv.symm⟩
      · exact absurd rfl hne
    · rw [hto] at hlen
      simp at hlen
  have ofListed : ∀ e t1 t2, ViolatingEdge mesh e t1 t2 → IncidentViolation mesh e t1 t2 := by
    rintro e t1 t2 ⟨he, ⟨rest, hto⟩, hv⟩
    have hp : (mesh.triangles.filter (fun t => t.hasEdge e)).Pairwise
        (fun t u => t.same u = false) := hs.2.1.filter _
    unfold Mesh.trianglesOf at hto
    rw [hto, List.pairwise_cons] at hp
    have hne : t1 ≠ t2 := by
      intro h
      have := hp.1 t2 (List.mem_cons_self _ _)
      rw [h, Triangle.same_refl] at this
      exact Bool.noConfusion this
    refine ⟨he, ?_, ?_, hne, hv⟩
    · unfold Mesh.trianglesOf
      rw [hto]
      exact List.mem_cons_self _ _
    · unfold Mesh.trianglesOf
      rw [hto]
      exact List.mem_cons_of_mem _ (List.mem_cons_self _ _)
  obtain ⟨k1, k2⟩ := TestDelaunayCondition_first_two mesh
  constructor
  · rw [k1]
    constructor
    · rintro hno ⟨e, t1, t2, hv⟩
      rcases toListed e t1 t2 hv with h | h
      · exact hno ⟨e, t1, t2, h⟩
      · exact hno ⟨e, t2, t1, h⟩
    · rintro hno ⟨e, t1, t2, hv⟩
      exact hno ⟨e, t1, t2, ofListed e t1 t2 hv⟩
  · intro t
    rw [k2]
    constructor
    · rintro ⟨e, t1, t2, hv, hsame⟩
      exact ⟨e, t1, t2, ofListed e t1 t2 hv, hsame⟩
    · rintro ⟨e, t1, t2, hv, hsame⟩
      rcases toListed e t1 t2 hv with h | h
      · exact ⟨e, t1, t2, h, hsame⟩
      · exact ⟨e, t2, t1, h, hsame.symm⟩

/-- Witness for C8 (as amended): the mesh `kite`, on which the test returns `true`,
and the mesh `dart`, on which it returns `false`. -/
theorem TestDelaunayCondition_two_triangles_witness :
    ((TestDelaunayCondition [] kite).1 = true ↔
      ¬ ∃ e t1 t2, IncidentViolation kite e t1 t2) ∧
    (TestDelaunayCondition [] kite).1 = true ∧ (TestDelaunayCondition [] dart).1 = false :=
  ⟨(TestDelaunayCondition_two_triangles kite (by decide!) (by decide!)).1, by decide!,
    by decide!⟩

/-- C8 (the claim fails): the mesh `fan` satisfies adjacency closure; its edge from
`(0,0)` to `(2,0)` has three incident triangles, and the apex `(1,1/2)` of the
third lies inside the circumcircle of the first by more than `EPSILON`.
`TestDelaunayCondition` reads the first two triangles of the edge only and returns
`true` with an empty offending set. -/
theorem TestDelaunayCondition_fan_third_triangle :
    AdjacencyClosure fan ∧
    fan.trianglesOf ⟨⟨0, 0⟩, ⟨2, 0⟩⟩ =
      [⟨⟨0, 0⟩, ⟨2, 0⟩, ⟨1, 3⟩⟩, ⟨⟨0, 0⟩, ⟨1, -3⟩, ⟨2, 0⟩⟩, ⟨⟨0, 0⟩, ⟨2, 0⟩, ⟨1, 1 / 2⟩⟩] ∧
    IncidentViolation fan ⟨⟨0, 0⟩, ⟨2, 0⟩⟩ ⟨⟨0, 0⟩, ⟨2, 0⟩, ⟨1, 3⟩⟩
      ⟨⟨0, 0⟩, ⟨2, 0⟩, ⟨1, 1 / 2⟩⟩ ∧
    TestDelaunayCondition [] fan = (true, []) := by
  decide!

/-! ## The discretizer over a store that admits collinear triangles -/

theorem flipWith_emplaceTriangle (edge : Edge) (t1 t2 : Triangle) (I J K L : Point)
    (s : FlipState) :
    flipWith Mesh.emplaceTriangle edge t1 t2 I J K L s = flip edge t1 t2 I J K L s :=
  rfl

theorem legalizeStepWith_emplaceTriangle (v : Point) (edge : Edge) (t1 t2 : Triangle)
    (edges : List Edge) (mesh : Mesh) :
    legalizeStepWith Mesh.emplaceTriangle v edge t1 t2 edges mesh =
      legalizeStep v edge t1 t2 edges mesh :=
  rfl

/-- With the store of §4.M the cascade over a store is `LegalizeEdges`. -/
theorem LegalizeEdgesWith_emplaceTriangle (fuel : Nat) (v : Point) :
    ∀ (q : List Edge) (mesh : Mesh),
      LegalizeEdgesWith Mesh.emplaceTriangle fuel v q mesh = LegalizeEdges fuel v q mesh := by
  induction fuel with
  | zero =>
    intro q mesh
    cases q <;> rfl
  | succ n ih =>
    intro q mesh
    cases q with
    | nil => rfl
    | cons e es =>
      unfold LegalizeEdgesWith LegalizeEdges
      generalize mesh.trianglesOf e = ts
      rcases ts with _ | ⟨t1, _ | ⟨t2, _ | ⟨t3, r⟩⟩⟩
      · rfl
      · exact ih _ _
      · dsimp only
        rw [legalizeStepWith_emplaceTriangle]
        split
        · rfl
        · exact ih _ _
      · rfl

theorem SplitTriangleWith_emplaceTriangle (t : Triangle) (v : Point) (mesh : Mesh) :
    SplitTriangleWith Mesh.emplaceTriangle t v mesh = SplitTriangle t v mesh := by
  unfold SplitTriangleWith SplitTriangle
  simp only [LegalizeEdgesWith_emplaceTriangle]

/-- With the store of §4.M the insertion of an interior point over a store is
`AddInteriorPoint`. -/
theorem AddInteriorPointWith_emplaceTriangle (polygonDiscretizer : Mesh → Outcome) (p : Point)
    (mesh : Mesh) :
    AddInteriorPointWith Mesh.emplaceTriangle polygonDiscretizer p mesh =
      AddInteriorPoint polygonDiscretizer p mesh := by
  unfold AddInteriorPointWith AddInteriorPoint
  simp only [SplitTriangleWith_emplaceTriangle]

/-- The store that admits collinear triangles differs from the store of §4.M only
on a collinear triple of distinct points. -/
theorem admitTriangle_emplaceTriangle (m : Mesh) (a b c : Point)
    (h : ConvexityOfStep a b c ≠ 0) : m.admitTriangle a b c = m.emplaceTriangle a b c := by
  unfold Mesh.admitTriangle Mesh.emplaceTriangle degenerateTriangle
  simp [h]

/-! ## The unit square and its centre -/

/-- C11 (the claim fails): the mesh `sliver` is sound, satisfies adjacency closure
and the boundary-count invariant, its boundary is the simple polygon `(0,0),
(-1/1000,-1/1000), (1,0), (0,1)`, its two triangles are not degenerate, and
`V - E + F = 4 - 5 + 2 = 1`; the point `sliverPoint` is not a vertex, lies strictly
inside the first triangle and in no other.  `AddInteriorPoint` splits that triangle
and flips the edge from `(0,0)` to `(1,0)`: the store refuses the triangle `(0,0),
(-1/1000,-1/1000), sliverPoint`, collinear within the tolerance, and the call ends
with `Degenerate` in the middle of the flip, with 5 vertices, 8 edges and 2
triangles, so that `V - E + F = -1`. -/
theorem AddInteriorPoint_sliver_euler :
    sliver.Sound ∧ AdjacencyClosure sliver ∧ BoundaryCount sliver ∧
    BoundaryPolygon sliver [⟨0, 0⟩, ⟨-1 / 1000, -1 / 1000⟩, ⟨1, 0⟩, ⟨0, 1⟩] ∧
    (∀ t ∈ sliver.triangles, t.WellFormed ∧ degenerateTriangle t.A t.B t.C = false) ∧
    ((sliver.vertices.length : Int) - sliver.edges.length + sliver.triangles.length = 1) ∧
    sliverPoint ∉ sliver.vertices ∧
    StrictlyInside ⟨⟨0, 0⟩, ⟨1, 0⟩, ⟨0, 1⟩⟩ sliverPoint ∧
    sliver.triangles.filter (fun t => Contains t sliverPoint) = [⟨⟨0, 0⟩, ⟨1, 0⟩, ⟨0, 1⟩⟩] ∧
    (AddInteriorPoint idlePolygonDiscretizer sliverPoint sliver).error = some .Degenerate ∧
    (AddInteriorPoint idlePolygonDiscretizer sliverPoint sliver).mesh.vertices.length = 5 ∧
    (AddInteriorPoint idlePolygonDiscretizer sliverPoint sliver).mesh.edges.length = 8 ∧
    (AddInteriorPoint idlePolygonDiscretizer sliverPoint sliver).mesh.triangles.length = 2 ∧
    (((AddInteriorPoint idlePolygonDiscretizer sliverPoint sliver).mesh.vertices.length : Int) -
        (AddInteriorPoint idlePolygonDiscretizer sliverPoint sliver).mesh.edges.length +
        (AddInteriorPoint idlePolygonDiscretizer sliverPoint sliver).mesh.triangles.length =
      -1) := by
  decide!

/-- C13 (the claim fails): the mesh `sliverSplit`, which `SplitTriangle` makes of
`sliver` at `sliverPoint`, is sound, satisfies adjacency closure and the
boundary-count invariant, and its boundary is the simple polygon `(0,0),
(-1/1000,-1/1000), (1,0), (0,1)`; the focus `sliverPoint` is one of its vertices
and the queue holds three of its edges.  `LegalizeEdges` flips the edge from
`(0,0)` to `(1,0)`: the store refuses the triangle `(0,0), (-1/1000,-1/1000),
sliverPoint`, collinear within the tolerance, and the call ends with `Degenerate`
while the queue holds four edges. -/
theorem LegalizeEdges_sliver_degenerate :
    splitStore ⟨⟨0, 0⟩, ⟨1, 0⟩, ⟨0, 1⟩⟩ sliverPoint (sliver.emplaceVertex sliverPoint) =
      .ok sliverSplit ∧
    sliverSplit.Sound ∧ AdjacencyClosure sliverSplit ∧ BoundaryCount sliverSplit ∧
    BoundaryPolygon sliverSplit [⟨0, 0⟩, ⟨-1 / 1000, -1 / 1000⟩, ⟨1, 0⟩, ⟨0, 1⟩] ∧
    sliverPoint ∈ sliverSplit.vertices ∧
    Queued [⟨⟨0, 0⟩, ⟨1, 0⟩⟩, ⟨⟨1, 0⟩, ⟨0, 1⟩⟩, ⟨⟨0, 1⟩, ⟨0, 0⟩⟩] sliverSplit ∧
    (LegalizeEdges (legalizeFuel [⟨⟨0, 0⟩, ⟨1, 0⟩⟩, ⟨⟨1, 0⟩, ⟨0, 1⟩⟩, ⟨⟨0, 1⟩, ⟨0, 0⟩⟩] sliverSplit)
      sliverPoint [⟨⟨0, 0⟩, ⟨1, 0⟩⟩, ⟨⟨1, 0⟩, ⟨0, 1⟩⟩, ⟨⟨0, 1⟩, ⟨0, 0⟩⟩] sliverSplit).1.error =
      some .Degenerate ∧
    (LegalizeEdges (legalizeFuel [⟨⟨0, 0⟩, ⟨1, 0⟩⟩, ⟨⟨1, 0⟩, ⟨0, 1⟩⟩, ⟨⟨0, 1⟩, ⟨0, 0⟩⟩] sliverSplit)
      sliverPoint [⟨⟨0, 0⟩, ⟨1, 0⟩⟩, ⟨⟨1, 0⟩, ⟨0, 1⟩⟩, ⟨⟨0, 1⟩, ⟨0, 0⟩⟩] sliverSplit).2 =
      [⟨⟨1, 0⟩, ⟨0, 1⟩⟩, ⟨⟨0, 1⟩, ⟨0, 0⟩⟩, ⟨⟨0, 0⟩, ⟨-1 / 1000, -1 / 1000⟩⟩,
       ⟨⟨-1 / 1000, -1 / 1000⟩, ⟨1, 0⟩⟩] := by
  decide!

/-! ## A point on an edge of the triangle that contains it -/

end Delaunay
